import Mathlib

/-!
# 1-Wire bus controller over the ESP32 RMT peripheral (`src/src/onewire_rmt.c`)

A shallow embedding of the protocol engine: slot encoding and decoding, bus
reset with presence detection, and the ROM search (`onewire_rmt_next`).

The RMT driver, the GPIO registers and the FreeRTOS ring buffer are outside the
repository.  They are represented by a record `Hw σ` of behaviours over an
arbitrary peripheral state `σ`; every call the C code makes into them is
applied to that state in source order and appended to an event log.
Machine integers are `Nat`/`Int`, reduced modulo `2^8` where the C code can
wrap.
-/

namespace Onewire

/-! ## Timing table (`#define`s, microseconds) -/

def OW_DURATION_RESET : Nat := 480
def OW_DURATION_SLOT : Nat := 75
def OW_DURATION_1_LOW : Nat := 2
def OW_DURATION_1_HIGH : Nat := OW_DURATION_SLOT - OW_DURATION_1_LOW
def OW_DURATION_0_LOW : Nat := 65
def OW_DURATION_0_HIGH : Nat := OW_DURATION_SLOT - OW_DURATION_0_LOW
def OW_DURATION_SAMPLE : Nat := 15 - 2
def OW_DURATION_RX_IDLE : Nat := OW_DURATION_SLOT + 2

/-- Default power mode for generic write operations. -/
def owDefaultPower : Nat := 0

/-! ## Pulse items and the peripheral interface -/

/-- One RMT item: two (level, duration) halves. -/
structure rmt_item32_t where
  duration0 : Nat
  level0 : Nat
  duration1 : Nat
  level1 : Nat
deriving DecidableEq, Repr

/-- The buffer handed to `rmt_write_items`: the fully written items, and the
first half `(level0, duration0)` of a trailing end marker when the code appends
one (the code never writes the second half of the marker item). -/
structure tx_buffer where
  items : List rmt_item32_t
  end_marker : Option (Nat × Nat)
deriving DecidableEq, Repr

/-- Number of items passed to `rmt_write_items`. -/
def tx_buffer.count (b : tx_buffer) : Nat :=
  b.items.length + (if b.end_marker.isSome then 1 else 0)

/-- The wait argument of `xRingbufferReceive`: a number of ticks, or
`portMAX_DELAY` (wait without limit). -/
inductive TickType where
  | ticks (n : Nat)
  | portMAX_DELAY
deriving DecidableEq, Repr

/-- Calls into the peripherals, in the order the code issues them. -/
inductive Event where
  | attach (old_gpio new_gpio : Int)
  | pad_driver (gpio : Int) (v : Nat)
  | set_rx_idle_thresh (v : Nat)
  | flush_rx_buf
  | rx_start
  | rx_stop
  | write_items (buf : tx_buffer)
  | receive (wait : TickType)
  | return_item
deriving DecidableEq, Repr

/-- Ways in which a call fails to produce a C-level result. -/
inductive Fault where
  | blocked
  | out_of_bounds
  | fuel
deriving DecidableEq, Repr

/-- Behaviour of the peripherals over a state `σ`.  `effect` covers the calls
whose result the code does not use, `rmt_write_items` yields whether the driver
returned `ESP_OK`, `ringbuf` yields the capture that arrives in the RX ring
buffer (if one ever does), `rx_idle_thresh` is `rmt_get_rx_idle_thresh`. -/
structure Hw (σ : Type) where
  effect : σ → Event → σ
  rmt_write_items : σ → tx_buffer → Bool × σ
  ringbuf : σ → Option (List rmt_item32_t) × σ
  rx_idle_thresh : σ → Nat
  portTICK_PERIOD_MS : Nat

/-- The file-level record `ow_rmt` (the ring buffer handle lives in the
peripheral state). -/
structure ow_rmt_t where
  tx : Int
  rx : Int
  gpio : Int
deriving DecidableEq, Repr

/-- Everything outside the bus object: `ow_rmt`, the peripherals, the log. -/
structure Machine (σ : Type) where
  ow_rmt : ow_rmt_t
  hw : σ
  log : List Event

variable {σ : Type}

/-- Perform a call whose result is not used. -/
def emit (hw : Hw σ) (e : Event) (m : Machine σ) : Machine σ :=
  { m with hw := hw.effect m.hw e, log := m.log ++ [e] }

/-- The call `rmt_write_items(ow_rmt.tx, buf, n, true) == ESP_OK`. -/
def write_items (hw : Hw σ) (buf : tx_buffer) (m : Machine σ) : Bool × Machine σ :=
  ((hw.rmt_write_items m.hw buf).1,
   { m with hw := (hw.rmt_write_items m.hw buf).2, log := m.log ++ [Event.write_items buf] })

/-- The call `xRingbufferReceive(ow_rmt.rb, &rx_size, wait)`: the capture when
one arrives, `NULL` when a finite wait elapses without one, and no return at
all when nothing arrives during a `portMAX_DELAY` wait. -/
def xRingbufferReceive (hw : Hw σ) (wait : TickType) (m : Machine σ) :
    Except Fault (Option (List rmt_item32_t) × Machine σ) :=
  match (hw.ringbuf m.hw).1, wait with
  | some rx_items, _ =>
    .ok (some rx_items, { m with hw := (hw.ringbuf m.hw).2, log := m.log ++ [Event.receive wait] })
  | none, .ticks _ =>
    .ok (none, { m with hw := (hw.ringbuf m.hw).2, log := m.log ++ [Event.receive wait] })
  | none, .portMAX_DELAY => .error Fault.blocked

/-! ## Pin attach, write slots, read slots -/

def onewire_rmt_attach_pin (hw : Hw σ) (gpio_num : Int) (m : Machine σ) : Bool × Machine σ :=
  if m.ow_rmt.tx < 0 ∨ m.ow_rmt.rx < 0 then (false, m)
  else if gpio_num ≠ m.ow_rmt.gpio then
    (true, { emit hw (Event.attach m.ow_rmt.gpio gpio_num) m with
               ow_rmt := { m.ow_rmt with gpio := gpio_num } })
  else (true, m)

def onewire_encode_write_slot (val : Nat) : rmt_item32_t :=
  if val ≠ 0 then
    { level0 := 0, level1 := 1, duration0 := OW_DURATION_1_LOW, duration1 := OW_DURATION_1_HIGH }
  else
    { level0 := 0, level1 := 1, duration0 := OW_DURATION_0_LOW, duration1 := OW_DURATION_0_HIGH }

/-- The loop of `onewire_write_bits` filling `tx_items[0 .. num-1]`. -/
def write_slots : Nat → Nat → List rmt_item32_t
  | 0, _ => []
  | num + 1, data => onewire_encode_write_slot (data &&& 0x01) :: write_slots num (data >>> 1)

def onewire_write_bits (hw : Hw σ) (gpio_num data num power : Nat) (m : Machine σ) :
    Bool × Machine σ :=
  if num > 8 then (false, m)
  else
    match onewire_rmt_attach_pin hw gpio_num m with
    | (false, m1) => (false, m1)
    | (true, m1) =>
      let m2 := emit hw (Event.pad_driver gpio_num (if power ≠ 0 then 0 else 1)) m1
      write_items hw { items := write_slots num data, end_marker := some (1, 0) } m2

def onewire_encode_read_slot : rmt_item32_t :=
  { level0 := 0, duration0 := OW_DURATION_1_LOW, level1 := 1, duration1 := OW_DURATION_1_HIGH }

/-- One round of the parsing loop of `onewire_read_bits`. -/
def read_slot (read_data : Nat) (item : rmt_item32_t) : Nat :=
  if item.level1 = 1 ∧ item.level0 = 0 ∧ item.duration0 < OW_DURATION_SAMPLE then
    (read_data >>> 1) ||| 0x80
  else read_data >>> 1

/-- The value `onewire_read_bits` computes from a capture (`rx_size` is four
bytes per item). -/
def decode_capture (rx_items : List rmt_item32_t) (num : Nat) : Nat :=
  if rx_items.length * 4 ≥ num * 4 then
    ((rx_items.take num).foldl read_slot 0) >>> (8 - num)
  else 0

/-- The function `onewire_read_bits`; `data` is the caller's byte before the call, the
result carries the byte after it. -/
def onewire_read_bits (hw : Hw σ) (gpio_num data num : Nat) (m : Machine σ) :
    Except Fault (Bool × Nat × Machine σ) :=
  if num > 8 then .ok (false, data, m)
  else
    match onewire_rmt_attach_pin hw gpio_num m with
    | (false, m1) => .ok (false, data, m1)
    | (true, m1) =>
      let m2 := emit hw (Event.pad_driver gpio_num 1) m1
      let tx_items : tx_buffer :=
        { items := List.replicate num onewire_encode_read_slot, end_marker := some (1, 0) }
      let m3 := emit hw Event.flush_rx_buf m2
      let m4 := emit hw Event.rx_start m3
      match write_items hw tx_items m4 with
      | (true, m5) =>
        match xRingbufferReceive hw TickType.portMAX_DELAY m5 with
        | .error f => .error f
        | .ok (some rx_items, m6) =>
          let m7 := emit hw Event.return_item m6
          .ok (true, decode_capture rx_items num, emit hw Event.rx_stop m7)
        | .ok (none, m6) => .ok (false, 0, emit hw Event.rx_stop m6)
      | (false, m5) => .ok (false, 0, emit hw Event.rx_stop m5)

/-! ## Bus object and reset -/

/-- Search state `platform_onewire_bus_t`.  `LastDeviceFlag` is a byte that the
code only assigns `true`/`false` and tests for truth. -/
structure platform_onewire_bus_t where
  power : Nat
  LastDeviceFlag : Bool
  LastDiscrepancy : Nat
  LastFamilyDiscrepancy : Nat
  ROM_NO : List Nat
deriving DecidableEq, Repr

structure mgos_rmt_onewire where
  pin : Int
  sst : platform_onewire_bus_t
  rmt_rx : Int
  rmt_tx : Int
deriving DecidableEq, Repr

/-- Conversion of the `int` pin to the `uint8_t gpio_num` parameter of
`onewire_write_bits` and `onewire_read_bits`. -/
def pin_u8 (ow : mgos_rmt_onewire) : Nat := (ow.pin % 256).toNat

/-- The presence test of `onewire_rmt_reset` on a capture; reading an item
beyond the capture is reported as a fault. -/
def parse_presence (rx_items : List rmt_item32_t) : Except Fault Bool :=
  if rx_items.length * 4 ≥ 1 * 4 then
    match rx_items[0]? with
    | none => .error Fault.out_of_bounds
    | some it0 =>
      if it0.level0 = 0 ∧ it0.duration0 ≥ OW_DURATION_RESET - 2 then
        if it0.level1 = 1 ∧ it0.duration1 > 0 then
          match rx_items[1]? with
          | none => .error Fault.out_of_bounds
          | some it1 => .ok (decide (it1.level0 = 0))
        else .ok false
      else .ok false
  else .ok false

/-- The common tail of `onewire_rmt_reset`: stop RX, restore the idle threshold. -/
def reset_finish (hw : Hw σ) (old_rx_thresh : Nat) (m : Machine σ) : Machine σ :=
  emit hw (Event.set_rx_idle_thresh old_rx_thresh) (emit hw Event.rx_stop m)

def onewire_rmt_reset (hw : Hw σ) (ow : mgos_rmt_onewire) (m : Machine σ) :
    Except Fault (Bool × Machine σ) :=
  let gpio_num := ow.pin
  match onewire_rmt_attach_pin hw gpio_num m with
  | (false, m1) => .ok (false, m1)
  | (true, m1) =>
    let m2 := emit hw (Event.pad_driver gpio_num 1) m1
    let tx_items : tx_buffer :=
      { items := [{ duration0 := OW_DURATION_RESET, level0 := 0, duration1 := 0, level1 := 1 }],
        end_marker := none }
    let old_rx_thresh := hw.rx_idle_thresh m2.hw
    let m3 := emit hw (Event.set_rx_idle_thresh (OW_DURATION_RESET + 60)) m2
    let m4 := emit hw Event.flush_rx_buf m3
    let m5 := emit hw Event.rx_start m4
    match write_items hw tx_items m5 with
    | (true, m6) =>
      match xRingbufferReceive hw (TickType.ticks (100 / hw.portTICK_PERIOD_MS)) m6 with
      | .error f => .error f
      | .ok (some rx_items, m7) =>
        match parse_presence rx_items with
        | .error f => .error f
        | .ok _presence =>
          .ok (_presence, reset_finish hw old_rx_thresh (emit hw Event.return_item m7))
      | .ok (none, m7) => .ok (false, reset_finish hw old_rx_thresh m7)
    | (false, m6) => .ok (false, reset_finish hw old_rx_thresh m6)

/-! ## ROM search -/

def onewire_rmt_search_clean (ow : mgos_rmt_onewire) : mgos_rmt_onewire :=
  { ow with sst := { power := 0, LastDeviceFlag := false, LastDiscrepancy := 0,
                     LastFamilyDiscrepancy := 0, ROM_NO := [0, 0, 0, 0, 0, 0, 0, 0] } }

def onewire_rmt_target_setup (ow : mgos_rmt_onewire) (family_code : Nat) : mgos_rmt_onewire :=
  { ow with sst := { ow.sst with
      ROM_NO := [family_code, 0, 0, 0, 0, 0, 0, 0]
      LastDiscrepancy := 64
      LastFamilyDiscrepancy := 0
      LastDeviceFlag := false } }

/-- Local variables of `onewire_rmt_next` that live across loop rounds. -/
structure search_vars where
  id_bit_number : Nat
  last_zero : Nat
  rom_byte_number : Nat
  rom_byte_mask : Nat
deriving DecidableEq, Repr

/-- The `search_direction` chosen when both bits read 0: the stored bit below
`LastDiscrepancy`, 1 at `LastDiscrepancy`, 0 above. -/
def replay_direction (v : search_vars) (sst : platform_onewire_bus_t) : Nat :=
  if v.id_bit_number < sst.LastDiscrepancy then
    (if (sst.ROM_NO.getD v.rom_byte_number 0 &&& v.rom_byte_mask) > 0 then 1 else 0)
  else (if v.id_bit_number = sst.LastDiscrepancy then 1 else 0)

/-- The assignments made when 0 was picked: `last_zero = id_bit_number`, and
`LastFamilyDiscrepancy = last_zero` when `last_zero < 9`. -/
def record_zero (v : search_vars) (sst : platform_onewire_bus_t) :
    search_vars × platform_onewire_bus_t :=
  ({ v with last_zero := v.id_bit_number },
   if v.id_bit_number < 9 then { sst with LastFamilyDiscrepancy := v.id_bit_number } else sst)

/-- The choice of `search_direction` for a bit pair that is not `(1,1)`,
with the update of `last_zero` and `LastFamilyDiscrepancy`. -/
def pick_direction (id_bit cmp_id_bit : Nat) (v : search_vars) (sst : platform_onewire_bus_t) :
    Nat × search_vars × platform_onewire_bus_t :=
  if id_bit ≠ cmp_id_bit then (id_bit, v, sst)
  else if replay_direction v sst = 0 then
    (replay_direction v sst, (record_zero v sst).1, (record_zero v sst).2)
  else (replay_direction v sst, v, sst)

/-- Set or clear the bit `rom_byte_mask` of `ROM_NO[rom_byte_number]`. -/
def store_bit (search_direction : Nat) (v : search_vars) (sst : platform_onewire_bus_t) :
    platform_onewire_bus_t :=
  if search_direction = 1 then
    { sst with ROM_NO := (sst.ROM_NO.set v.rom_byte_number
        (sst.ROM_NO.getD v.rom_byte_number 0 ||| v.rom_byte_mask)) }
  else
    { sst with ROM_NO := (sst.ROM_NO.set v.rom_byte_number
        (sst.ROM_NO.getD v.rom_byte_number 0 &&& (0xFF ^^^ v.rom_byte_mask))) }

/-- Increment `id_bit_number`, shift the mask, move to the next byte when the
mask leaves the byte. -/
def advance (v : search_vars) : search_vars :=
  let id_bit_number := (v.id_bit_number + 1) % 256
  let rom_byte_mask := (v.rom_byte_mask <<< 1) % 256
  if rom_byte_mask = 0 then
    { v with id_bit_number := id_bit_number,
             rom_byte_number := (v.rom_byte_number + 1) % 256, rom_byte_mask := 1 }
  else { v with id_bit_number := id_bit_number, rom_byte_mask := rom_byte_mask }

/-- One round of the `do … while` body.  The flag is `false` when the round
left the loop through `break`.  The locals `id_bit`, `cmp_id_bit` are handed to
`onewire_read_bits` as 0: whenever that call returns without storing into them it returns
false, and the loop breaks without reading them. -/
def search_round (hw : Hw σ) (ow : mgos_rmt_onewire) (v : search_vars) (m : Machine σ) :
    Except Fault (Bool × search_vars × mgos_rmt_onewire × Machine σ) :=
  match onewire_read_bits hw (pin_u8 ow) 0 1 m with
  | .error f => .error f
  | .ok (false, _, m1) => .ok (false, v, ow, m1)
  | .ok (true, id_bit, m1) =>
    match onewire_read_bits hw (pin_u8 ow) 0 1 m1 with
    | .error f => .error f
    | .ok (false, _, m2) => .ok (false, v, ow, m2)
    | .ok (true, cmp_id_bit, m2) =>
      if id_bit = 1 ∧ cmp_id_bit = 1 then .ok (false, v, ow, m2)
      else
        let pick := pick_direction id_bit cmp_id_bit v ow.sst
        let search_direction := pick.1
        let sst2 := store_bit search_direction pick.2.1 pick.2.2
        let m3 := (onewire_write_bits hw (pin_u8 ow) search_direction 1 owDefaultPower m2).2
        .ok (true, advance pick.2.1, { ow with sst := sst2 }, m3)

/-- The `do … while (rom_byte_number < 8)` loop, with an explicit bound on the
number of rounds. -/
def search_loop (hw : Hw σ) : Nat → mgos_rmt_onewire → search_vars → Machine σ →
    Except Fault (search_vars × mgos_rmt_onewire × Machine σ)
  | 0, _, _, _ => .error Fault.fuel
  | fuel + 1, ow, v, m =>
    match search_round hw ow v m with
    | .error f => .error f
    | .ok (false, v1, ow1, m1) => .ok (v1, ow1, m1)
    | .ok (true, v1, ow1, m1) =>
      if v1.rom_byte_number < 8 then search_loop hw fuel ow1 v1 m1 else .ok (v1, ow1, m1)

/-- The `reset the search` assignments. -/
def reset_counters (sst : platform_onewire_bus_t) : platform_onewire_bus_t :=
  { sst with LastDiscrepancy := 0, LastDeviceFlag := false, LastFamilyDiscrepancy := 0 }

/-- The code after the loop: success test, and either the reset of the counters
or the copy of `ROM_NO` into the caller's buffer `rom`. -/
def search_finish (v : search_vars) (ow : mgos_rmt_onewire) (rom : List Nat) :
    Bool × List Nat × mgos_rmt_onewire :=
  let (search_result, sst1) :=
    if ¬ (v.id_bit_number < 65) then
      let s1 := { ow.sst with LastDiscrepancy := v.last_zero }
      let s2 := if s1.LastDiscrepancy = 0 then { s1 with LastDeviceFlag := true } else s1
      (true, s2)
    else (false, ow.sst)
  if ¬ search_result ∨ sst1.ROM_NO.getD 0 0 = 0 then
    (false, rom, { ow with sst := reset_counters sst1 })
  else
    (true, (List.range 8).map (fun i => sst1.ROM_NO.getD i 0) ++ rom.drop 8, { ow with sst := sst1 })

/-- The function `onewire_rmt_next`; `rom` is the caller's buffer before the call, the result
carries the return value, the buffer after the call and the bus object. -/
def onewire_rmt_next (hw : Hw σ) (ow : mgos_rmt_onewire) (rom : List Nat) (m : Machine σ) :
    Except Fault (Bool × List Nat × mgos_rmt_onewire × Machine σ) :=
  let v0 : search_vars :=
    { id_bit_number := 1, last_zero := 0, rom_byte_number := 0, rom_byte_mask := 1 }
  if ¬ ow.sst.LastDeviceFlag then
    match onewire_rmt_reset hw ow m with
    | .error f => .error f
    | .ok (false, m1) => .ok (false, rom, { ow with sst := reset_counters ow.sst }, m1)
    | .ok (true, m1) =>
      let m2 := (onewire_write_bits hw (pin_u8 ow) 0xF0 8 owDefaultPower m1).2
      match search_loop hw 64 ow v0 m2 with
      | .error f => .error f
      | .ok (v, ow1, m3) =>
        let (r, rom1, ow2) := search_finish v ow1 rom
        .ok (r, rom1, ow2, m3)
  else
    let (r, rom1, ow2) := search_finish v0 ow rom
    .ok (r, rom1, ow2, m)

/-! ## A simulated bus

A peripheral behaviour in which a set of devices with given ROM codes hangs on
the line.  Devices answer a reset pulse with a presence pulse, take the next
eight slots as a command byte, and after SEARCH ROM (`0xF0`) go through the
rounds of the search: two read slots answered with the wired AND of the
selected devices' bit and of its complement, then one written bit that
deselects every device whose bit differs. -/

/-- Bit `p` (0 … 63) of a ROM code: bit `p % 8` of byte `p / 8`. -/
def rom_bit (rom : List Nat) (p : Nat) : Bool := (rom.getD (p / 8) 0).testBit (p % 8)

inductive Phase where
  | idle
  | command (n bits : Nat)
  | search (pos step : Nat)
deriving DecidableEq, Repr

structure SimBus where
  devices : List (List Nat)
  selected : List (List Nat)
  phase : Phase
  rx_on : Bool
  ring : Option (List rmt_item32_t)
  idle_thresh : Nat
deriving DecidableEq, Repr

/-- The line during a read slot: released after the master's short low when
every selected device sends 1, held low by a device otherwise. -/
def sim_answer (it : rmt_item32_t) (one : Bool) : rmt_item32_t :=
  if one then it
  else { level0 := 0, duration0 := max it.duration0 30, level1 := 1,
         duration1 := OW_DURATION_SLOT - max it.duration0 30 }

/-- One time slot seen by the devices; the result carries what the line showed. -/
def sim_slot (b : SimBus) (it : rmt_item32_t) : SimBus × rmt_item32_t :=
  let w : Bool := decide (it.duration0 < 15)
  match b.phase with
  | .idle => (b, it)
  | .command n bits =>
    let bits1 := bits + (if w then 2 ^ n else 0)
    if n + 1 = 8 then
      ({ b with phase := if bits1 = 0xF0 then Phase.search 0 0 else Phase.idle }, it)
    else ({ b with phase := Phase.command (n + 1) bits1 }, it)
  | .search pos step =>
    if step = 0 then
      ({ b with phase := Phase.search pos 1 },
       sim_answer it (b.selected.all (fun r => rom_bit r pos)))
    else if step = 1 then
      ({ b with phase := Phase.search pos 2 },
       sim_answer it (b.selected.all (fun r => ! rom_bit r pos)))
    else
      ({ b with selected := b.selected.filter (fun r => rom_bit r pos == w),
                phase := if pos + 1 < 64 then Phase.search (pos + 1) 0 else Phase.idle }, it)

/-- One transmitted item: a reset pulse, or a time slot. -/
def sim_item (b : SimBus) (it : rmt_item32_t) : SimBus × List rmt_item32_t :=
  if it.level0 = 0 ∧ it.duration0 ≥ OW_DURATION_RESET then
    ({ b with selected := b.devices, phase := Phase.command 0 0 },
     if b.devices.isEmpty then
       [{ level0 := 0, duration0 := it.duration0, level1 := 1, duration1 := 0 }]
     else
       [{ level0 := 0, duration0 := it.duration0, level1 := 1, duration1 := 30 },
        { level0 := 0, duration0 := 120, level1 := 1, duration1 := 0 }])
  else ((sim_slot b it).1, [(sim_slot b it).2])

/-- A transmitted burst, item by item, with the line trace it leaves. -/
def sim_burst : List rmt_item32_t → SimBus → SimBus × List rmt_item32_t
  | [], b => (b, [])
  | it :: rest, b =>
    ((sim_burst rest (sim_item b it).1).1, (sim_item b it).2 ++ (sim_burst rest (sim_item b it).1).2)

def sim_effect (b : SimBus) : Event → SimBus
  | .flush_rx_buf => { b with ring := none }
  | .rx_start => { b with rx_on := true }
  | .rx_stop => { b with rx_on := false }
  | .set_rx_idle_thresh v => { b with idle_thresh := v }
  | _ => b

/-- The simulated channel: transmission always succeeds, the receiver records
the line while it is started. -/
def simHw : Hw SimBus where
  effect := sim_effect
  rmt_write_items := fun b buf =>
    (true, { (sim_burst buf.items b).1 with
               ring := if b.rx_on then some (sim_burst buf.items b).2 else b.ring })
  ringbuf := fun b => (b.ring, { b with ring := none })
  rx_idle_thresh := fun b => b.idle_thresh
  portTICK_PERIOD_MS := 10

/-- A simulated bus with device set `D`, nothing selected, receiver stopped. -/
def sim_bus (D : List (List Nat)) : SimBus :=
  { devices := D, selected := [], phase := Phase.idle, rx_on := false, ring := none,
    idle_thresh := OW_DURATION_RX_IDLE }

/-- The machine after `onewire_rmt_init` with channels `rx`, `tx` on a
simulated bus. -/
def sim_machine (D : List (List Nat)) (rx tx : Int) : Machine SimBus :=
  { ow_rmt := { tx := tx, rx := rx, gpio := -1 }, hw := sim_bus D, log := [] }

/-- The bus object as `onewire_rmt_create` leaves it (`calloc`, then the three
assignments). -/
def onewire_rmt_create (pin rmt_rx rmt_tx : Int) : mgos_rmt_onewire :=
  { pin := pin, rmt_rx := rmt_rx, rmt_tx := rmt_tx,
    sst := { power := 0, LastDeviceFlag := false, LastDiscrepancy := 0,
             LastFamilyDiscrepancy := 0, ROM_NO := [0, 0, 0, 0, 0, 0, 0, 0] } }

/-- Repeated calls of `onewire_rmt_next` (the discovery caller), each with a fresh
zeroed buffer: the return values and buffers in call order, and the final
state. -/
def search_calls (hw : Hw σ) : Nat → mgos_rmt_onewire → Machine σ →
    Except Fault (List (Bool × List Nat) × mgos_rmt_onewire × Machine σ)
  | 0, ow, m => .ok ([], ow, m)
  | n + 1, ow, m =>
    match onewire_rmt_next hw ow [0, 0, 0, 0, 0, 0, 0, 0] m with
    | .error f => .error f
    | .ok (r, rom, ow1, m1) =>
      match search_calls hw n ow1 m1 with
      | .error f => .error f
      | .ok (rs, ow2, m2) => .ok ((r, rom) :: rs, ow2, m2)

/-! ## Vocabulary for the statements about the search -/

/-- An array of eight bytes. -/
def wf_rom (r : List Nat) : Prop := r.length = 8 ∧ ∀ b ∈ r, b < 256

instance : DecidablePred wf_rom := fun r => by unfold wf_rom; infer_instance

/-- The channel is usable: `onewire_rmt_init` stored its two channel numbers. -/
def attached (m : Machine σ) : Prop := 0 ≤ m.ow_rmt.tx ∧ 0 ≤ m.ow_rmt.rx

/-- The codes `x` and `r` carry the same bits at the positions below `k`. -/
def agree (k : Nat) (x r : List Nat) : Prop := ∀ q, q < k → rom_bit x q = rom_bit r q

instance (k : Nat) (x r : List Nat) : Decidable (agree k x r) := by unfold agree; infer_instance

/-- Some device of `D` that matches `r` below position `p` carries bit `b` at
position `p`. -/
def has_bit (D : List (List Nat)) (r : List Nat) (p : Nat) (b : Bool) : Prop :=
  ∃ x, x ∈ D ∧ agree p x r ∧ rom_bit x p = b

instance (D : List (List Nat)) (r : List Nat) (p : Nat) (b : Bool) : Decidable (has_bit D r p b) := by
  unfold has_bit; infer_instance

/-- The devices still selected at position `p` on the way to `r` disagree. -/
def discrepancy (D : List (List Nat)) (r : List Nat) (p : Nat) : Prop :=
  has_bit D r p false ∧ has_bit D r p true

instance (D : List (List Nat)) (r : List Nat) (p : Nat) : Decidable (discrepancy D r p) := by
  unfold discrepancy; infer_instance

/-- The highest position number (1 … `k`) among the first `k` at which the way
to `r` met a discrepancy and went to 0; 0 when there is none. -/
def last_zero_of (D : List (List Nat)) (r : List Nat) : Nat → Nat
  | 0 => 0
  | k + 1 =>
    if discrepancy D r k ∧ rom_bit r k = false then k + 1 else last_zero_of D r k

/-- The order in which the search meets ROM codes: at the first position where
two codes differ, the one with bit 0 comes first. -/
def rom_lt (x y : List Nat) : Prop :=
  ∃ p, p < 64 ∧ agree p x y ∧ rom_bit x p = false ∧ rom_bit y p = true

/-- What one pass of the loop does at position `p` on the way from the entry
code `r0` (with entry `LastDiscrepancy` `L`) to the code `r`: at a discrepancy
the stored bit is replayed below `L`, is 1 at `L` and 0 above it; elsewhere the
bit is the one all selected devices carry. -/
def walk_rule (D : List (List Nat)) (r0 : List Nat) (L : Nat) (r : List Nat) (p : Nat) : Prop :=
  if discrepancy D r p then
    rom_bit r p = (if p + 1 < L then rom_bit r0 p else decide (p + 1 = L))
  else has_bit D r p (rom_bit r p)

/-- Relation between the loop variables of `onewire_rmt_next` and the simulated bus after
`k` rounds of the loop entered with the bus object `ow0`. -/
structure walk_inv (D : List (List Nat)) (ow0 : mgos_rmt_onewire) (k : Nat)
    (v : search_vars) (ow : mgos_rmt_onewire) (m : Machine SimBus) : Prop where
  id_bit_number : v.id_bit_number = k + 1
  rom_byte_number : v.rom_byte_number = k / 8
  rom_byte_mask : v.rom_byte_mask = 2 ^ (k % 8)
  last_zero : v.last_zero = last_zero_of D ow.sst.ROM_NO k
  pin : ow.pin = ow0.pin
  last_disc : ow.sst.LastDiscrepancy = ow0.sst.LastDiscrepancy
  flag : ow.sst.LastDeviceFlag = ow0.sst.LastDeviceFlag
  wf : wf_rom ow.sst.ROM_NO
  untouched : ∀ p, k ≤ p → rom_bit ow.sst.ROM_NO p = rom_bit ow0.sst.ROM_NO p
  rule : ∀ p, p < k →
    walk_rule D ow0.sst.ROM_NO ow0.sst.LastDiscrepancy ow.sst.ROM_NO p
  att : attached m
  devices : m.hw.devices = D
  selected : ∀ x, x ∈ m.hw.selected ↔ x ∈ D ∧ agree k x ow.sst.ROM_NO
  nonempty : ∃ x, x ∈ m.hw.selected
  phase : m.hw.phase = if k < 64 then Phase.search k 0 else Phase.idle

instance (x y : List Nat) : Decidable (rom_lt x y) := by unfold rom_lt; infer_instance

/-- The devices of `D` in the order of `rom_lt`. -/
def search_order (D : List (List Nat)) : List (List Nat) :=
  D.insertionSort (fun x y => ¬ rom_lt y x)

/-- A set of devices on the simulated bus: eight-byte codes with a non-zero
first (family) byte. -/
def device_set (D : List (List Nat)) : Prop := ∀ d ∈ D, wf_rom d ∧ d.getD 0 0 ≠ 0

instance (D : List (List Nat)) : Decidable (device_set D) := by unfold device_set; infer_instance

/-- The search state after a call that returned the device `ROM_NO` of `D`:
`LastDiscrepancy` is the last position where the way to that device left a
0-branch behind, and `LastDeviceFlag` tells that there is none. -/
def canon (D : List (List Nat)) (ow : mgos_rmt_onewire) : Prop :=
  ow.sst.ROM_NO ∈ D ∧ ow.sst.LastDiscrepancy = last_zero_of D ow.sst.ROM_NO 64 ∧
  ow.sst.LastDeviceFlag = decide (last_zero_of D ow.sst.ROM_NO 64 = 0)

instance (m : Machine σ) : Decidable (attached m) := by unfold attached; infer_instance

/-- A channel without devices, driven by its state: every transmission
succeeds, and the receiver delivers the capture held in the state, or nothing
at all when the state is `none` (disconnected bus). -/
def captureHw : Hw (Option (List rmt_item32_t)) where
  effect := fun s _ => s
  rmt_write_items := fun s _ => (true, s)
  ringbuf := fun s => (s, s)
  rx_idle_thresh := fun _ => OW_DURATION_RX_IDLE
  portTICK_PERIOD_MS := 10

/-- A channel that keeps the items of the last transmitted burst as its state. -/
def recordHw : Hw (Option (List rmt_item32_t)) where
  effect := fun s _ => s
  rmt_write_items := fun _ buf => (true, some buf.items)
  ringbuf := fun s => (s, s)
  rx_idle_thresh := fun _ => OW_DURATION_RX_IDLE
  portTICK_PERIOD_MS := 10

/-- The machine after `onewire_rmt_init` with channels `rx`, `tx` on a channel
whose state is `s`. -/
def init_machine (s : σ) (rx tx : Int) : Machine σ :=
  { ow_rmt := { tx := tx, rx := rx, gpio := -1 }, hw := s, log := [] }

/-- The return values and buffers of a run of `search_calls`. -/
def outcomes (r : Except Fault (List (Bool × List Nat) × mgos_rmt_onewire × Machine σ)) :
    Option (List (Bool × List Nat)) :=
  match r with
  | .ok (rs, _, _) => some rs
  | .error _ => none

/-- Three devices: two of family `0x10` that differ at position 10, one of
family `0x28`. -/
def three_devices : List (List Nat) :=
  [[0x10, 1, 0, 0, 0, 0, 0, 7], [0x10, 3, 0, 0, 0, 0, 0, 9], [0x28, 5, 0, 0, 0, 0, 0, 1]]

/-- A search state in the middle of an enumeration. -/
def busy_bus : mgos_rmt_onewire :=
  { pin := 4, rmt_rx := 0, rmt_tx := 1,
    sst := { power := 0, LastDeviceFlag := false, LastDiscrepancy := 10,
             LastFamilyDiscrepancy := 4, ROM_NO := [0x10, 1, 0, 0, 0, 0, 0, 7] } }

/-- The bus object and the machine that a call of `onewire_rmt_next` leaves behind
(the ones on entry when the call does not return). -/
def next_state (hw : Hw σ) (ow : mgos_rmt_onewire) (rom : List Nat) (m : Machine σ) :
    mgos_rmt_onewire × Machine σ :=
  match onewire_rmt_next hw ow rom m with
  | .ok (_, _, ow1, m1) => (ow1, m1)
  | .error _ => (ow, m)


/-- The capture shape that `onewire_rmt_reset` accepts as a presence pulse. -/
def presence_shape (rx_items : List rmt_item32_t) : Prop :=
  ∃ it0 it1, rx_items[0]? = some it0 ∧ rx_items[1]? = some it1 ∧
    it0.level0 = 0 ∧ it0.duration0 ≥ OW_DURATION_RESET - 2 ∧
    it0.level1 = 1 ∧ it0.duration1 > 0 ∧ it1.level0 = 0

/-! ## Addressing, byte and bit operations, and the C++ wrapper

`onewire_rmt_select` … `onewire_rmt_write_bytes` of `onewire_rmt.c`, and the methods of
`OnewireESP32` (`OnewireESP32.cpp`) that forward to them. -/

/-- The loop `for (int i = 0; i < 8; i++)` of `onewire_rmt_select`, entered at index `i`
with `n` rounds to go; `rom[i]` outside the array is a fault. -/
def select_loop (hw : Hw σ) (ow : mgos_rmt_onewire) (rom : List Nat) :
    Nat → Nat → Machine σ → Except Fault (Machine σ)
  | 0, _, m => .ok m
  | n + 1, i, m =>
    match rom[i]? with
    | none => .error Fault.out_of_bounds
    | some b =>
      select_loop hw ow rom n (i + 1)
        (onewire_write_bits hw (pin_u8 ow) b 8 owDefaultPower m).2

def onewire_rmt_select (hw : Hw σ) (ow : mgos_rmt_onewire) (rom : List Nat) (m : Machine σ) :
    Except Fault (Machine σ) :=
  select_loop hw ow rom 8 0 (onewire_write_bits hw (pin_u8 ow) 0x55 8 owDefaultPower m).2

def onewire_rmt_skip (hw : Hw σ) (ow : mgos_rmt_onewire) (m : Machine σ) : Machine σ :=
  (onewire_write_bits hw (pin_u8 ow) 0xCC 8 owDefaultPower m).2

def onewire_rmt_read_bit (hw : Hw σ) (ow : mgos_rmt_onewire) (m : Machine σ) :
    Except Fault (Bool × Machine σ) :=
  match onewire_read_bits hw (pin_u8 ow) 0 1 m with
  | .error f => .error f
  | .ok (true, bit, m1) => .ok (decide (bit &&& 0x01 ≠ 0), m1)
  | .ok (false, _, m1) => .ok (false, m1)

def onewire_rmt_read (hw : Hw σ) (ow : mgos_rmt_onewire) (m : Machine σ) :
    Except Fault (Nat × Machine σ) :=
  match onewire_read_bits hw (pin_u8 ow) 0 8 m with
  | .error f => .error f
  | .ok (true, res, m1) => .ok (res, m1)
  | .ok (false, _, m1) => .ok (0, m1)

/-- The function `onewire_rmt_write_bit`: `data = 0x01 & bit` for the `int` argument. -/
def onewire_rmt_write_bit (hw : Hw σ) (ow : mgos_rmt_onewire) (bit : Int) (m : Machine σ) :
    Machine σ :=
  (onewire_write_bits hw (pin_u8 ow) (bit % 2).toNat 1 owDefaultPower m).2

def onewire_rmt_write (hw : Hw σ) (ow : mgos_rmt_onewire) (data : Nat) (m : Machine σ) :
    Machine σ :=
  (onewire_write_bits hw (pin_u8 ow) data 8 owDefaultPower m).2

/-- The loop `for (uint16_t i = 0; i < len; i++)` of `onewire_rmt_write_bytes` with an
explicit bound on the number of rounds: the counter is 16 bits wide and is
compared with the `int` length; `buf[i]` outside the buffer is a fault. -/
def write_bytes_loop (hw : Hw σ) (ow : mgos_rmt_onewire) (buf : List Nat) (len : Int) :
    Nat → Nat → Machine σ → Except Fault (Machine σ)
  | 0, _, _ => .error Fault.fuel
  | fuel + 1, i, m =>
    if (i : Int) < len then
      match buf[i]? with
      | none => .error Fault.out_of_bounds
      | some b =>
        match onewire_write_bits hw (pin_u8 ow) b 8 owDefaultPower m with
        | (true, m1) => write_bytes_loop hw ow buf len fuel ((i + 1) % 65536) m1
        | (false, m1) => .ok m1
    else .ok m

/-- The function `onewire_rmt_write_bytes`, run for at most `fuel` tests of the loop condition. -/
def onewire_rmt_write_bytes (hw : Hw σ) (ow : mgos_rmt_onewire) (buf : List Nat) (len : Int)
    (fuel : Nat) (m : Machine σ) : Except Fault (Machine σ) :=
  write_bytes_loop hw ow buf len fuel 0 m

/-- The method `OnewireESP32::write(v, power)`: forwards `v`, drops `power`. -/
def OnewireESP32.write (hw : Hw σ) (ow : mgos_rmt_onewire) (v _power : Nat) (m : Machine σ) :
    Machine σ :=
  onewire_rmt_write hw ow v m

/-- The method `OnewireESP32::write_bytes(buf, count, power)` with its 16-bit `count`: forwards
`buf` and `count`, drops `power`.  The loop tests its condition at most
`count + 1` times. -/
def OnewireESP32.write_bytes (hw : Hw σ) (ow : mgos_rmt_onewire) (buf : List Nat)
    (count : Nat) (_power : Bool) (m : Machine σ) : Except Fault (Machine σ) :=
  onewire_rmt_write_bytes hw ow buf ((count % 65536 : Nat) : Int) (count % 65536 + 1) m

def OnewireESP32.target_search (ow : mgos_rmt_onewire) (family_code : Nat) : mgos_rmt_onewire :=
  onewire_rmt_target_setup ow family_code

/-- The bursts handed to `rmt_write_items`, in call order. -/
def transmitted : List Event → List tx_buffer
  | [] => []
  | Event.write_items buf :: rest => buf :: transmitted rest
  | _ :: rest => transmitted rest

/-- The values written to `pad_driver` (0 = push-pull, 1 = open drain), in call
order. -/
def pad_modes : List Event → List Nat
  | [] => []
  | Event.pad_driver _ v :: rest => v :: pad_modes rest
  | _ :: rest => pad_modes rest

/-- The number of `xRingbufferReceive` calls. -/
def receive_count : List Event → Nat
  | [] => 0
  | Event.receive _ :: rest => receive_count rest + 1
  | _ :: rest => receive_count rest

/-- The burst `onewire_write_bits` builds for the `num` low bits of `data`. -/
def write_burst (data num : Nat) : tx_buffer :=
  { items := write_slots num data, end_marker := some (1, 0) }

/-- The bus object `ow` with the contents of `ROM_NO` replaced. -/
def with_rom (ow : mgos_rmt_onewire) (r : List Nat) : mgos_rmt_onewire :=
  { ow with sst := { ow.sst with ROM_NO := r } }

/-- What the caller of `onewire_rmt_next` can observe: the return value, the buffer, the
machine, and after a successful call the search state. -/
def search_view (r : Except Fault (Bool × List Nat × mgos_rmt_onewire × Machine σ)) :
    Except Fault (Bool × List Nat × Option mgos_rmt_onewire × Machine σ) :=
  match r with
  | .error f => .error f
  | .ok (res, rom1, ow1, m1) => .ok (res, rom1, if res then some ow1 else none, m1)

/-! ## The rounds of one search call -/

/-- What one completed round of the search loop did: the position
(`id_bit_number` when the round began), the two bits read, and the
`search_direction` written back. -/
structure round_record where
  position : Nat
  id_bit : Nat
  cmp_id_bit : Nat
  search_direction : Nat
deriving DecidableEq, Repr

/-- The record of the round that `search_round` runs from the same state, when
that round gets as far as the write of `search_direction`. -/
def round_trace (hw : Hw σ) (ow : mgos_rmt_onewire) (v : search_vars) (m : Machine σ) :
    Option round_record :=
  match onewire_read_bits hw (pin_u8 ow) 0 1 m with
  | .ok (true, id_bit, m1) =>
    match onewire_read_bits hw (pin_u8 ow) 0 1 m1 with
    | .ok (true, cmp_id_bit, _) =>
      if id_bit = 1 ∧ cmp_id_bit = 1 then none
      else some { position := v.id_bit_number, id_bit := id_bit, cmp_id_bit := cmp_id_bit,
                  search_direction := (pick_direction id_bit cmp_id_bit v ow.sst).1 }
    | _ => none
  | _ => none

/-- The records of the completed rounds of `search_loop`, in order. -/
def search_trace (hw : Hw σ) : Nat → mgos_rmt_onewire → search_vars → Machine σ →
    List round_record
  | 0, _, _, _ => []
  | fuel + 1, ow, v, m =>
    match search_round hw ow v m with
    | .ok (true, v1, ow1, m1) =>
      (round_trace hw ow v m).toList ++
        (if v1.rom_byte_number < 8 then search_trace hw fuel ow1 v1 m1 else [])
    | _ => []

/-- The records of the completed rounds of one call of `onewire_rmt_next`. -/
def next_trace (hw : Hw σ) (ow : mgos_rmt_onewire) (m : Machine σ) : List round_record :=
  if ¬ ow.sst.LastDeviceFlag then
    match onewire_rmt_reset hw ow m with
    | .ok (true, m1) =>
      search_trace hw 64 ow
        { id_bit_number := 1, last_zero := 0, rom_byte_number := 0, rom_byte_mask := 1 }
        (onewire_write_bits hw (pin_u8 ow) 0xF0 8 owDefaultPower m1).2
    | _ => []
  else []

/-- The positions at which both bits read 0 and direction 0 was taken. -/
def zero_branches (t : List round_record) : List Nat :=
  (t.filter (fun r => r.id_bit = 0 ∧ r.cmp_id_bit = 0 ∧ r.search_direction = 0)).map
    (fun r => r.position)

/-- The largest element of a list of positions, 0 for the empty list. -/
def highest (l : List Nat) : Nat := l.foldl max 0

/-! ## Item indices of the presence test, the read loop, a steady channel -/

/-- The indices of `rx_items` that the presence test of `onewire_rmt_reset` reads, in
the order of the reads (`&&` and the nested `if`s read index 1 only after both
tests on item 0 passed). -/
def presence_reads (rx_items : List rmt_item32_t) : List Nat :=
  if rx_items.length * 4 ≥ 1 * 4 then
    match rx_items[0]? with
    | none => [0]
    | some it0 =>
      if it0.level0 = 0 ∧ it0.duration0 ≥ OW_DURATION_RESET - 2 then
        if it0.level1 = 1 ∧ it0.duration1 > 0 then [0, 1] else [0]
      else [0]
  else []

/-- The loop `for (uint16_t i = 0; i < len; i++)` of `onewire_rmt_read_bytes` with an
explicit bound on the number of rounds.  The counter `i` is 16 bits wide and is
compared with the `int` length; the pointer `buf` is advanced by one per round,
`p` is its distance from the start of the caller's buffer.  The function `onewire_read_bits`
stores through the pointer unless the pin could not be attached; a store
outside the buffer is a fault. -/
def read_bytes_loop (hw : Hw σ) (ow : mgos_rmt_onewire) (len : Int) :
    Nat → Nat → Nat → List Nat → Machine σ → Except Fault (List Nat × Machine σ)
  | 0, _, _, _, _ => .error Fault.fuel
  | fuel + 1, i, p, buf, m =>
    if (i : Int) < len then
      match onewire_read_bits hw (pin_u8 ow) (buf.getD p 0) 8 m with
      | .error f => .error f
      | .ok (res, d, m1) =>
        if buf.length ≤ p ∧ (onewire_rmt_attach_pin hw (pin_u8 ow : Nat) m).1 = true then
          .error Fault.out_of_bounds
        else if res then
          read_bytes_loop hw ow len fuel ((i + 1) % 65536) (p + 1) (buf.set p d) m1
        else .ok (buf.set p d, m1)
    else .ok (buf, m)

/-- The function `onewire_rmt_read_bytes`, run for at most `fuel` tests of the loop condition;
the result carries the caller's buffer after the call. -/
def onewire_rmt_read_bytes (hw : Hw σ) (ow : mgos_rmt_onewire) (buf : List Nat) (len : Int)
    (fuel : Nat) (m : Machine σ) : Except Fault (List Nat × Machine σ) :=
  read_bytes_loop hw ow len fuel 0 0 buf m

/-- A channel on which every transmission succeeds and every receive delivers
the capture `c`. -/
def steadyHw (c : List rmt_item32_t) : Hw Unit where
  effect := fun s _ => s
  rmt_write_items := fun s _ => (true, s)
  ringbuf := fun s => (some c, s)
  rx_idle_thresh := fun _ => OW_DURATION_RX_IDLE
  portTICK_PERIOD_MS := 10

/-- A capture of three read slots: the line rises after 3 µs, after 30 µs and
after 12 µs. -/
def sample_capture : List rmt_item32_t :=
  [{ duration0 := 3, level0 := 0, duration1 := 70, level1 := 1 },
   { duration0 := 30, level0 := 0, duration1 := 45, level1 := 1 },
   { duration0 := 12, level0 := 0, duration1 := 60, level1 := 1 }]

/-! # Theorems -/

/-! ## Bits of a ROM code -/

theorem rom_bit_set (r : List Nat) (i b p : Nat) (hi : i < r.length) :
    rom_bit (r.set i b) p = if p / 8 = i then b.testBit (p % 8) else rom_bit r p := by
  unfold rom_bit
  simp only [List.getD_eq_getElem?_getD, List.getElem?_set]
  by_cases h : p / 8 = i
  · subst h; simp [hi]
  · have h' : ¬ i = p / 8 := fun e => h e.symm
    simp [h, h']

theorem mask_test (b k : Nat) : (b &&& 2 ^ k) > 0 ↔ b.testBit k = true := by
  constructor
  · intro h
    by_contra hb
    have : b &&& 2 ^ k = 0 := by
      apply Nat.eq_of_testBit_eq
      intro i
      simp only [Nat.testBit_and, Nat.testBit_two_pow, Nat.zero_testBit, Bool.and_eq_false_imp]
      intro hbi
      simp only [decide_eq_false_iff_not]
      intro hki
      subst hki
      exact hb hbi
    omega
  · intro h
    have h1 : (b &&& 2 ^ k).testBit k = true := by simp [h, Nat.testBit_two_pow]
    by_contra h0
    have : b &&& 2 ^ k = 0 := by omega
    rw [this] at h1
    simp at h1

theorem wf_rom_getD_lt {r : List Nat} (h : wf_rom r) (i : Nat) : r.getD i 0 < 256 := by
  rw [List.getD_eq_getElem?_getD]
  by_cases hi : i < r.length
  · rw [List.getElem?_eq_getElem hi]
    exact h.2 _ (List.getElem_mem _)
  · rw [List.getElem?_eq_none (by omega)]
    simp

theorem testBit_byte_high {b i : Nat} (hb : b < 256) (hi : 8 ≤ i) : b.testBit i = false := by
  apply Nat.testBit_lt_two_pow
  calc b < 2 ^ 8 := hb
    _ ≤ 2 ^ i := Nat.pow_le_pow_right (by norm_num) hi

theorem rom_ext {x y : List Nat} (hx : wf_rom x) (hy : wf_rom y) (h : agree 64 x y) : x = y := by
  apply List.ext_getElem (by rw [hx.1, hy.1])
  intro i h1 h2
  have hi : i < 8 := by rw [hx.1] at h1; exact h1
  apply Nat.eq_of_testBit_eq
  intro j
  by_cases hj : j < 8
  · have := h (8 * i + j) (by omega)
    unfold rom_bit at this
    have e1 : (8 * i + j) / 8 = i := by omega
    have e2 : (8 * i + j) % 8 = j := by omega
    rw [e1, e2] at this
    simpa [List.getD_eq_getElem?_getD, List.getElem?_eq_getElem h1, List.getElem?_eq_getElem h2] using this
  · rw [testBit_byte_high (hx.2 _ (List.getElem_mem _)) (by omega),
        testBit_byte_high (hy.2 _ (List.getElem_mem _)) (by omega)]


theorem pos_split {p k : Nat} : (p / 8 = k / 8 ∧ p % 8 = k % 8) ↔ p = k := by omega

theorem rom_bit_store (d : Nat) (v : search_vars) (sst : platform_onewire_bus_t) (k p : Nat)
    (hrbn : v.rom_byte_number = k / 8) (hmask : v.rom_byte_mask = 2 ^ (k % 8))
    (hlen : k / 8 < sst.ROM_NO.length) :
    rom_bit (store_bit d v sst).ROM_NO p =
      if p = k then decide (d = 1) else rom_bit sst.ROM_NO p := by
  unfold store_bit
  by_cases hd : d = 1
  · simp only [hd, if_true, hrbn, hmask]
    rw [rom_bit_set _ _ _ _ hlen]
    by_cases h8 : p / 8 = k / 8
    · simp only [h8, if_true, Nat.testBit_or, Nat.testBit_two_pow]
      by_cases hpk : p = k
      · subst hpk; simp
      · have : ¬ k % 8 = p % 8 := fun e => hpk (pos_split.1 ⟨h8, e.symm⟩)
        simp [hpk, this, rom_bit, h8]
    · have hpk : p ≠ k := fun e => h8 (by rw [e])
      simp [h8, hpk]
  · simp only [hd, if_false, hrbn, hmask]
    rw [rom_bit_set _ _ _ _ hlen]
    by_cases h8 : p / 8 = k / 8
    · simp only [h8, if_true, Nat.testBit_and, Nat.testBit_xor, Nat.testBit_two_pow]
      have h255 : Nat.testBit 255 (p % 8) = true := by
        have := Nat.testBit_two_pow_sub_one 8 (p % 8)
        simp only [show p % 8 < 8 from Nat.mod_lt _ (by norm_num), decide_True] at this
        exact this
      rw [h255]
      by_cases hpk : p = k
      · subst hpk; simp
      · have : ¬ k % 8 = p % 8 := fun e => hpk (pos_split.1 ⟨h8, e.symm⟩)
        simp [hpk, this, rom_bit, h8]
    · have hpk : p ≠ k := fun e => h8 (by rw [e])
      simp [h8, hpk]

theorem wf_rom_store (d : Nat) (v : search_vars) (sst : platform_onewire_bus_t) (k : Nat)
    (hmask : v.rom_byte_mask = 2 ^ (k % 8)) (hwf : wf_rom sst.ROM_NO) :
    wf_rom (store_bit d v sst).ROM_NO := by
  have hb := wf_rom_getD_lt hwf v.rom_byte_number
  have hm : 2 ^ (k % 8) < 2 ^ 8 := Nat.pow_lt_pow_right (by norm_num) (Nat.mod_lt _ (by norm_num))
  unfold store_bit
  split
  · refine ⟨by simpa using hwf.1, ?_⟩
    intro b hb'
    rcases List.mem_or_eq_of_mem_set hb' with h | h
    · exact hwf.2 b h
    · rw [h, hmask]; exact Nat.or_lt_two_pow hb hm
  · refine ⟨by simpa using hwf.1, ?_⟩
    intro b hb'
    rcases List.mem_or_eq_of_mem_set hb' with h | h
    · exact hwf.2 b h
    · rw [h]; exact lt_of_le_of_lt Nat.and_le_left hb

theorem store_bit_fields (d : Nat) (v : search_vars) (sst : platform_onewire_bus_t) :
    (store_bit d v sst).LastDiscrepancy = sst.LastDiscrepancy ∧
    (store_bit d v sst).LastDeviceFlag = sst.LastDeviceFlag ∧
    (store_bit d v sst).LastFamilyDiscrepancy = sst.LastFamilyDiscrepancy ∧
    (store_bit d v sst).power = sst.power := by
  unfold store_bit; split <;> simp

theorem advance_at (v : search_vars) (k : Nat) (hk : k < 64) (hid : v.id_bit_number = k + 1)
    (hrbn : v.rom_byte_number = k / 8) (hmask : v.rom_byte_mask = 2 ^ (k % 8)) :
    (advance v).id_bit_number = k + 2 ∧ (advance v).rom_byte_number = (k + 1) / 8 ∧
    (advance v).rom_byte_mask = 2 ^ ((k + 1) % 8) ∧ (advance v).last_zero = v.last_zero := by
  unfold advance
  simp only [hid, hrbn, hmask]
  interval_cases k <;> simp


theorem sim_attach (g : Int) (m : Machine SimBus) (ha : attached m) :
    (onewire_rmt_attach_pin simHw g m).1 = true ∧
    (onewire_rmt_attach_pin simHw g m).2.hw = m.hw ∧
    attached (onewire_rmt_attach_pin simHw g m).2 := by
  have h : ¬ (m.ow_rmt.tx < 0 ∨ m.ow_rmt.rx < 0) := by
    have := ha.1; have := ha.2; omega
  unfold onewire_rmt_attach_pin
  rw [if_neg h]
  split
  · refine ⟨rfl, rfl, ?_⟩
    exact ha
  · exact ⟨rfl, rfl, ha⟩

theorem decode_answer (one : Bool) :
    decode_capture
      [sim_answer { duration0 := 2, level0 := 0, duration1 := OW_DURATION_1_HIGH, level1 := 1 } one]
      1 = if one then 1 else 0 := by
  cases one <;> decide

theorem sim_read_id (g d : Nat) (m : Machine SimBus) (ha : attached m) (pos : Nat)
    (hph : m.hw.phase = Phase.search pos 0) :
    ∃ m1, onewire_read_bits simHw g d 1 m =
        .ok (true, (if m.hw.selected.all (fun r => rom_bit r pos) then 1 else 0), m1) ∧
      attached m1 ∧ m1.hw.devices = m.hw.devices ∧ m1.hw.selected = m.hw.selected ∧
      m1.hw.phase = Phase.search pos 1 := by
  obtain ⟨h1, h2, h3⟩ := sim_attach g m ha
  rcases hat : onewire_rmt_attach_pin simHw (g : Int) m with ⟨ok, ma⟩
  rw [hat] at h1 h2 h3
  simp only at h1 h2 h3
  subst h1
  rcases hres : onewire_read_bits simHw g d 1 m with f | ⟨ok, v, m1⟩ <;>
    unfold onewire_read_bits at hres <;>
    rw [if_neg (by norm_num), hat] at hres <;>
    simp [emit, write_items, xRingbufferReceive, simHw, sim_effect, sim_burst, sim_item,
      sim_slot, h2, hph, List.replicate, onewire_encode_read_slot, OW_DURATION_1_LOW,
      OW_DURATION_RESET] at hres
  obtain ⟨rfl, hv, rfl⟩ := hres
  rw [decode_answer] at hv
  subst hv
  exact ⟨_, rfl, h3, rfl, rfl, rfl⟩

theorem sim_read_cmp (g d : Nat) (m : Machine SimBus) (ha : attached m) (pos : Nat)
    (hph : m.hw.phase = Phase.search pos 1) :
    ∃ m1, onewire_read_bits simHw g d 1 m =
        .ok (true, (if m.hw.selected.all (fun r => ! rom_bit r pos) then 1 else 0), m1) ∧
      attached m1 ∧ m1.hw.devices = m.hw.devices ∧ m1.hw.selected = m.hw.selected ∧
      m1.hw.phase = Phase.search pos 2 := by
  obtain ⟨h1, h2, h3⟩ := sim_attach g m ha
  rcases hat : onewire_rmt_attach_pin simHw (g : Int) m with ⟨ok, ma⟩
  rw [hat] at h1 h2 h3
  simp only at h1 h2 h3
  subst h1
  rcases hres : onewire_read_bits simHw g d 1 m with f | ⟨ok, v, m1⟩ <;>
    unfold onewire_read_bits at hres <;>
    rw [if_neg (by norm_num), hat] at hres <;>
    simp [emit, write_items, xRingbufferReceive, simHw, sim_effect, sim_burst, sim_item,
      sim_slot, h2, hph, List.replicate, onewire_encode_read_slot, OW_DURATION_1_LOW,
      OW_DURATION_RESET] at hres
  obtain ⟨rfl, hv, rfl⟩ := hres
  rw [decode_answer] at hv
  subst hv
  exact ⟨_, rfl, h3, rfl, rfl, rfl⟩

theorem sim_write_dir (g dir : Nat) (m : Machine SimBus) (ha : attached m) (pos : Nat)
    (hdir : dir = 0 ∨ dir = 1) (hph : m.hw.phase = Phase.search pos 2) :
    attached (onewire_write_bits simHw g dir 1 owDefaultPower m).2 ∧
    (onewire_write_bits simHw g dir 1 owDefaultPower m).2.hw.devices = m.hw.devices ∧
    (onewire_write_bits simHw g dir 1 owDefaultPower m).2.hw.selected =
      m.hw.selected.filter (fun r => rom_bit r pos == decide (dir = 1)) ∧
    (onewire_write_bits simHw g dir 1 owDefaultPower m).2.hw.phase =
      (if pos + 1 < 64 then Phase.search (pos + 1) 0 else Phase.idle) := by
  obtain ⟨h1, h2, h3⟩ := sim_attach g m ha
  rcases hat : onewire_rmt_attach_pin simHw (g : Int) m with ⟨ok, ma⟩
  rw [hat] at h1 h2 h3
  simp only at h1 h2 h3
  subst h1
  unfold onewire_write_bits
  rw [if_neg (by norm_num), hat]
  rcases hdir with rfl | rfl <;>
    simp [emit, write_items, simHw, sim_effect, sim_burst, sim_item, sim_slot, h2, hph,
      write_slots, onewire_encode_write_slot, OW_DURATION_1_LOW, OW_DURATION_0_LOW,
      OW_DURATION_RESET, owDefaultPower, attached] <;>
    exact h3

theorem sim_write_command (g : Nat) (m : Machine SimBus) (ha : attached m)
    (hph : m.hw.phase = Phase.command 0 0) :
    attached (onewire_write_bits simHw g 0xF0 8 owDefaultPower m).2 ∧
    (onewire_write_bits simHw g 0xF0 8 owDefaultPower m).2.hw.devices = m.hw.devices ∧
    (onewire_write_bits simHw g 0xF0 8 owDefaultPower m).2.hw.selected = m.hw.selected ∧
    (onewire_write_bits simHw g 0xF0 8 owDefaultPower m).2.hw.phase = Phase.search 0 0 := by
  obtain ⟨h1, h2, h3⟩ := sim_attach g m ha
  rcases hat : onewire_rmt_attach_pin simHw (g : Int) m with ⟨ok, ma⟩
  rw [hat] at h1 h2 h3
  simp only at h1 h2 h3
  subst h1
  unfold onewire_write_bits
  rw [if_neg (by norm_num), hat]
  simp [emit, write_items, simHw, sim_effect, sim_burst, sim_item, sim_slot, h2, hph,
      write_slots, onewire_encode_write_slot, OW_DURATION_1_LOW, OW_DURATION_0_LOW,
      OW_DURATION_RESET, owDefaultPower, attached]
  exact h3

theorem sim_reset (ow : mgos_rmt_onewire) (m : Machine SimBus) (ha : attached m) :
    ∃ m1, onewire_rmt_reset simHw ow m = .ok (! m.hw.devices.isEmpty, m1) ∧
      attached m1 ∧ m1.hw.devices = m.hw.devices ∧ m1.hw.selected = m.hw.devices ∧
      m1.hw.phase = Phase.command 0 0 := by
  obtain ⟨h1, h2, h3⟩ := sim_attach ow.pin m ha
  rcases hat : onewire_rmt_attach_pin simHw ow.pin m with ⟨ok, ma⟩
  rw [hat] at h1 h2 h3
  simp only at h1 h2 h3
  subst h1
  by_cases hD : m.hw.devices = [] <;>
    rcases hres : onewire_rmt_reset simHw ow m with f | ⟨ok, m1⟩ <;>
    unfold onewire_rmt_reset at hres <;>
    dsimp only at hres <;>
    rw [hat] at hres <;>
    simp [emit, write_items, xRingbufferReceive, simHw, sim_effect, sim_burst, sim_item,
      sim_slot, h2, OW_DURATION_RESET, reset_finish, parse_presence, hD] at hres
  · obtain ⟨hok, hm⟩ := hres
    have hb : ok = ! m.hw.devices.isEmpty := by simp [hD, hok]
    subst hb
    subst hm
    exact ⟨_, rfl, h3, by simp [hD], by simp [hD], rfl⟩
  · obtain ⟨hok, hm⟩ := hres
    have hb : ok = ! m.hw.devices.isEmpty := by simp [hD, hok]
    subst hb
    subst hm
    exact ⟨_, rfl, h3, rfl, rfl, rfl⟩


theorem agree_mono {k j : Nat} {x r : List Nat} (hj : j ≤ k) (h : agree k x r) : agree j x r :=
  fun q hq => h q (lt_of_lt_of_le hq hj)

theorem agree_refl (k : Nat) (x : List Nat) : agree k x x := fun _ _ => rfl

theorem agree_symm {k : Nat} {x r : List Nat} (h : agree k x r) : agree k r x :=
  fun q hq => (h q hq).symm

theorem agree_trans {k : Nat} {x y z : List Nat} (h1 : agree k x y) (h2 : agree k y z) :
    agree k x z := fun q hq => (h1 q hq).trans (h2 q hq)

theorem agree_succ {k : Nat} {x r : List Nat} :
    agree (k + 1) x r ↔ agree k x r ∧ rom_bit x k = rom_bit r k := by
  constructor
  · intro h
    exact ⟨agree_mono (Nat.le_succ k) h, h k (Nat.lt_succ_self k)⟩
  · rintro ⟨h1, h2⟩ q hq
    rcases Nat.lt_succ_iff_lt_or_eq.1 hq with h | h
    · exact h1 q h
    · rw [h]; exact h2

theorem agree_congr {k : Nat} {r1 r2 : List Nat} (h : agree k r1 r2) (x : List Nat) :
    agree k x r1 ↔ agree k x r2 :=
  ⟨fun hx => agree_trans hx h, fun hx => agree_trans hx (agree_symm h)⟩

theorem has_bit_congr {D : List (List Nat)} {p : Nat} {r1 r2 : List Nat} (h : agree p r1 r2)
    (b : Bool) : has_bit D r1 p b ↔ has_bit D r2 p b := by
  unfold has_bit
  constructor
  · rintro ⟨x, hx, ha, hb⟩
    exact ⟨x, hx, (agree_congr h x).1 ha, hb⟩
  · rintro ⟨x, hx, ha, hb⟩
    exact ⟨x, hx, (agree_congr h x).2 ha, hb⟩

theorem discrepancy_congr {D : List (List Nat)} {p : Nat} {r1 r2 : List Nat}
    (h : agree p r1 r2) : discrepancy D r1 p ↔ discrepancy D r2 p := by
  unfold discrepancy
  rw [has_bit_congr h false, has_bit_congr h true]

theorem walk_rule_congr {D : List (List Nat)} {r0 : List Nat} {L p : Nat} {r1 r2 : List Nat}
    (h : agree (p + 1) r1 r2) : walk_rule D r0 L r1 p ↔ walk_rule D r0 L r2 p := by
  obtain ⟨h1, h2⟩ := agree_succ.1 h
  unfold walk_rule
  by_cases hd : discrepancy D r1 p
  · rw [if_pos hd, if_pos ((discrepancy_congr h1).1 hd), h2]
  · rw [if_neg hd, if_neg (fun h' => hd ((discrepancy_congr h1).2 h')), h2, has_bit_congr h1]

theorem last_zero_of_congr {D : List (List Nat)} {r1 r2 : List Nat} :
    ∀ {k : Nat}, agree k r1 r2 → last_zero_of D r1 k = last_zero_of D r2 k
  | 0, _ => rfl
  | k + 1, h => by
    obtain ⟨h1, h2⟩ := agree_succ.1 h
    unfold last_zero_of
    rw [last_zero_of_congr h1, h2]
    by_cases hd : discrepancy D r1 k
    · simp [hd, (discrepancy_congr h1).1 hd]
    · have hd2 : ¬ discrepancy D r2 k := fun h' => hd ((discrepancy_congr h1).2 h')
      simp [hd, hd2]

theorem last_zero_of_le (D : List (List Nat)) (r : List Nat) : ∀ k, last_zero_of D r k ≤ k
  | 0 => Nat.le_refl 0
  | k + 1 => by
    unfold last_zero_of
    split
    · exact Nat.le_refl _
    · exact Nat.le_succ_of_le (last_zero_of_le D r k)

theorem replay_direction_eq (v : search_vars) (sst : platform_onewire_bus_t) (k : Nat)
    (hid : v.id_bit_number = k + 1) (hrbn : v.rom_byte_number = k / 8)
    (hmask : v.rom_byte_mask = 2 ^ (k % 8)) :
    replay_direction v sst =
      (if (if k + 1 < sst.LastDiscrepancy then rom_bit sst.ROM_NO k
           else decide (k + 1 = sst.LastDiscrepancy)) then 1 else 0) := by
  have hm : (sst.ROM_NO.getD (k / 8) 0 &&& 2 ^ (k % 8) > 0) ↔ rom_bit sst.ROM_NO k = true :=
    mask_test _ _
  unfold replay_direction
  rw [hid, hrbn, hmask]
  by_cases hL : k + 1 < sst.LastDiscrepancy
  · rw [if_pos hL, if_pos hL]
    by_cases hb : rom_bit sst.ROM_NO k = true
    · rw [if_pos (hm.2 hb), if_pos hb]
    · rw [if_neg (fun h => hb (hm.1 h)), if_neg hb]
  · rw [if_neg hL, if_neg hL]
    by_cases hE : k + 1 = sst.LastDiscrepancy
    · simp [hE]
    · simp [hE]

theorem pick_direction_spec (id_bit cmp_id_bit : Nat) (v : search_vars)
    (sst : platform_onewire_bus_t) :
    (pick_direction id_bit cmp_id_bit v sst).2.2.ROM_NO = sst.ROM_NO ∧
    (pick_direction id_bit cmp_id_bit v sst).2.2.LastDiscrepancy = sst.LastDiscrepancy ∧
    (pick_direction id_bit cmp_id_bit v sst).2.2.LastDeviceFlag = sst.LastDeviceFlag ∧
    (pick_direction id_bit cmp_id_bit v sst).2.1.id_bit_number = v.id_bit_number ∧
    (pick_direction id_bit cmp_id_bit v sst).2.1.rom_byte_number = v.rom_byte_number ∧
    (pick_direction id_bit cmp_id_bit v sst).2.1.rom_byte_mask = v.rom_byte_mask ∧
    (id_bit ≠ cmp_id_bit →
      (pick_direction id_bit cmp_id_bit v sst).1 = id_bit ∧
      (pick_direction id_bit cmp_id_bit v sst).2.1.last_zero = v.last_zero) ∧
    (id_bit = cmp_id_bit →
      (pick_direction id_bit cmp_id_bit v sst).1 = replay_direction v sst ∧
      (pick_direction id_bit cmp_id_bit v sst).2.1.last_zero =
        (if replay_direction v sst = 0 then v.id_bit_number else v.last_zero)) := by
  unfold pick_direction record_zero
  generalize replay_direction v sst = d
  by_cases hne : id_bit = cmp_id_bit
  · by_cases hd : d = 0
    · by_cases h9 : v.id_bit_number < 9 <;> simp [hne, hd, h9]
    · simp [hne, hd]
  · simp [hne]


theorem sim_round (D : List (List Nat)) (ow0 : mgos_rmt_onewire) (k : Nat) (v : search_vars)
    (ow : mgos_rmt_onewire) (m : Machine SimBus) (hk : k < 64)
    (inv : walk_inv D ow0 k v ow m) :
    ∃ v1 ow1 m1, search_round simHw ow v m = .ok (true, v1, ow1, m1) ∧
      walk_inv D ow0 (k + 1) v1 ow1 m1 := by
  have hph : m.hw.phase = Phase.search k 0 := by rw [inv.phase, if_pos hk]
  obtain ⟨m1, hr1, ha1, hd1, hs1, hp1⟩ := sim_read_id (pin_u8 ow) 0 m inv.att k hph
  obtain ⟨m2, hr2, ha2, hd2, hs2, hp2⟩ := sim_read_cmp (pin_u8 ow) 0 m1 ha1 k hp1
  rw [hs1] at hr2 hs2
  rw [hd1] at hd2
  obtain ⟨x0, hx0⟩ := inv.nonempty
  have hA : (m.hw.selected.all (fun r => rom_bit r k)) = true ↔
      ∀ x ∈ m.hw.selected, rom_bit x k = true := by simp [List.all_eq_true]
  have hB : (m.hw.selected.all (fun r => ! rom_bit r k)) = true ↔
      ∀ x ∈ m.hw.selected, rom_bit x k = false := by simp [List.all_eq_true]
  generalize hAe : (m.hw.selected.all (fun r => rom_bit r k)) = A at hr1 hA
  generalize hBe : (m.hw.selected.all (fun r => ! rom_bit r k)) = B at hr2 hB
  have hAB : ¬ (A = true ∧ B = true) := by
    rintro ⟨h1, h2⟩
    have := hA.1 h1 x0 hx0
    rw [hB.1 h2 x0 hx0] at this
    exact Bool.noConfusion this
  obtain ⟨q1, q2, q3, q4, q5, q6, q7, q8⟩ :=
    pick_direction_spec (if A then 1 else 0) (if B then 1 else 0) v ow.sst
  have hrep := replay_direction_eq v ow.sst k inv.id_bit_number inv.rom_byte_number
    inv.rom_byte_mask
  generalize hrb : (if k + 1 < ow.sst.LastDiscrepancy then rom_bit ow.sst.ROM_NO k
    else decide (k + 1 = ow.sst.LastDiscrepancy)) = rb at hrep
  generalize hpk : pick_direction (if A then 1 else 0) (if B then 1 else 0) v ow.sst = pk
    at q1 q2 q3 q4 q5 q6 q7 q8
  -- the direction is a bit
  have hdir01 : pk.1 = 0 ∨ pk.1 = 1 := by
    by_cases hne : (if A then 1 else 0 : Nat) = (if B then 1 else 0)
    · rw [(q8 hne).1, hrep]
      cases rb <;> simp
    · rw [(q7 hne).1]
      cases A <;> simp
  -- which devices are selected
  have hsel : ∀ b : Bool, has_bit D ow.sst.ROM_NO k b ↔ ∃ x ∈ m.hw.selected, rom_bit x k = b := by
    intro b
    unfold has_bit
    constructor
    · rintro ⟨x, hx, hag, hb⟩
      exact ⟨x, (inv.selected x).2 ⟨hx, hag⟩, hb⟩
    · rintro ⟨x, hx, hb⟩
      exact ⟨x, ((inv.selected x).1 hx).1, ((inv.selected x).1 hx).2, hb⟩
  have hdisc : discrepancy D ow.sst.ROM_NO k ↔ A = false ∧ B = false := by
    unfold discrepancy
    rw [hsel, hsel]
    constructor
    · rintro ⟨⟨x, hx, hxb⟩, ⟨y, hy, hyb⟩⟩
      constructor
      · by_contra hA'
        have := hA.1 (by simpa using hA') x hx
        rw [hxb] at this
        exact Bool.noConfusion this
      · by_contra hB'
        have := hB.1 (by simpa using hB') y hy
        rw [hyb] at this
        exact Bool.noConfusion this
    · rintro ⟨hA', hB'⟩
      constructor
      · by_contra hno
        apply Bool.noConfusion (hA'.symm.trans (hA.2 _))
        intro x hx
        by_contra hxb
        exact hno ⟨x, hx, by simpa using hxb⟩
      · by_contra hno
        apply Bool.noConfusion (hB'.symm.trans (hB.2 _))
        intro x hx
        by_contra hxb
        exact hno ⟨x, hx, by simpa using hxb⟩
  have hpresent : ∃ x ∈ m.hw.selected, rom_bit x k = decide (pk.1 = 1) := by
    cases hAv : A
    · cases hBv : B
      · have hd := hdisc.2 ⟨hAv, hBv⟩
        unfold discrepancy at hd
        rw [hsel, hsel] at hd
        rcases hdir01 with h | h
        · rw [h]; simpa using hd.1
        · rw [h]; simpa using hd.2
      · have hne : (if A then 1 else 0 : Nat) ≠ (if B then 1 else 0) := by simp [hAv, hBv]
        rw [(q7 hne).1]
        exact ⟨x0, hx0, by simpa [hAv] using hB.1 hBv x0 hx0⟩
    · have hBv : B = false := by
        cases hBv : B
        · rfl
        · exact absurd ⟨hAv, hBv⟩ hAB
      have hne : (if A then 1 else 0 : Nat) ≠ (if B then 1 else 0) := by simp [hAv, hBv]
      rw [(q7 hne).1]
      exact ⟨x0, hx0, by simpa [hAv] using hA.1 hAv x0 hx0⟩
  have hlen : k / 8 < pk.2.2.ROM_NO.length := by
    rw [q1, inv.wf.1]; omega
  have hbit : ∀ p, rom_bit (store_bit pk.1 pk.2.1 pk.2.2).ROM_NO p =
      if p = k then decide (pk.1 = 1) else rom_bit ow.sst.ROM_NO p := by
    intro p
    rw [rom_bit_store pk.1 pk.2.1 pk.2.2 k p (q5.trans inv.rom_byte_number)
      (q6.trans inv.rom_byte_mask) hlen, q1]
  have hagk : agree k (store_bit pk.1 pk.2.1 pk.2.2).ROM_NO ow.sst.ROM_NO := by
    intro q hq
    rw [hbit, if_neg (Nat.ne_of_lt hq)]
  have hbk : rom_bit (store_bit pk.1 pk.2.1 pk.2.2).ROM_NO k = decide (pk.1 = 1) := by
    rw [hbit, if_pos rfl]
  obtain ⟨w1, w2, w3, w4⟩ := sim_write_dir (pin_u8 ow) pk.1 m2 ha2 k hdir01 hp2
  obtain ⟨a1, a2, a3, a4⟩ := advance_at pk.2.1 k hk (q4.trans inv.id_bit_number)
    (q5.trans inv.rom_byte_number) (q6.trans inv.rom_byte_mask)
  obtain ⟨f1, f2, f3, f4⟩ := store_bit_fields pk.1 pk.2.1 pk.2.2
  refine ⟨advance pk.2.1, { ow with sst := store_bit pk.1 pk.2.1 pk.2.2 },
    (onewire_write_bits simHw (pin_u8 ow) pk.1 1 owDefaultPower m2).2, ?_, ?_⟩
  · unfold search_round
    rw [hr1]
    dsimp only
    rw [hr2]
    dsimp only
    have hn : ¬ ((if A then 1 else 0 : Nat) = 1 ∧ (if B then 1 else 0 : Nat) = 1) := by
      intro h
      apply hAB
      constructor
      · by_contra hh; simp [hh] at h
      · by_contra hh; simp [hh] at h
    rw [if_neg hn, hpk]
  · constructor
    · exact a1
    · exact a2
    · exact a3
    · -- last_zero
      rw [a4]
      show pk.2.1.last_zero = last_zero_of D (store_bit pk.1 pk.2.1 pk.2.2).ROM_NO (k + 1)
      unfold last_zero_of
      rw [last_zero_of_congr hagk, ← inv.last_zero, hbk]
      simp only [discrepancy_congr hagk, hdisc]
      by_cases hne : (if A then 1 else 0 : Nat) = (if B then 1 else 0)
      · have hAf : A = false := by
          cases hAv : A
          · rfl
          · cases hBv : B
            · simp [hAv, hBv] at hne
            · exact absurd ⟨hAv, hBv⟩ hAB
        have hBf : B = false := by
          cases hBv : B
          · rfl
          · simp [hAf, hBv] at hne
        rw [(q8 hne).2, ← (q8 hne).1, inv.id_bit_number]
        rcases hdir01 with h | h <;> simp [h, hAf, hBf]
      · rw [(q7 hne).2]
        have : ¬ (A = false ∧ B = false) := by
          rintro ⟨h1, h2⟩
          simp [h1, h2] at hne
        simp [this]
    · exact inv.pin
    · show (store_bit pk.1 pk.2.1 pk.2.2).LastDiscrepancy = _
      rw [f1, q2, inv.last_disc]
    · show (store_bit pk.1 pk.2.1 pk.2.2).LastDeviceFlag = _
      rw [f2, q3, inv.flag]
    · show wf_rom (store_bit pk.1 pk.2.1 pk.2.2).ROM_NO
      exact wf_rom_store pk.1 pk.2.1 pk.2.2 k (q6.trans inv.rom_byte_mask) (by rw [q1]; exact inv.wf)
    · intro p hp
      show rom_bit (store_bit pk.1 pk.2.1 pk.2.2).ROM_NO p = _
      rw [hbit, if_neg (by omega)]
      exact inv.untouched p (by omega)
    · intro p hp
      show walk_rule D _ _ (store_bit pk.1 pk.2.1 pk.2.2).ROM_NO p
      rcases Nat.lt_succ_iff_lt_or_eq.1 hp with hlt | heq
      · rw [walk_rule_congr (agree_mono (by omega) hagk)]
        exact inv.rule p hlt
      · subst heq
        unfold walk_rule
        simp only [discrepancy_congr hagk, has_bit_congr hagk, hbk]
        by_cases hd : discrepancy D ow.sst.ROM_NO p
        · rw [if_pos hd]
          obtain ⟨hAf, hBf⟩ := hdisc.1 hd
          have hne : (if A then 1 else 0 : Nat) = (if B then 1 else 0) := by simp [hAf, hBf]
          rw [(q8 hne).1, hrep, ← hrb, inv.last_disc, inv.untouched p (Nat.le_refl p)]
          generalize (if p + 1 < ow0.sst.LastDiscrepancy then rom_bit ow0.sst.ROM_NO p
            else decide (p + 1 = ow0.sst.LastDiscrepancy)) = bb
          cases bb <;> simp
        · rw [if_neg hd, hsel]
          exact hpresent
    · exact w1
    · rw [w2, hd2]; exact inv.devices
    · intro x
      rw [w3, hs2, List.mem_filter, inv.selected x]
      show _ ↔ x ∈ D ∧ agree (k + 1) x (store_bit pk.1 pk.2.1 pk.2.2).ROM_NO
      rw [agree_succ, hbk, agree_congr hagk]
      simp [and_assoc]
    · obtain ⟨x, hx, hxb⟩ := hpresent
      refine ⟨x, ?_⟩
      rw [w3, hs2, List.mem_filter]
      exact ⟨hx, by simp [hxb]⟩
    · rw [w4]


theorem sim_loop (D : List (List Nat)) (ow0 : mgos_rmt_onewire) :
    ∀ (fuel k : Nat) (v : search_vars) (ow : mgos_rmt_onewire) (m : Machine SimBus),
      k + fuel = 64 → 0 < fuel → walk_inv D ow0 k v ow m →
      ∃ v1 ow1 m1, search_loop simHw fuel ow v m = .ok (v1, ow1, m1) ∧
        walk_inv D ow0 64 v1 ow1 m1
  | 0, _, _, _, _, _, h0, _ => absurd h0 (Nat.lt_irrefl 0)
  | fuel + 1, k, v, ow, m, hk, _, inv => by
    obtain ⟨v1, ow1, m1, hr, inv1⟩ := sim_round D ow0 k v ow m (by omega) inv
    unfold search_loop
    rw [hr]
    dsimp only
    by_cases hlt : k + 1 < 64
    · have h8 : v1.rom_byte_number < 8 := by rw [inv1.rom_byte_number]; omega
      rw [if_pos h8]
      exact sim_loop D ow0 fuel (k + 1) v1 ow1 m1 (by omega) (by omega) inv1
    · have h8 : ¬ v1.rom_byte_number < 8 := by rw [inv1.rom_byte_number]; omega
      rw [if_neg h8]
      have hk64 : k + 1 = 64 := by omega
      rw [hk64] at inv1
      exact ⟨v1, ow1, m1, rfl, inv1⟩

theorem range8_getD (r : List Nat) (h : r.length = 8) :
    (List.range 8).map (fun i => r.getD i 0) = r := by
  match r, h with
  | [a, b, c, d, e, f, g, i], _ => rfl

theorem search_finish_done (v : search_vars) (ow : mgos_rmt_onewire) (rom : List Nat)
    (hid : ¬ v.id_bit_number < 65) (hflag : ow.sst.LastDeviceFlag = false)
    (hlen : ow.sst.ROM_NO.length = 8) :
    search_finish v ow rom =
      if ow.sst.ROM_NO.getD 0 0 = 0 then
        (false, rom, { ow with sst := { ow.sst with
          LastDiscrepancy := 0, LastDeviceFlag := false, LastFamilyDiscrepancy := 0 } })
      else
        (true, ow.sst.ROM_NO ++ rom.drop 8, { ow with sst := { ow.sst with
          LastDiscrepancy := v.last_zero, LastDeviceFlag := decide (v.last_zero = 0) } }) := by
  unfold search_finish
  have h8 := range8_getD ow.sst.ROM_NO hlen
  by_cases hz : ow.sst.ROM_NO.getD 0 0 = 0 <;> by_cases hl : v.last_zero = 0 <;>
    simp [-List.getD_eq_getElem?_getD, hid, hz, hl, reset_counters, hflag, h8]

theorem next_sim (D : List (List Nat)) (ow : mgos_rmt_onewire) (rom : List Nat)
    (m : Machine SimBus) (hD : D ≠ []) (hdev : m.hw.devices = D) (ha : attached m)
    (hflag : ow.sst.LastDeviceFlag = false) (hwf : wf_rom ow.sst.ROM_NO) :
    ∃ r ow1 m1,
      onewire_rmt_next simHw ow rom m =
        .ok (decide (r.getD 0 0 ≠ 0), (if r.getD 0 0 ≠ 0 then r ++ rom.drop 8 else rom), ow1, m1) ∧
      wf_rom r ∧
      (∀ p, p < 64 → walk_rule D ow.sst.ROM_NO ow.sst.LastDiscrepancy r p) ∧
      ow1.sst.ROM_NO = r ∧ ow1.pin = ow.pin ∧
      ow1.sst.LastDiscrepancy = (if r.getD 0 0 ≠ 0 then last_zero_of D r 64 else 0) ∧
      ow1.sst.LastDeviceFlag = decide (r.getD 0 0 ≠ 0 ∧ last_zero_of D r 64 = 0) ∧
      attached m1 ∧ m1.hw.devices = D := by
  obtain ⟨m1, hr, ha1, hd1, hs1, hp1⟩ := sim_reset ow m ha
  have hne : (! m.hw.devices.isEmpty) = true := by
    rw [hdev]; cases D with
    | nil => exact absurd rfl hD
    | cons a l => rfl
  rw [hne] at hr
  obtain ⟨w1, w2, w3, w4⟩ := sim_write_command (pin_u8 ow) m1 ha1 hp1
  have inv0 : walk_inv D ow 0
      { id_bit_number := 1, last_zero := 0, rom_byte_number := 0, rom_byte_mask := 1 } ow
      (onewire_write_bits simHw (pin_u8 ow) 0xF0 8 owDefaultPower m1).2 := by
    constructor
    · rfl
    · rfl
    · rfl
    · rfl
    · rfl
    · rfl
    · rfl
    · exact hwf
    · intro p _; rfl
    · intro p hp; exact absurd hp (Nat.not_lt_zero p)
    · exact w1
    · rw [w2, hd1, hdev]
    · intro x
      rw [w3, hs1, hdev]
      exact ⟨fun h => ⟨h, fun q hq => absurd hq (Nat.not_lt_zero q)⟩, fun h => h.1⟩
    · rw [w3, hs1, hdev]
      cases D with
      | nil => exact absurd rfl hD
      | cons a l => exact ⟨a, List.mem_cons_self a l⟩
    · rw [w4]; rfl
  obtain ⟨v1, ow1, m3, hl, inv⟩ := sim_loop D ow 64 0 _ ow _ (by norm_num) (by norm_num) inv0
  have hid : ¬ v1.id_bit_number < 65 := by rw [inv.id_bit_number]; omega
  have hfin := search_finish_done v1 ow1 rom hid (inv.flag.trans hflag) inv.wf.1
  have hnext : onewire_rmt_next simHw ow rom m =
      .ok ((search_finish v1 ow1 rom).1, (search_finish v1 ow1 rom).2.1,
        (search_finish v1 ow1 rom).2.2, m3) := by
    unfold onewire_rmt_next
    dsimp only
    rw [if_pos (by simp [hflag]), hr]
    dsimp only
    rw [hl]
  rw [hnext, hfin]
  by_cases hz : ow1.sst.ROM_NO.getD 0 0 = 0
  · rw [if_pos hz]
    refine ⟨ow1.sst.ROM_NO, { ow1 with sst := { ow1.sst with
        LastDiscrepancy := 0, LastDeviceFlag := false, LastFamilyDiscrepancy := 0 } }, m3,
      ?_, inv.wf, inv.rule, rfl, inv.pin, ?_, ?_, inv.att, inv.devices⟩
    · simp [-List.getD_eq_getElem?_getD, hz]
    · simp [-List.getD_eq_getElem?_getD, hz]
    · simp [-List.getD_eq_getElem?_getD, hz]
  · rw [if_neg hz]
    refine ⟨ow1.sst.ROM_NO, { ow1 with sst := { ow1.sst with
        LastDiscrepancy := v1.last_zero, LastDeviceFlag := decide (v1.last_zero = 0) } }, m3,
      ?_, inv.wf, inv.rule, rfl, inv.pin, ?_, ?_, inv.att, inv.devices⟩
    · simp [-List.getD_eq_getElem?_getD, hz]
    · simp [-List.getD_eq_getElem?_getD, hz, inv.last_zero]
    · simp [-List.getD_eq_getElem?_getD, hz, inv.last_zero]


/-! ## The search order -/

theorem first_diff {x y : List Nat} : ∀ {p : Nat}, ¬ agree p x y →
    ∃ q, q < p ∧ agree q x y ∧ rom_bit x q ≠ rom_bit y q
  | 0, h => absurd (fun q hq => absurd hq (Nat.not_lt_zero q)) h
  | p + 1, h => by
    by_cases hp : agree p x y
    · refine ⟨p, Nat.lt_succ_self p, hp, ?_⟩
      intro hb
      exact h (agree_succ.2 ⟨hp, hb⟩)
    · obtain ⟨q, hq, hag, hb⟩ := first_diff hp
      exact ⟨q, Nat.lt_succ_of_lt hq, hag, hb⟩

theorem rom_lt_asymm {x y : List Nat} (h1 : rom_lt x y) (h2 : rom_lt y x) : False := by
  obtain ⟨p, _, hp, hx, hy⟩ := h1
  obtain ⟨q, _, hq, hy', hx'⟩ := h2
  rcases Nat.lt_trichotomy p q with h | h | h
  · have := hq p h
    rw [hx, hy] at this
    exact Bool.noConfusion this
  · subst h
    rw [hx] at hx'
    exact Bool.noConfusion hx'
  · have := hp q h
    rw [hy', hx'] at this
    exact Bool.noConfusion this

theorem rom_lt_irrefl (x : List Nat) : ¬ rom_lt x x := fun h => rom_lt_asymm h h

theorem rom_lt_cotrans {z x : List Nat} (h : rom_lt z x) (y : List Nat) :
    rom_lt z y ∨ rom_lt y x := by
  obtain ⟨p, hp, hag, hz, hx⟩ := h
  by_cases hy : agree p y z
  · cases hb : rom_bit y p
    · exact Or.inr ⟨p, hp, agree_trans hy hag, hb, hx⟩
    · exact Or.inl ⟨p, hp, agree_symm hy, hz, hb⟩
  · obtain ⟨q, hq, hqa, hqb⟩ := first_diff hy
    cases hb : rom_bit y q
    · right
      refine ⟨q, by omega, agree_trans hqa (agree_mono (Nat.le_of_lt hq) hag), hb, ?_⟩
      rw [← hag q hq]
      rw [hb] at hqb
      cases hzq : rom_bit z q
      · exact absurd hzq.symm hqb
      · rfl
    · left
      refine ⟨q, by omega, agree_symm hqa, ?_, hb⟩
      rw [hb] at hqb
      cases hzq : rom_bit z q
      · rfl
      · exact absurd hzq.symm hqb

theorem rom_lt_trans {x y z : List Nat} (h1 : rom_lt x y) (h2 : rom_lt y z) : rom_lt x z := by
  rcases rom_lt_cotrans h1 z with h | h
  · exact h
  · exact absurd h2 (fun h' => rom_lt_asymm h' h)

theorem rom_lt_trichotomy {x y : List Nat} (hx : wf_rom x) (hy : wf_rom y) :
    x = y ∨ rom_lt x y ∨ rom_lt y x := by
  by_cases h : agree 64 x y
  · exact Or.inl (rom_ext hx hy h)
  · obtain ⟨q, hq, hag, hb⟩ := first_diff h
    cases hxq : rom_bit x q
    · right; left
      refine ⟨q, hq, hag, hxq, ?_⟩
      rw [hxq] at hb
      cases hyq : rom_bit y q
      · exact absurd hyq.symm hb
      · rfl
    · right; right
      refine ⟨q, hq, agree_symm hag, ?_, hxq⟩
      rw [hxq] at hb
      cases hyq : rom_bit y q
      · rfl
      · exact absurd hyq.symm hb

/-! ## Consequences of the walk rule -/

theorem has_bit_both {D : List (List Nat)} {r : List Nat} {p : Nat} {a b : Bool}
    (ha : has_bit D r p a) (hb : has_bit D r p b) (hab : a ≠ b) : discrepancy D r p := by
  unfold discrepancy
  cases a <;> cases b
  · exact absurd rfl hab
  · exact ⟨ha, hb⟩
  · exact ⟨hb, ha⟩
  · exact absurd rfl hab

theorem walk_rule_has_bit {D : List (List Nat)} {r0 r : List Nat} {L p : Nat}
    (h : walk_rule D r0 L r p) : has_bit D r p (rom_bit r p) := by
  unfold walk_rule at h
  by_cases hd : discrepancy D r p
  · cases hb : rom_bit r p
    · exact hd.1
    · exact hd.2
  · rw [if_neg hd] at h
    exact h

theorem walk_mem {D : List (List Nat)} {r0 r : List Nat} {L : Nat}
    (hD : ∀ d ∈ D, wf_rom d) (hwf : wf_rom r)
    (h : ∀ p, p < 64 → walk_rule D r0 L r p) : r ∈ D := by
  obtain ⟨x, hx, hag, hb⟩ := walk_rule_has_bit (h 63 (by norm_num))
  have : x = r := rom_ext (hD x hx) hwf (agree_succ.2 ⟨hag, hb⟩)
  rw [← this]
  exact hx

theorem last_zero_of_ge {D : List (List Nat)} {r : List Nat} :
    ∀ {k p : Nat}, p < k → discrepancy D r p → rom_bit r p = false →
      p + 1 ≤ last_zero_of D r k
  | 0, p, hp, _, _ => absurd hp (Nat.not_lt_zero p)
  | k + 1, p, hp, hd, hb => by
    unfold last_zero_of
    split
    · omega
    · rename_i hn
      rcases Nat.lt_succ_iff_lt_or_eq.1 hp with h | h
      · exact last_zero_of_ge h hd hb
      · subst h
        exact absurd ⟨hd, hb⟩ hn

theorem last_zero_of_pos {D : List (List Nat)} {r : List Nat} :
    ∀ {k j : Nat}, last_zero_of D r k = j + 1 →
      j < k ∧ discrepancy D r j ∧ rom_bit r j = false
  | 0, j, h => by simp [last_zero_of] at h
  | k + 1, j, h => by
    unfold last_zero_of at h
    split at h
    · rename_i hn
      have : j = k := by omega
      subst this
      exact ⟨Nat.lt_succ_self _, hn.1, hn.2⟩
    · obtain ⟨h1, h2, h3⟩ := last_zero_of_pos h
      exact ⟨Nat.lt_succ_of_lt h1, h2, h3⟩

theorem walk_replay {D : List (List Nat)} {r0 r x : List Nat} {L s : Nat}
    (hx : x ∈ D) (hxa : agree s x r0) (h : ∀ p, p < 64 → walk_rule D r0 L r p) :
    ∀ p, p < L → p ≤ s → p ≤ 64 → agree p r r0
  | 0, _, _, _ => fun q hq => absurd hq (Nat.not_lt_zero q)
  | p + 1, hL, hs, h64 => by
    have ih := walk_replay hx hxa h p (by omega) (by omega) (by omega)
    refine agree_succ.2 ⟨ih, ?_⟩
    have hr := h p (by omega)
    have hxr : agree p x r := agree_trans (agree_mono (by omega) hxa) (agree_symm ih)
    have hxb : rom_bit x p = rom_bit r0 p := hxa p (by omega)
    unfold walk_rule at hr
    by_cases hd : discrepancy D r p
    · rw [if_pos hd, if_pos hL] at hr
      exact hr
    · rw [if_neg hd] at hr
      by_contra hne
      apply hd
      have h1 : has_bit D r p (rom_bit r0 p) := ⟨x, hx, hxr, hxb⟩
      exact has_bit_both hr h1 hne

theorem walk_least {D : List (List Nat)} {r0 r x : List Nat} {L s : Nat}
    (h : ∀ p, p < 64 → walk_rule D r0 L r p) (hx : x ∈ D) (hL : L ≤ s) (hag : agree s x r)
    (hwx : wf_rom x) (hwr : wf_rom r) : x = r ∨ rom_lt r x := by
  by_cases h64 : agree 64 x r
  · exact Or.inl (rom_ext hwx hwr h64)
  · right
    obtain ⟨q, hq, hqa, hqb⟩ := first_diff h64
    have hsq : s ≤ q := by
      by_contra hlt
      exact hqb (hag q (by omega))
    have hr := h q hq
    have hd : discrepancy D r q :=
      has_bit_both ⟨x, hx, hqa, rfl⟩ (walk_rule_has_bit hr) hqb
    unfold walk_rule at hr
    rw [if_pos hd, if_neg (by omega)] at hr
    have hrq : rom_bit r q = false := by
      rw [hr]; simp; omega
    refine ⟨q, hq, agree_symm hqa, hrq, ?_⟩
    rw [hrq] at hqb
    cases hxq : rom_bit x q
    · exact absurd hxq hqb
    · rfl


/-! ## One call on the simulated bus -/

theorem next_step (D : List (List Nat)) (hD : D ≠ []) (hset : device_set D)
    (ow : mgos_rmt_onewire) (rom : List Nat) (m : Machine SimBus)
    (hdev : m.hw.devices = D) (ha : attached m)
    (hflag : ow.sst.LastDeviceFlag = false) (hwf : wf_rom ow.sst.ROM_NO) :
    ∃ e ow1 m1,
      onewire_rmt_next simHw ow rom m = .ok (true, e ++ rom.drop 8, ow1, m1) ∧
      e ∈ D ∧ (∀ p, p < 64 → walk_rule D ow.sst.ROM_NO ow.sst.LastDiscrepancy e p) ∧
      canon D ow1 ∧ ow1.sst.ROM_NO = e ∧ ow1.pin = ow.pin ∧
      attached m1 ∧ m1.hw.devices = D := by
  obtain ⟨r, ow1, m1, hn, hwr, hrule, h1, h2, h3, h4, h5, h6⟩ :=
    next_sim D ow rom m hD hdev ha hflag hwf
  have hmem : r ∈ D := walk_mem (fun d hd => (hset d hd).1) hwr hrule
  have hnz : r.getD 0 0 ≠ 0 := (hset r hmem).2
  rw [if_pos hnz] at hn h3
  have hdec : decide (r.getD 0 0 ≠ 0) = true := by simpa using hnz
  rw [hdec] at hn
  refine ⟨r, ow1, m1, hn, hmem, hrule, ⟨?_, ?_, ?_⟩, h1, h2, h5, h6⟩
  · rw [h1]; exact hmem
  · rw [h1]; exact h3
  · rw [h1, h4]; simp [-List.getD_eq_getElem?_getD, hnz]

theorem next_done {σ : Type} (hw : Hw σ) (ow : mgos_rmt_onewire) (rom : List Nat)
    (m : Machine σ) (hflag : ow.sst.LastDeviceFlag = true) :
    onewire_rmt_next hw ow rom m =
      .ok (false, rom, { ow with sst := reset_counters ow.sst }, m) := by
  unfold onewire_rmt_next
  dsimp only
  rw [if_neg (by simp [hflag])]
  simp [search_finish]

theorem canon_not_last {D : List (List Nat)} {ow : mgos_rmt_onewire} (hc : canon D ow)
    {x : List Nat} (hx : x ∈ D) (hlt : rom_lt ow.sst.ROM_NO x) :
    ow.sst.LastDeviceFlag = false ∧ ow.sst.LastDiscrepancy ≠ 0 := by
  obtain ⟨q, hq, hag, hd, hxq⟩ := hlt
  have hdisc : discrepancy D ow.sst.ROM_NO q :=
    ⟨⟨_, hc.1, agree_refl _ _, hd⟩, ⟨x, hx, agree_symm hag, hxq⟩⟩
  have := last_zero_of_ge hq hdisc hd
  constructor
  · rw [hc.2.2]; simp; omega
  · rw [hc.2.1]; omega

theorem canon_last {D : List (List Nat)} {ow : mgos_rmt_onewire} (hc : canon D ow)
    (hmax : ∀ x ∈ D, ¬ rom_lt ow.sst.ROM_NO x) : ow.sst.LastDeviceFlag = true := by
  rw [hc.2.2]
  by_contra hne
  have hpos : last_zero_of D ow.sst.ROM_NO 64 ≠ 0 := by simpa using hne
  obtain ⟨j, hj⟩ := Nat.exists_eq_succ_of_ne_zero hpos
  obtain ⟨h1, h2, h3⟩ := last_zero_of_pos hj
  obtain ⟨x, hx, hag, hb⟩ := h2.2
  exact hmax x hx ⟨j, h1, agree_symm hag, h3, hb⟩

theorem next_first (D : List (List Nat)) (hD : D ≠ []) (hset : device_set D)
    (ow : mgos_rmt_onewire) (rom : List Nat) (m : Machine SimBus)
    (hdev : m.hw.devices = D) (ha : attached m)
    (hflag : ow.sst.LastDeviceFlag = false) (hwf : wf_rom ow.sst.ROM_NO)
    (hL : ow.sst.LastDiscrepancy = 0) :
    ∃ e ow1 m1,
      onewire_rmt_next simHw ow rom m = .ok (true, e ++ rom.drop 8, ow1, m1) ∧
      e ∈ D ∧ (∀ x ∈ D, x = e ∨ rom_lt e x) ∧
      canon D ow1 ∧ ow1.sst.ROM_NO = e ∧ ow1.pin = ow.pin ∧
      attached m1 ∧ m1.hw.devices = D := by
  obtain ⟨e, ow1, m1, hn, he, hrule, hc, h1, h2, h3, h4⟩ :=
    next_step D hD hset ow rom m hdev ha hflag hwf
  refine ⟨e, ow1, m1, hn, he, ?_, hc, h1, h2, h3, h4⟩
  intro x hx
  have hL0 : ow.sst.LastDiscrepancy ≤ 0 := Nat.le_of_eq hL
  exact walk_least hrule hx hL0
    (fun q hq => absurd hq (Nat.not_lt_zero q)) (hset x hx).1 (hset e he).1

theorem next_succ (D : List (List Nat)) (hD : D ≠ []) (hset : device_set D)
    (ow : mgos_rmt_onewire) (rom : List Nat) (m : Machine SimBus)
    (hdev : m.hw.devices = D) (ha : attached m) (hc : canon D ow)
    (hflag : ow.sst.LastDeviceFlag = false) :
    ∃ e ow1 m1,
      onewire_rmt_next simHw ow rom m = .ok (true, e ++ rom.drop 8, ow1, m1) ∧
      e ∈ D ∧ rom_lt ow.sst.ROM_NO e ∧
      (∀ x ∈ D, rom_lt ow.sst.ROM_NO x → x = e ∨ rom_lt e x) ∧
      canon D ow1 ∧ ow1.sst.ROM_NO = e ∧ ow1.pin = ow.pin ∧
      attached m1 ∧ m1.hw.devices = D := by
  have hwf : wf_rom ow.sst.ROM_NO := (hset _ hc.1).1
  obtain ⟨e, ow1, m1, hn, he, hrule, hc1, h1, h2, h3, h4⟩ :=
    next_step D hD hset ow rom m hdev ha hflag hwf
  have hpos : last_zero_of D ow.sst.ROM_NO 64 ≠ 0 := by
    have := hc.2.2
    rw [hflag] at this
    simpa using this.symm
  obtain ⟨j, hj⟩ := Nat.exists_eq_succ_of_ne_zero hpos
  obtain ⟨hj64, hdj, hbj⟩ := last_zero_of_pos hj
  have hLj : ow.sst.LastDiscrepancy = j + 1 := by rw [hc.2.1, hj]
  have hag : agree j e ow.sst.ROM_NO :=
    walk_replay hc.1 (agree_refl 64 _) hrule j (by omega) (by omega) (by omega)
  have hej : rom_bit e j = true := by
    have hr := hrule j hj64
    unfold walk_rule at hr
    rw [if_pos ((discrepancy_congr hag).2 hdj), if_neg (by omega)] at hr
    rw [hr]; simp [hLj]
  refine ⟨e, ow1, m1, hn, he, ⟨j, hj64, agree_symm hag, hbj, hej⟩, ?_, hc1, h1, h2, h3, h4⟩
  intro x hx hlt
  obtain ⟨q, hq, hqa, hdq, hxq⟩ := hlt
  have hdiscq : discrepancy D ow.sst.ROM_NO q :=
    ⟨⟨_, hc.1, agree_refl _ _, hdq⟩, ⟨x, hx, agree_symm hqa, hxq⟩⟩
  have hqL := last_zero_of_ge hq hdiscq hdq
  rw [hj] at hqL
  rcases Nat.lt_or_ge q j with hlt | hge
  · right
    refine ⟨q, hq, agree_trans (agree_mono (Nat.le_of_lt hlt) hag) hqa, ?_, hxq⟩
    rw [hag q hlt]; exact hdq
  · have hqj : q = j := by omega
    subst hqj
    have hxe : agree (q + 1) x e :=
      agree_succ.2 ⟨agree_trans (agree_symm hqa) (agree_symm hag), by rw [hxq, hej]⟩
    exact walk_least hrule hx (by omega) hxe (hset x hx).1 (hset e he).1


/-! ## Repeated calls -/

theorem search_calls_append {σ : Type} (hw : Hw σ) :
    ∀ (a b : Nat) (ow : mgos_rmt_onewire) (m : Machine σ) (rs1 : List (Bool × List Nat))
      (ow1 : mgos_rmt_onewire) (m1 : Machine σ) (rs2 : List (Bool × List Nat))
      (ow2 : mgos_rmt_onewire) (m2 : Machine σ),
      search_calls hw a ow m = .ok (rs1, ow1, m1) →
      search_calls hw b ow1 m1 = .ok (rs2, ow2, m2) →
      search_calls hw (a + b) ow m = .ok (rs1 ++ rs2, ow2, m2)
  | 0, b, ow, m, rs1, ow1, m1, rs2, ow2, m2, h1, h2 => by
    simp only [search_calls, Except.ok.injEq, Prod.mk.injEq] at h1
    obtain ⟨rfl, rfl, rfl⟩ := h1
    rw [Nat.zero_add, h2]
    rfl
  | a + 1, b, ow, m, rs1, ow1, m1, rs2, ow2, m2, h1, h2 => by
    rw [Nat.succ_add]
    unfold search_calls at h1 ⊢
    split at h1
    · simp at h1
    · rename_i r rom owa ma hn
      split at h1
      · simp at h1
      · rename_i rs owb mb hs
        simp only [Except.ok.injEq, Prod.mk.injEq] at h1
        obtain ⟨rfl, rfl, rfl⟩ := h1
        rw [search_calls_append hw a b owa ma rs owb mb rs2 ow2 m2 hs h2]
        rfl

instance : IsTotal (List Nat) (fun x y => ¬ rom_lt y x) :=
  ⟨fun a b => by
    by_cases h : rom_lt b a
    · exact Or.inr (fun h' => rom_lt_asymm h' h)
    · exact Or.inl h⟩

instance : IsTrans (List Nat) (fun x y => ¬ rom_lt y x) :=
  ⟨fun a b c hab hbc hca => by
    rcases rom_lt_cotrans hca b with h | h
    · exact hbc h
    · exact hab h⟩

theorem search_order_perm (D : List (List Nat)) : (search_order D).Perm D :=
  List.perm_insertionSort _ _

theorem search_order_pairwise (D : List (List Nat)) (hnd : D.Nodup) (hset : device_set D) :
    (search_order D).Pairwise rom_lt := by
  have hs : (search_order D).Pairwise (fun x y => ¬ rom_lt y x) :=
    List.sorted_insertionSort _ _
  have hn : (search_order D).Pairwise (fun x y => x ≠ y) :=
    (search_order_perm D).nodup_iff.2 hnd
  refine List.Pairwise.imp_of_mem ?_ (hs.and hn)
  intro a b ha hb hab
  have ha' := (search_order_perm D).mem_iff.1 ha
  have hb' := (search_order_perm D).mem_iff.1 hb
  rcases rom_lt_trichotomy (hset a ha').1 (hset b hb').1 with h | h | h
  · exact absurd h hab.2
  · exact h
  · exact absurd h hab.1

theorem zeros_drop (e : List Nat) :
    e ++ List.drop 8 [0, 0, 0, 0, 0, 0, 0, 0] = e := by simp

theorem enum_from (D : List (List Nat)) (hD : D ≠ []) (hset : device_set D) :
    ∀ (suf pre : List (List Nat)) (d : List Nat) (ow : mgos_rmt_onewire) (m : Machine SimBus),
      (pre ++ d :: suf).Perm D → (pre ++ d :: suf).Pairwise rom_lt →
      canon D ow → ow.sst.ROM_NO = d → attached m → m.hw.devices = D →
      ∃ ow1 m1,
        search_calls simHw suf.length ow m = .ok (suf.map (fun x => (true, x)), ow1, m1) ∧
        canon D ow1 ∧ ow1.sst.ROM_NO = (d :: suf).getLast (List.cons_ne_nil d suf) ∧
        attached m1 ∧ m1.hw.devices = D ∧ ow1.pin = ow.pin
  | [], pre, d, ow, m, _, _, hc, hd, ha, hdev => ⟨ow, m, rfl, hc, by simpa using hd, ha, hdev, rfl⟩
  | e :: suf, pre, d, ow, m, hperm, hpw, hc, hd, ha, hdev => by
    have hmem : ∀ x, x ∈ D ↔ x ∈ pre ∨ x = d ∨ x = e ∨ x ∈ suf := by
      intro x
      rw [← hperm.mem_iff]
      simp
    have hpw' := List.pairwise_append.1 hpw
    have hde : rom_lt d e := by
      have := (List.pairwise_cons.1 hpw'.2.1).1
      exact this e (List.mem_cons_self e suf)
    have heD : e ∈ D := (hmem e).2 (Or.inr (Or.inr (Or.inl rfl)))
    obtain ⟨hflag, _⟩ := canon_not_last hc heD (by rw [hd]; exact hde)
    obtain ⟨e', ow1, m1, hn, he', hlt, hleast, hc1, h1, h2, h3, h4⟩ :=
      next_succ D hD hset ow [0, 0, 0, 0, 0, 0, 0, 0] m hdev ha hc hflag
    rw [hd] at hlt hleast
    rw [zeros_drop] at hn
    have hee : e' = e := by
      rcases (hmem e').1 he' with h | h | h | h
      · exact absurd (hpw'.2.2 e' h d (List.mem_cons_self d _)) (fun h' => rom_lt_asymm h' hlt)
      · rw [h] at hlt; exact absurd hlt (rom_lt_irrefl d)
      · exact h
      · have hee' : rom_lt e e' :=
          (List.pairwise_cons.1 (List.pairwise_cons.1 hpw'.2.1).2).1 e' h
        rcases hleast e heD hde with h' | h'
        · exact h'.symm
        · exact absurd h' (fun h'' => rom_lt_asymm h'' hee')
    subst hee
    have hperm' : ((pre ++ [d]) ++ e' :: suf).Perm D := by
      rw [List.append_assoc]; exact hperm
    have hpw2 : ((pre ++ [d]) ++ e' :: suf).Pairwise rom_lt := by
      rw [List.append_assoc]; exact hpw
    obtain ⟨ow2, m2, hs, hc2, hl2, ha2, hd2, hp2⟩ :=
      enum_from D hD hset suf (pre ++ [d]) e' ow1 m1 hperm' hpw2 hc1 h1 h3 h4
    refine ⟨ow2, m2, ?_, hc2, ?_, ha2, hd2, hp2.trans h2⟩
    · show search_calls simHw (suf.length + 1) ow m = _
      unfold search_calls
      rw [hn]
      dsimp only
      rw [hs]
      rfl
    · rw [hl2]
      simp [List.getLast_cons]


theorem pairwise_getLast {α : Type} {R : α → α → Prop} :
    ∀ (l : List α) (hl : l ≠ []), l.Pairwise R → ∀ x ∈ l, x = l.getLast hl ∨ R x (l.getLast hl) := by
  intro l hl hp x hx
  have hsplit := List.dropLast_append_getLast hl
  rw [← hsplit] at hp hx
  rcases List.mem_append.1 hx with h | h
  · right
    exact (List.pairwise_append.1 hp).2.2 x h _ (List.mem_singleton_self _)
  · left
    exact List.mem_singleton.1 h

theorem enum_full (D : List (List Nat)) (hD : D ≠ []) (hnd : D.Nodup) (hset : device_set D)
    (ow : mgos_rmt_onewire) (m : Machine SimBus) (ha : attached m) (hdev : m.hw.devices = D)
    (hflag : ow.sst.LastDeviceFlag = false) (hwf : wf_rom ow.sst.ROM_NO)
    (hL : ow.sst.LastDiscrepancy = 0) :
    ∃ ow1 m1,
      search_calls simHw (D.length + 1) ow m =
        .ok ((search_order D).map (fun x => (true, x)) ++ [(false, [0, 0, 0, 0, 0, 0, 0, 0])],
          ow1, m1) ∧
      ow1.sst.LastDeviceFlag = false ∧ ow1.sst.LastDiscrepancy = 0 ∧
      ow1.sst.LastFamilyDiscrepancy = 0 ∧ wf_rom ow1.sst.ROM_NO ∧
      attached m1 ∧ m1.hw.devices = D ∧ ow1.pin = ow.pin := by
  have hperm := search_order_perm D
  have hpw := search_order_pairwise D hnd hset
  rcases hS : search_order D with _ | ⟨s1, rest⟩
  · rw [hS] at hperm
    exact absurd hperm.symm.eq_nil hD
  rw [hS] at hperm hpw
  have hmem : ∀ x, x ∈ D ↔ x ∈ s1 :: rest := fun x => (hperm.mem_iff).symm
  -- first call
  obtain ⟨e, ow1, m1, hn, he, hmin, hc1, h1, h2, h3, h4⟩ :=
    next_first D hD hset ow [0, 0, 0, 0, 0, 0, 0, 0] m hdev ha hflag hwf hL
  rw [zeros_drop] at hn
  have hes : e = s1 := by
    rcases List.mem_cons.1 ((hmem e).1 he) with h | h
    · exact h
    · have hlt : rom_lt s1 e := (List.pairwise_cons.1 hpw).1 e h
      rcases hmin s1 ((hmem s1).2 (List.mem_cons_self _ _)) with h' | h'
      · exact h'.symm
      · exact absurd h' (fun h'' => rom_lt_asymm h'' hlt)
  subst hes
  have hcall1 : search_calls simHw 1 ow m = .ok ([(true, e)], ow1, m1) := by
    unfold search_calls
    rw [hn]
    rfl
  -- the remaining devices
  obtain ⟨ow2, m2, hs, hc2, hl2, ha2, hd2, hp2⟩ :=
    enum_from D hD hset rest [] e ow1 m1 hperm hpw hc1 h1 h3 h4
  -- the call after the last device
  have hmax : ∀ x ∈ D, ¬ rom_lt ow2.sst.ROM_NO x := by
    intro x hx hlt
    rw [hl2] at hlt
    rcases pairwise_getLast (e :: rest) (List.cons_ne_nil e rest) hpw x ((hmem x).1 hx) with h | h
    · rw [h] at hlt; exact rom_lt_irrefl _ hlt
    · exact rom_lt_asymm hlt h
  have hflag2 := canon_last hc2 hmax
  have hcall3 : search_calls simHw 1 ow2 m2 =
      .ok ([(false, [0, 0, 0, 0, 0, 0, 0, 0])], { ow2 with sst := reset_counters ow2.sst }, m2) := by
    unfold search_calls
    rw [next_done simHw ow2 _ m2 hflag2]
    rfl
  have h12 := search_calls_append simHw 1 rest.length ow m _ ow1 m1 _ ow2 m2 hcall1 hs
  have h123 := search_calls_append simHw (1 + rest.length) 1 ow m _ ow2 m2 _ _ m2 h12 hcall3
  have hlen : D.length + 1 = 1 + rest.length + 1 := by
    rw [← hperm.length_eq]; simp; omega
  rw [hlen, h123]
  refine ⟨{ ow2 with sst := reset_counters ow2.sst }, m2, ?_, rfl, rfl, rfl,
    (hset _ hc2.1).1, ha2, hd2, hp2.trans h2⟩
  simp


/-! ## Bit groups -/

set_option maxRecDepth 100000 in
theorem decode_write_slots : ∀ n, n < 9 → ∀ data, data < 256 →
    decode_capture (write_slots n data) n = data % 2 ^ n := by
  decide

/-- C7: round trip of a bit group.  For every `num ≤ 8` and every byte `data`, the
slot items that `onewire_write_bits` transmits for `(data, num)`, fed back as the capture
of `onewire_read_bits` with the same `num`, decode to `data mod 2^num`. -/
theorem bit_group_round_trip (gpio_num data num power d0 : Nat)
    (m : Machine (Option (List rmt_item32_t))) (hn : num ≤ 8) (hd : data < 256)
    (ha : attached m) :
    ∃ m1, onewire_read_bits captureHw gpio_num d0 num
        (onewire_write_bits recordHw gpio_num data num power m).2 =
      .ok (true, data % 2 ^ num, m1) := by
  have h : ¬ (m.ow_rmt.tx < 0 ∨ m.ow_rmt.rx < 0) := by
    have := ha.1; have := ha.2; omega
  have hn' : ¬ num > 8 := by omega
  have hdec := decode_write_slots num (by omega) data hd
  unfold onewire_write_bits onewire_read_bits onewire_rmt_attach_pin
  by_cases hg : (gpio_num : Int) = m.ow_rmt.gpio
  · simp [hn', h, hg, emit, write_items, xRingbufferReceive, recordHw, captureHw, hdec]
  · simp [hn', h, hg, emit, write_items, xRingbufferReceive, recordHw, captureHw, hdec]

theorem bit_group_round_trip_witness :
    (5 ≤ 8 ∧ 0xB6 < 256 ∧ attached (init_machine (none : Option (List rmt_item32_t)) 0 1)) ∧
    ∃ m1, onewire_read_bits captureHw 4 0 5
        (onewire_write_bits recordHw 4 0xB6 5 0 (init_machine none 0 1)).2 =
      .ok (true, 0xB6 % 2 ^ 5, m1) :=
  ⟨by decide, bit_group_round_trip 4 0xB6 5 0 0 (init_machine none 0 1) (by decide) (by decide)
    (by decide)⟩


/-- C8: a bit group of more than eight bits is rejected without touching the
bus: `onewire_write_bits` and `onewire_read_bits` return false, the machine (pin
routing, peripheral state, log of calls) is unchanged, and `onewire_read_bits` leaves
the caller's byte as it was. -/
theorem bit_group_over_eight_rejected (hw : Hw σ) (gpio_num data num power : Nat)
    (m : Machine σ) (h : num > 8) :
    onewire_write_bits hw gpio_num data num power m = (false, m) ∧
    onewire_read_bits hw gpio_num data num m = .ok (false, data, m) := by
  simp [onewire_write_bits, onewire_read_bits, h]

theorem bit_group_over_eight_rejected_witness :
    9 > 8 ∧
    (onewire_write_bits simHw 4 0xA5 9 0 (sim_machine three_devices 0 1) =
        (false, sim_machine three_devices 0 1) ∧
     onewire_read_bits simHw 4 0xA5 9 (sim_machine three_devices 0 1) =
        .ok (false, 0xA5, sim_machine three_devices 0 1)) :=
  ⟨by decide, bit_group_over_eight_rejected simHw 4 0xA5 9 0 (sim_machine three_devices 0 1)
    (by decide)⟩

theorem search_finish_false (v : search_vars) (ow0 ow2 : mgos_rmt_onewire) (rom0 rom2 : List Nat)
    (hf : search_finish v ow0 rom0 = (false, rom2, ow2)) :
    ow2.sst.LastDiscrepancy = 0 ∧ ow2.sst.LastFamilyDiscrepancy = 0 ∧
      ow2.sst.LastDeviceFlag = false := by
  unfold search_finish at hf
  split at hf
  split at hf
  · simp only [Prod.mk.injEq] at hf
    obtain ⟨_, _, rfl⟩ := hf
    simp [reset_counters]
  · simp at hf

/-- C4: whenever `onewire_rmt_next` returns false, under any behaviour of the channel and
from any search state, the state after the call has `LastDiscrepancy = 0`,
`LastFamilyDiscrepancy = 0` and `LastDeviceFlag = false`. -/
theorem next_false_resets_counters (hw : Hw σ) (ow ow1 : mgos_rmt_onewire)
    (rom rom1 : List Nat) (m m1 : Machine σ)
    (h : onewire_rmt_next hw ow rom m = .ok (false, rom1, ow1, m1)) :
    ow1.sst.LastDiscrepancy = 0 ∧ ow1.sst.LastFamilyDiscrepancy = 0 ∧
      ow1.sst.LastDeviceFlag = false := by
  unfold onewire_rmt_next at h
  dsimp only at h
  split at h
  · split at h
    · simp at h
    · simp only [Except.ok.injEq, Prod.mk.injEq, true_and] at h
      obtain ⟨_, rfl, _⟩ := h
      simp [reset_counters]
    · split at h
      · simp at h
      · rename_i v ow3 m3 _
        rcases hs : search_finish v ow3 rom with ⟨r, rom2, ow2⟩
        rw [hs] at h
        simp only [Except.ok.injEq, Prod.mk.injEq] at h
        obtain ⟨rfl, rfl, rfl, _⟩ := h
        exact search_finish_false _ _ _ _ _ hs
  · rcases hs : search_finish
      { id_bit_number := 1, last_zero := 0, rom_byte_number := 0, rom_byte_mask := 1 } ow rom
      with ⟨r, rom2, ow2⟩
    rw [hs] at h
    simp only [Except.ok.injEq, Prod.mk.injEq] at h
    obtain ⟨rfl, rfl, rfl, _⟩ := h
    exact search_finish_false _ _ _ _ _ hs

theorem next_false_resets_counters_witness :
    onewire_rmt_next simHw busy_bus [0, 0, 0, 0, 0, 0, 0, 0] (sim_machine [] 0 1) =
      .ok (false, [0, 0, 0, 0, 0, 0, 0, 0],
        (next_state simHw busy_bus [0, 0, 0, 0, 0, 0, 0, 0] (sim_machine [] 0 1)).1,
        (next_state simHw busy_bus [0, 0, 0, 0, 0, 0, 0, 0] (sim_machine [] 0 1)).2) ∧
    ((next_state simHw busy_bus [0, 0, 0, 0, 0, 0, 0, 0] (sim_machine [] 0 1)).1.sst.LastDiscrepancy = 0 ∧
     (next_state simHw busy_bus [0, 0, 0, 0, 0, 0, 0, 0] (sim_machine [] 0 1)).1.sst.LastFamilyDiscrepancy = 0 ∧
     (next_state simHw busy_bus [0, 0, 0, 0, 0, 0, 0, 0] (sim_machine [] 0 1)).1.sst.LastDeviceFlag = false) :=
  ⟨rfl, next_false_resets_counters simHw busy_bus
    (next_state simHw busy_bus [0, 0, 0, 0, 0, 0, 0, 0] (sim_machine [] 0 1)).1
    [0, 0, 0, 0, 0, 0, 0, 0] [0, 0, 0, 0, 0, 0, 0, 0] (sim_machine [] 0 1)
    (next_state simHw busy_bus [0, 0, 0, 0, 0, 0, 0, 0] (sim_machine [] 0 1)).2 rfl⟩


/-! ## Reset and the receive wait -/

theorem parse_presence_true_iff (rx_items : List rmt_item32_t) :
    parse_presence rx_items = .ok true ↔ presence_shape rx_items := by
  constructor
  · intro h
    unfold parse_presence at h
    split at h
    · split at h
      · simp at h
      · rename_i it0 h0
        split at h
        · rename_i h1
          split at h
          · rename_i h2
            split at h
            · simp at h
            · rename_i it1 h3
              simp only [Except.ok.injEq, decide_eq_true_eq] at h
              exact ⟨it0, it1, h0, h3, h1.1, h1.2, h2.1, h2.2, h⟩
          · simp at h
        · simp at h
    · simp at h
  · rintro ⟨it0, it1, h0, h3, a, b, c, d, e⟩
    have hlen : rx_items.length * 4 ≥ 1 * 4 := by
      rcases rx_items with _ | ⟨x, l⟩
      · simp at h0
      · simp
    unfold parse_presence
    rw [if_pos hlen, h0]
    dsimp only
    rw [if_pos ⟨a, b⟩, if_pos ⟨c, d⟩, h3]
    simp [e]

theorem reset_on_capture (ow : mgos_rmt_onewire) (m : Machine (Option (List rmt_item32_t)))
    (ha : attached m) :
    (∃ m1, onewire_rmt_reset captureHw ow m = .ok (true, m1)) ↔
      ∃ rx_items, m.hw = some rx_items ∧ presence_shape rx_items := by
  have h : ¬ (m.ow_rmt.tx < 0 ∨ m.ow_rmt.rx < 0) := by
    have := ha.1; have := ha.2; omega
  rcases hhw : m.hw with _ | rx_items
  · unfold onewire_rmt_reset onewire_rmt_attach_pin
    by_cases hg : ow.pin = m.ow_rmt.gpio <;>
      simp [h, hg, emit, write_items, xRingbufferReceive, captureHw, reset_finish, hhw]
  · have e : (∃ rx, some rx_items = some rx ∧ presence_shape rx) ↔
        parse_presence rx_items = .ok true := by
      rw [parse_presence_true_iff]; simp
    rw [e]
    unfold onewire_rmt_reset onewire_rmt_attach_pin
    rcases hp : parse_presence rx_items with f | b
    · by_cases hg : ow.pin = m.ow_rmt.gpio <;>
        simp [h, hg, emit, write_items, xRingbufferReceive, captureHw, reset_finish, hhw, hp]
    · by_cases hg : ow.pin = m.ow_rmt.gpio <;>
        simp [h, hg, emit, write_items, xRingbufferReceive, captureHw, reset_finish, hhw, hp]

/-- C9: `onewire_rmt_reset` on a capture of a single item whose low interval is long enough and
whose high interval is not empty reads the item after it, which the capture does
not contain; the call has no defined result there (it does not return false). -/
theorem reset_reads_past_capture :
    onewire_rmt_reset captureHw (onewire_rmt_create 4 0 1)
      (init_machine (some [{ duration0 := 480, level0 := 0, duration1 := 10, level1 := 1 }]) 0 1) =
      .error Fault.out_of_bounds := by
  rfl

theorem read_bits_never_returns (gpio_num data num : Nat)
    (m : Machine (Option (List rmt_item32_t))) (hn : num ≤ 8) (ha : attached m)
    (hs : m.hw = none) :
    onewire_read_bits captureHw gpio_num data num m = .error Fault.blocked := by
  have h : ¬ (m.ow_rmt.tx < 0 ∨ m.ow_rmt.rx < 0) := by
    have := ha.1; have := ha.2; omega
  have hn' : ¬ num > 8 := by omega
  unfold onewire_read_bits onewire_rmt_attach_pin
  by_cases hg : (gpio_num : Int) = m.ow_rmt.gpio <;>
    simp [hn', h, hg, emit, write_items, xRingbufferReceive, captureHw, hs]

/-- C10: on a channel that never delivers a capture, `onewire_read_bits` waits with
`portMAX_DELAY` and never returns (no failure result comes back), while the
100 ms wait of `onewire_rmt_reset` on the same channel ends and yields false. -/
theorem read_bits_waits_forever :
    onewire_read_bits captureHw 4 0 1 (init_machine none 0 1) = .error Fault.blocked ∧
    (∀ r, onewire_read_bits captureHw 4 0 1 (init_machine none 0 1) ≠ .ok r) ∧
    ∃ m1, onewire_rmt_reset captureHw (onewire_rmt_create 4 0 1) (init_machine none 0 1) =
      .ok (false, m1) := by
  refine ⟨rfl, ?_, _, rfl⟩
  intro r h
  have : onewire_read_bits captureHw 4 0 1 (init_machine none 0 1) = .error Fault.blocked := rfl
  rw [this] at h
  exact Except.noConfusion h

/-! ## Enumeration (claims) -/

theorem wf_rom_clean (ow : mgos_rmt_onewire) :
    wf_rom (onewire_rmt_search_clean ow).sst.ROM_NO := by
  show wf_rom [0, 0, 0, 0, 0, 0, 0, 0]
  decide

/-- C1: enumeration.  On a simulated bus with a non-empty set `D` of distinct
devices (eight-byte codes, first byte non-zero), starting from the state left
by `onewire_rmt_search_clean`, the first `|D|` calls of `onewire_rmt_next` return true, the
ROM codes they write to the caller's buffer are pairwise distinct and are
exactly the elements of `D`, and call `|D| + 1` returns false. -/
theorem search_enumerates_device_set (D : List (List Nat)) (hne : D ≠ []) (hnd : D.Nodup)
    (hset : device_set D) (ow : mgos_rmt_onewire) (m : Machine SimBus) (ha : attached m)
    (hdev : m.hw.devices = D) :
    ∃ (roms : List (List Nat)) (ow1 : mgos_rmt_onewire) (m1 : Machine SimBus),
      search_calls simHw (D.length + 1) (onewire_rmt_search_clean ow) m =
        .ok (roms.map (fun x => (true, x)) ++ [(false, [0, 0, 0, 0, 0, 0, 0, 0])], ow1, m1) ∧
      roms.Nodup ∧ roms.Perm D := by
  obtain ⟨ow1, m1, h, _⟩ := enum_full D hne hnd hset (onewire_rmt_search_clean ow) m ha hdev
    rfl (wf_rom_clean ow) rfl
  exact ⟨search_order D, ow1, m1, h, (search_order_perm D).nodup_iff.2 hnd, search_order_perm D⟩

theorem search_enumerates_device_set_witness :
    (three_devices ≠ [] ∧ three_devices.Nodup ∧ device_set three_devices ∧
      attached (sim_machine three_devices 0 1) ∧
      (sim_machine three_devices 0 1).hw.devices = three_devices) ∧
    ∃ (roms : List (List Nat)) (ow1 : mgos_rmt_onewire) (m1 : Machine SimBus),
      search_calls simHw (three_devices.length + 1)
          (onewire_rmt_search_clean (onewire_rmt_create 4 0 1)) (sim_machine three_devices 0 1) =
        .ok (roms.map (fun x => (true, x)) ++ [(false, [0, 0, 0, 0, 0, 0, 0, 0])], ow1, m1) ∧
      roms.Nodup ∧ roms.Perm three_devices :=
  ⟨by decide, search_enumerates_device_set three_devices (by decide) (by decide) (by decide)
    (onewire_rmt_create 4 0 1) (sim_machine three_devices 0 1) (by decide) rfl⟩

set_option maxRecDepth 100000 in
/-- C2 (as stated, refuted): on a bus with one device and no `onewire_rmt_search_clean` in
between, the first call after the last device returns false but the second
call after it returns true again. -/
theorem second_call_after_last_device_succeeds :
    outcomes (search_calls simHw 3 (onewire_rmt_search_clean (onewire_rmt_create 4 0 1))
        (sim_machine [[0x28, 5, 0, 0, 0, 0, 0, 1]] 0 1)) =
      some [(true, [0x28, 5, 0, 0, 0, 0, 0, 1]), (false, [0, 0, 0, 0, 0, 0, 0, 0]),
            (true, [0x28, 5, 0, 0, 0, 0, 0, 1])] := by
  decide

/-- C2 (amended): once the enumeration of a simulated device set is complete,
the next call of `onewire_rmt_next` (call `|D| + 1`) returns false, and the call after it
(call `|D| + 2`), with no `onewire_rmt_search_clean` in between, starts a new enumeration:
it returns true with the ROM code that call 1 returned. -/
theorem search_restarts_after_false (D : List (List Nat)) (hne : D ≠ []) (hnd : D.Nodup)
    (hset : device_set D) (ow : mgos_rmt_onewire) (m : Machine SimBus) (ha : attached m)
    (hdev : m.hw.devices = D) :
    ∃ first rest ow1 m1,
      search_calls simHw (D.length + 2) (onewire_rmt_search_clean ow) m =
        .ok ((first :: rest).map (fun x => (true, x)) ++
          [(false, [0, 0, 0, 0, 0, 0, 0, 0]), (true, first)], ow1, m1) ∧
      (first :: rest).Perm D := by
  obtain ⟨ow1, m1, h, hf, hL, _, hwf, ha1, hd1, _⟩ :=
    enum_full D hne hnd hset (onewire_rmt_search_clean ow) m ha hdev rfl (wf_rom_clean ow) rfl
  have hperm := search_order_perm D
  have hpw := search_order_pairwise D hnd hset
  rcases hS : search_order D with _ | ⟨s1, rest⟩
  · rw [hS] at hperm
    exact absurd hperm.symm.eq_nil hne
  rw [hS] at hperm hpw h
  obtain ⟨e, ow2, m2, hn, he, hmin, _⟩ :=
    next_first D hne hset ow1 [0, 0, 0, 0, 0, 0, 0, 0] m1 hd1 ha1 hf hwf hL
  rw [zeros_drop] at hn
  have hes : e = s1 := by
    rcases List.mem_cons.1 (hperm.mem_iff.2 he) with h' | h'
    · exact h'
    · have hlt : rom_lt s1 e := (List.pairwise_cons.1 hpw).1 e h'
      rcases hmin s1 (hperm.mem_iff.1 (List.mem_cons_self _ _)) with h'' | h''
      · exact h''.symm
      · exact absurd h'' (fun h3 => rom_lt_asymm h3 hlt)
  subst hes
  have hcall : search_calls simHw 1 ow1 m1 = .ok ([(true, e)], ow2, m2) := by
    unfold search_calls
    rw [hn]
    rfl
  have hall := search_calls_append simHw (D.length + 1) 1 _ m _ ow1 m1 _ ow2 m2 h hcall
  refine ⟨e, rest, ow2, m2, ?_, hperm⟩
  rw [show D.length + 2 = D.length + 1 + 1 from rfl, hall]
  simp

theorem search_restarts_after_false_witness :
    (three_devices ≠ [] ∧ three_devices.Nodup ∧ device_set three_devices ∧
      attached (sim_machine three_devices 0 1) ∧
      (sim_machine three_devices 0 1).hw.devices = three_devices) ∧
    ∃ first rest ow1 m1,
      search_calls simHw (three_devices.length + 2)
          (onewire_rmt_search_clean (onewire_rmt_create 4 0 1)) (sim_machine three_devices 0 1) =
        .ok ((first :: rest).map (fun x => (true, x)) ++
          [(false, [0, 0, 0, 0, 0, 0, 0, 0]), (true, first)], ow1, m1) ∧
      (first :: rest).Perm three_devices :=
  ⟨by decide, search_restarts_after_false three_devices (by decide) (by decide) (by decide)
    (onewire_rmt_create 4 0 1) (sim_machine three_devices 0 1) (by decide) rfl⟩

theorem reset_not_attached {σ : Type} (hw : Hw σ) (ow : mgos_rmt_onewire) (m : Machine σ)
    (h : ¬ attached m) : onewire_rmt_reset hw ow m = .ok (false, m) := by
  have h' : m.ow_rmt.tx < 0 ∨ m.ow_rmt.rx < 0 := by
    unfold attached at h; omega
  unfold onewire_rmt_reset onewire_rmt_attach_pin
  simp [h']

/-- C3: soundness of a successful search.  From every search state (`ROM_NO` an
array of eight bytes) and for every simulated set `D` of eight-byte device
codes, if `onewire_rmt_next` returns true then the eight bytes written to the caller's
buffer equal `ROM_NO` after the call, are the code of a device of `D`, and
begin with a non-zero byte. -/
theorem search_success_sound (D : List (List Nat)) (hD : ∀ d ∈ D, wf_rom d)
    (ow ow1 : mgos_rmt_onewire) (hwf : wf_rom ow.sst.ROM_NO) (rom rom1 : List Nat)
    (m m1 : Machine SimBus) (hdev : m.hw.devices = D)
    (h : onewire_rmt_next simHw ow rom m = .ok (true, rom1, ow1, m1)) :
    rom1.take 8 = ow1.sst.ROM_NO ∧ ow1.sst.ROM_NO ∈ D ∧ rom1.getD 0 0 ≠ 0 := by
  cases hflag : ow.sst.LastDeviceFlag
  · by_cases ha : attached m
    · by_cases hne : D = []
      · obtain ⟨m2, hr, _⟩ := sim_reset ow m ha
        rw [hdev, hne] at hr
        unfold onewire_rmt_next at h
        dsimp only at h
        rw [if_pos (by simp [hflag]), hr] at h
        simp at h
      · obtain ⟨r, ow2, m2, hn, hwr, hrule, h1, _, _, _, _, _⟩ :=
          next_sim D ow rom m hne hdev ha hflag hwf
        rw [hn] at h
        simp only [Except.ok.injEq, Prod.mk.injEq, decide_eq_true_eq] at h
        obtain ⟨hnz, hrom, how, _⟩ := h
        rw [if_pos hnz] at hrom
        subst how
        subst hrom
        rw [h1]
        refine ⟨?_, walk_mem hD hwr hrule, ?_⟩
        · rw [List.take_append_of_le_length (by rw [hwr.1])]
          exact List.take_of_length_le (by rw [hwr.1])
        · rw [List.getD_append _ _ _ _ (by rw [hwr.1]; norm_num)]
          exact hnz
    · unfold onewire_rmt_next at h
      dsimp only at h
      rw [if_pos (by simp [hflag]), reset_not_attached simHw ow m ha] at h
      simp at h
  · rw [next_done simHw ow rom m hflag] at h
    simp at h


theorem search_success_sound_witness :
    ((∀ d ∈ three_devices, wf_rom d) ∧ wf_rom busy_bus.sst.ROM_NO ∧
      (sim_machine three_devices 0 1).hw.devices = three_devices ∧
      onewire_rmt_next simHw busy_bus [0, 0, 0, 0, 0, 0, 0, 0] (sim_machine three_devices 0 1) =
        .ok (true, [0x10, 3, 0, 0, 0, 0, 0, 9],
          (next_state simHw busy_bus [0, 0, 0, 0, 0, 0, 0, 0] (sim_machine three_devices 0 1)).1,
          (next_state simHw busy_bus [0, 0, 0, 0, 0, 0, 0, 0] (sim_machine three_devices 0 1)).2)) ∧
    (List.take 8 [0x10, 3, 0, 0, 0, 0, 0, 9] =
        (next_state simHw busy_bus [0, 0, 0, 0, 0, 0, 0, 0]
          (sim_machine three_devices 0 1)).1.sst.ROM_NO ∧
      (next_state simHw busy_bus [0, 0, 0, 0, 0, 0, 0, 0]
          (sim_machine three_devices 0 1)).1.sst.ROM_NO ∈ three_devices ∧
      List.getD [0x10, 3, 0, 0, 0, 0, 0, 9] 0 0 ≠ 0) :=
  ⟨⟨by decide, by decide, rfl, rfl⟩,
   search_success_sound three_devices (by decide) busy_bus
    (next_state simHw busy_bus [0, 0, 0, 0, 0, 0, 0, 0] (sim_machine three_devices 0 1)).1
    (by decide) [0, 0, 0, 0, 0, 0, 0, 0] [0x10, 3, 0, 0, 0, 0, 0, 9]
    (sim_machine three_devices 0 1)
    (next_state simHw busy_bus [0, 0, 0, 0, 0, 0, 0, 0] (sim_machine three_devices 0 1)).2
    rfl rfl⟩

/-! ## Search after `onewire_rmt_target_setup` -/

theorem agree8_of_family {x y : List Nat} (h : x.getD 0 0 = y.getD 0 0) : agree 8 x y := by
  intro q hq
  unfold rom_bit
  have : q / 8 = 0 := by omega
  rw [this, h]

theorem family_of_agree8 {x y : List Nat} (hx : x.getD 0 0 < 256) (hy : y.getD 0 0 < 256)
    (h : agree 8 x y) : x.getD 0 0 = y.getD 0 0 := by
  apply Nat.eq_of_testBit_eq
  intro j
  by_cases hj : j < 8
  · have := h j hj
    unfold rom_bit at this
    have e1 : j / 8 = 0 := by omega
    have e2 : j % 8 = j := by omega
    rw [e1, e2] at this
    exact this
  · rw [testBit_byte_high hx (by omega), testBit_byte_high hy (by omega)]

theorem rom_bit_target (f q : Nat) (hq : 8 ≤ q) :
    rom_bit [f, 0, 0, 0, 0, 0, 0, 0] q = false := by
  unfold rom_bit
  have h1 : 1 ≤ q / 8 := by omega
  have : List.getD [f, 0, 0, 0, 0, 0, 0, 0] (q / 8) 0 = 0 := by
    rcases hq8 : q / 8 with _ | _ | _ | _ | _ | _ | _ | _ | i
    · omega
    all_goals rfl
  rw [this]
  simp

theorem wf_rom_target (ow : mgos_rmt_onewire) (f : Nat) (hf : f < 256) :
    wf_rom (onewire_rmt_target_setup ow f).sst.ROM_NO := by
  show wf_rom [f, 0, 0, 0, 0, 0, 0, 0]
  refine ⟨rfl, ?_⟩
  intro b hb
  simp only [List.mem_cons, List.mem_singleton, List.not_mem_nil, or_false] at hb
  rcases hb with h | h | h | h | h | h | h | h <;> omega

theorem target_first (D : List (List Nat)) (hne : D ≠ []) (hset : device_set D)
    (f : Nat) (hf : f < 256) (ow : mgos_rmt_onewire) (rom : List Nat) (m : Machine SimBus)
    (ha : attached m) (hdev : m.hw.devices = D) :
    ∃ e ow1 m1,
      onewire_rmt_next simHw (onewire_rmt_target_setup ow f) rom m =
        .ok (true, e ++ rom.drop 8, ow1, m1) ∧
      e ∈ D ∧ canon D ow1 ∧ ow1.sst.ROM_NO = e ∧ attached m1 ∧ m1.hw.devices = D ∧
      ((∃ x, x ∈ D ∧ x.getD 0 0 = f) → e.getD 0 0 = f) ∧
      (∀ x, x ∈ D → x.getD 0 0 = f → x = e ∨ rom_lt e x ∨ agree 63 x e) := by
  obtain ⟨e, ow1, m1, hn, he, hrule, hc, h1, _, h3, h4⟩ :=
    next_step D hne hset (onewire_rmt_target_setup ow f) rom m hdev ha rfl
      (wf_rom_target ow f hf)
  have hrule' : ∀ p, p < 64 → walk_rule D [f, 0, 0, 0, 0, 0, 0, 0] 64 e p := hrule
  have hfam : ∀ x, x ∈ D → x.getD 0 0 = f → agree 8 e [f, 0, 0, 0, 0, 0, 0, 0] := by
    intro x hx hxf
    exact walk_replay hx (agree8_of_family (by rw [hxf]; rfl)) hrule' 8 (by norm_num)
      (by norm_num) (by norm_num)
  have hef : ∀ x, x ∈ D → x.getD 0 0 = f → e.getD 0 0 = f := by
    intro x hx hxf
    have := family_of_agree8 (wf_rom_getD_lt (hset e he).1 0) (by simpa using hf)
      (hfam x hx hxf)
    simpa using this
  refine ⟨e, ow1, m1, hn, he, hc, h1, h3, h4, ?_, ?_⟩
  · rintro ⟨x, hx, hxf⟩
    exact hef x hx hxf
  · intro x hx hxf
    have hxe : agree 8 x e := agree8_of_family (by rw [hxf, hef x hx hxf])
    by_cases h64 : agree 64 x e
    · exact Or.inl (rom_ext (hset x hx).1 (hset e he).1 h64)
    · right
      obtain ⟨q, hq, hqa, hqb⟩ := first_diff h64
      have h8q : 8 ≤ q := by
        by_contra hlt
        exact hqb (hxe q (by omega))
      rcases Nat.lt_or_ge q 63 with hlt | hge
      · left
        have hr := hrule' q hq
        have hd : discrepancy D e q :=
          has_bit_both ⟨x, hx, hqa, rfl⟩ (walk_rule_has_bit hr) hqb
        unfold walk_rule at hr
        rw [if_pos hd, if_pos (by omega), rom_bit_target f q h8q] at hr
        refine ⟨q, hq, agree_symm hqa, hr, ?_⟩
        rw [hr] at hqb
        cases hxq : rom_bit x q
        · exact absurd hxq hqb
        · rfl
      · right
        have : q = 63 := by omega
        subst this
        exact hqa

/-- C6: the first `onewire_rmt_next` call after `onewire_rmt_target_setup(f)` on a simulated bus with a
non-empty device set returns true with the ROM code of a device of the set; the
code has first byte `f` when the set holds a device of family `f`, and
otherwise it is the code of a device of another family. -/
theorem target_setup_first_call (D : List (List Nat)) (hne : D ≠ []) (hset : device_set D)
    (f : Nat) (hf : f < 256) (ow : mgos_rmt_onewire) (rom : List Nat) (m : Machine SimBus)
    (ha : attached m) (hdev : m.hw.devices = D) :
    ∃ e ow1 m1,
      onewire_rmt_next simHw (onewire_rmt_target_setup ow f) rom m =
        .ok (true, e ++ rom.drop 8, ow1, m1) ∧
      e ∈ D ∧
      ((∃ x, x ∈ D ∧ x.getD 0 0 = f) → e.getD 0 0 = f) ∧
      ((¬ ∃ x, x ∈ D ∧ x.getD 0 0 = f) → e.getD 0 0 ≠ f) := by
  obtain ⟨e, ow1, m1, hn, he, _, _, _, _, h5, _⟩ :=
    target_first D hne hset f hf ow rom m ha hdev
  exact ⟨e, ow1, m1, hn, he, h5, fun hno hef => hno ⟨e, he, hef⟩⟩

theorem target_setup_first_call_witness :
    (three_devices ≠ [] ∧ device_set three_devices ∧ 0x28 < 256 ∧
      attached (sim_machine three_devices 0 1) ∧
      (sim_machine three_devices 0 1).hw.devices = three_devices) ∧
    ∃ e ow1 m1,
      onewire_rmt_next simHw (onewire_rmt_target_setup (onewire_rmt_create 4 0 1) 0x28)
          [0, 0, 0, 0, 0, 0, 0, 0] (sim_machine three_devices 0 1) =
        .ok (true, e ++ List.drop 8 [0, 0, 0, 0, 0, 0, 0, 0], ow1, m1) ∧
      e ∈ three_devices ∧
      ((∃ x, x ∈ three_devices ∧ x.getD 0 0 = 0x28) → e.getD 0 0 = 0x28) ∧
      ((¬ ∃ x, x ∈ three_devices ∧ x.getD 0 0 = 0x28) → e.getD 0 0 ≠ 0x28) :=
  ⟨by decide, target_setup_first_call three_devices (by decide) (by decide) 0x28 (by decide)
    (onewire_rmt_create 4 0 1) [0, 0, 0, 0, 0, 0, 0, 0] (sim_machine three_devices 0 1)
    (by decide) rfl⟩


theorem between_agree {e z y : List Nat} {k : Nat} (h1 : rom_lt e z) (h2 : rom_lt z y)
    (h : agree k e y) : agree k e z := by
  obtain ⟨q, hq, hqa, heq, hzq⟩ := h1
  rcases Nat.lt_or_ge q k with hlt | hge
  · exfalso
    have hyq : rom_bit y q = false := by rw [← h q hlt]; exact heq
    have hyz : agree q y z :=
      agree_trans (agree_symm (agree_mono (Nat.le_of_lt hlt) h)) hqa
    exact rom_lt_asymm h2 ⟨q, hq, hyz, hyq, hzq⟩
  · exact agree_mono hge hqa

set_option maxRecDepth 100000 in
/-- C5 (as stated, refuted): with devices of families `0x10` and `0x28` on the
bus, after `onewire_rmt_target_setup(0x28)` the call that follows the last device of family
`0x28` returns false; it does not return a device of the other family. -/
theorem target_search_no_direct_fallback :
    outcomes (search_calls simHw 2 (onewire_rmt_target_setup (onewire_rmt_create 4 0 1) 0x28)
        (sim_machine three_devices 0 1)) =
      some [(true, [0x28, 5, 0, 0, 0, 0, 0, 1]), (false, [0, 0, 0, 0, 0, 0, 0, 0])] := by
  decide

/-- C5 (amended): after `onewire_rmt_target_setup(f)` on a simulated bus that holds a device of
family `f`, the calls of `onewire_rmt_next` return true for a final stretch of the devices in
search order: first devices of family `f` (`d :: Fs`), which are all devices of
that family except possibly one that differs from `d` at position 64 only, then
the devices of other families that follow them in search order (`post`); the
call after the last of these returns false, so the devices that precede `d` in
search order (`pre`) are not returned before that false return. -/
theorem target_search_order (D : List (List Nat)) (hne : D ≠ []) (hnd : D.Nodup)
    (hset : device_set D) (f : Nat) (hf : f < 256) (hF : ∃ x, x ∈ D ∧ x.getD 0 0 = f)
    (ow : mgos_rmt_onewire) (m : Machine SimBus) (ha : attached m) (hdev : m.hw.devices = D) :
    ∃ (pre : List (List Nat)) (d : List Nat) (Fs post : List (List Nat))
      (ow1 : mgos_rmt_onewire) (m1 : Machine SimBus),
      search_order D = pre ++ (d :: Fs ++ post) ∧
      (∀ x ∈ d :: Fs, x.getD 0 0 = f) ∧
      (∀ x ∈ post, x.getD 0 0 ≠ f) ∧
      (∀ x ∈ pre, x.getD 0 0 = f → agree 63 x d) ∧
      search_calls simHw ((d :: Fs ++ post).length + 1) (onewire_rmt_target_setup ow f) m =
        .ok ((d :: Fs ++ post).map (fun x => (true, x)) ++
          [(false, [0, 0, 0, 0, 0, 0, 0, 0])], ow1, m1) := by
  have hperm := search_order_perm D
  have hpw := search_order_pairwise D hnd hset
  obtain ⟨e, ow1, m1, hn, he, hc1, h1, ha1, hd1, hfam, hleast⟩ :=
    target_first D hne hset f hf ow [0, 0, 0, 0, 0, 0, 0, 0] m ha hdev
  rw [zeros_drop] at hn
  have hef : e.getD 0 0 = f := hfam hF
  obtain ⟨pre, suf, hS⟩ := List.append_of_mem (hperm.mem_iff.2 he)
  rw [hS] at hperm hpw
  have hpw' := List.pairwise_append.1 hpw
  -- the calls after the first
  obtain ⟨ow2, m2, hs, hc2, hl2, ha2, hd2, _⟩ :=
    enum_from D hne hset suf pre e ow1 m1 hperm hpw hc1 h1 ha1 hd1
  have hmax : ∀ x ∈ D, ¬ rom_lt ow2.sst.ROM_NO x := by
    intro x hx hlt
    rw [hl2] at hlt
    rcases List.mem_append.1 (hperm.mem_iff.2 hx) with h | h
    · have hxe : rom_lt x e := hpw'.2.2 x h e (List.mem_cons_self e suf)
      rcases pairwise_getLast (e :: suf) (List.cons_ne_nil e suf) hpw'.2.1 e
        (List.mem_cons_self e suf) with h' | h'
      · rw [← h'] at hlt; exact rom_lt_asymm hlt hxe
      · exact rom_lt_asymm (rom_lt_trans hxe h') hlt
    · rcases pairwise_getLast (e :: suf) (List.cons_ne_nil e suf) hpw'.2.1 x h with h' | h'
      · rw [h'] at hlt; exact rom_lt_irrefl _ hlt
      · exact rom_lt_asymm hlt h'
  have hflag2 := canon_last hc2 hmax
  have hcall1 : search_calls simHw 1 (onewire_rmt_target_setup ow f) m =
      .ok ([(true, e)], ow1, m1) := by
    unfold search_calls
    rw [hn]
    rfl
  have hcall3 : search_calls simHw 1 ow2 m2 =
      .ok ([(false, [0, 0, 0, 0, 0, 0, 0, 0])], { ow2 with sst := reset_counters ow2.sst }, m2) := by
    unfold search_calls
    rw [next_done simHw ow2 _ m2 hflag2]
    rfl
  have h12 := search_calls_append simHw 1 suf.length _ m _ ow1 m1 _ ow2 m2 hcall1 hs
  have h123 := search_calls_append simHw (1 + suf.length) 1 _ m _ ow2 m2 _ _ m2 h12 hcall3
  -- the devices of family f come first
  have hsplit : suf = suf.takeWhile (fun x => decide (x.getD 0 0 = f)) ++
      suf.dropWhile (fun x => decide (x.getD 0 0 = f)) :=
    (List.takeWhile_append_dropWhile _ suf).symm
  generalize hFs : suf.takeWhile (fun x => decide (x.getD 0 0 = f)) = Fs at hsplit
  generalize hpost : suf.dropWhile (fun x => decide (x.getD 0 0 = f)) = post at hsplit
  have hFsf : ∀ x ∈ Fs, x.getD 0 0 = f := by
    intro x hx
    rw [← hFs] at hx
    simpa using List.mem_takeWhile_imp hx
  have hpostf : ∀ y ∈ post, y.getD 0 0 ≠ f := by
    intro y hy hyf
    rcases hpz : post with _ | ⟨z, post'⟩
    · rw [hpz] at hy; exact absurd hy (List.not_mem_nil y)
    have hz : z.getD 0 0 ≠ f := by
      have := List.head_dropWhile_not (fun x => decide (x.getD 0 0 = f)) suf
        (by rw [hpost, hpz]; exact List.cons_ne_nil _ _)
      simp only [hpost, hpz, List.head_cons] at this
      simpa using this
    have hzsuf : z ∈ suf := by
      rw [hsplit, hpz]; exact List.mem_append_right _ (List.mem_cons_self _ _)
    have hez : rom_lt e z := (List.pairwise_cons.1 hpw'.2.1).1 z hzsuf
    have hsufpw : suf.Pairwise rom_lt := (List.pairwise_cons.1 hpw'.2.1).2
    rw [hsplit, hpz] at hsufpw
    have hzy : z = y ∨ rom_lt z y := by
      rw [hpz] at hy
      rcases List.mem_cons.1 hy with h | h
      · exact Or.inl h.symm
      · exact Or.inr ((List.pairwise_cons.1 (List.pairwise_append.1 hsufpw).2.1).1 y h)
    rcases hzy with h | h
    · rw [h] at hz; exact hz hyf
    · have hzD : z ∈ D := hperm.mem_iff.1 (List.mem_append_right _ (List.mem_cons_of_mem _ hzsuf))
      have hag : agree 8 e z := between_agree hez h (agree8_of_family (by rw [hef, hyf]))
      have := family_of_agree8 (wf_rom_getD_lt (hset e he).1 0) (wf_rom_getD_lt (hset z hzD).1 0) hag
      exact hz (by rw [← this, hef])
  refine ⟨pre, e, Fs, post, { ow2 with sst := reset_counters ow2.sst }, m2, ?_, ?_, hpostf, ?_, ?_⟩
  · rw [hS, List.cons_append, ← hsplit]
  · intro x hx
    rcases List.mem_cons.1 hx with h | h
    · rw [h]; exact hef
    · exact hFsf x h
  · intro x hx hxf
    have hxe : rom_lt x e := hpw'.2.2 x hx e (List.mem_cons_self e suf)
    have hxD : x ∈ D := hperm.mem_iff.1 (List.mem_append_left _ hx)
    rcases hleast x hxD hxf with h | h | h
    · rw [h] at hxe; exact absurd hxe (rom_lt_irrefl e)
    · exact absurd hxe (fun h' => rom_lt_asymm h' h)
    · exact h
  · rw [List.cons_append, ← hsplit]
    have hlen : (e :: suf).length + 1 = 1 + suf.length + 1 := by simp; omega
    rw [hlen, h123]
    simp

theorem target_search_order_witness :
    (three_devices ≠ [] ∧ three_devices.Nodup ∧ device_set three_devices ∧ 0x28 < 256 ∧
      (∃ x, x ∈ three_devices ∧ x.getD 0 0 = 0x28) ∧
      attached (sim_machine three_devices 0 1) ∧
      (sim_machine three_devices 0 1).hw.devices = three_devices) ∧
    ∃ (pre : List (List Nat)) (d : List Nat) (Fs post : List (List Nat))
      (ow1 : mgos_rmt_onewire) (m1 : Machine SimBus),
      search_order three_devices = pre ++ (d :: Fs ++ post) ∧
      (∀ x ∈ d :: Fs, x.getD 0 0 = 0x28) ∧
      (∀ x ∈ post, x.getD 0 0 ≠ 0x28) ∧
      (∀ x ∈ pre, x.getD 0 0 = 0x28 → agree 63 x d) ∧
      search_calls simHw ((d :: Fs ++ post).length + 1)
          (onewire_rmt_target_setup (onewire_rmt_create 4 0 1) 0x28)
          (sim_machine three_devices 0 1) =
        .ok ((d :: Fs ++ post).map (fun x => (true, x)) ++
          [(false, [0, 0, 0, 0, 0, 0, 0, 0])], ow1, m1) :=
  ⟨by decide, target_search_order three_devices (by decide) (by decide) (by decide) 0x28
    (by decide) (by decide) (onewire_rmt_create 4 0 1) (sim_machine three_devices 0 1)
    (by decide) rfl⟩


set_option maxRecDepth 100000 in
/-- The reason for the exception in the amended C5: of two devices of the
targeted family that differ at position 64 only, the one with bit 1 is returned
first and the other one is not returned before the false return. -/
theorem target_search_skips_twin :
    outcomes (search_calls simHw 2 (onewire_rmt_target_setup (onewire_rmt_create 4 0 1) 0x28)
        (sim_machine [[0x28, 0, 0, 0, 0, 0, 0, 0], [0x28, 0, 0, 0, 0, 0, 0, 0x80]] 0 1)) =
      some [(true, [0x28, 0, 0, 0, 0, 0, 0, 0x80]), (false, [0, 0, 0, 0, 0, 0, 0, 0])] := by
  decide

/-! ## The loop bound -/

theorem search_round_vars {σ : Type} (hw : Hw σ) (ow ow1 : mgos_rmt_onewire)
    (v v1 : search_vars) (m m1 : Machine σ) (k : Nat) (hk : k < 64)
    (hid : v.id_bit_number = k + 1) (hrbn : v.rom_byte_number = k / 8)
    (hmask : v.rom_byte_mask = 2 ^ (k % 8))
    (h : search_round hw ow v m = .ok (true, v1, ow1, m1)) :
    v1.id_bit_number = k + 2 ∧ v1.rom_byte_number = (k + 1) / 8 ∧
      v1.rom_byte_mask = 2 ^ ((k + 1) % 8) := by
  unfold search_round at h
  split at h
  · simp at h
  · simp at h
  · split at h
    · simp at h
    · simp at h
    · rename_i id_bit _ _ _ cmp_id_bit _ _
      split at h
      · simp at h
      · simp only [Except.ok.injEq, Prod.mk.injEq, true_and] at h
        obtain ⟨hv, _, _⟩ := h
        obtain ⟨_, _, _, q4, q5, q6, _, _⟩ := pick_direction_spec id_bit cmp_id_bit v ow.sst
        obtain ⟨a1, a2, a3, _⟩ := advance_at (pick_direction id_bit cmp_id_bit v ow.sst).2.1 k hk
          (q4.trans hid) (q5.trans hrbn) (q6.trans hmask)
        rw [← hv]
        exact ⟨a1, a2, a3⟩

theorem xRingbufferReceive_fault {σ : Type} (hw : Hw σ) (wait : TickType) (m : Machine σ)
    (f : Fault) (h : xRingbufferReceive hw wait m = .error f) : f = Fault.blocked := by
  unfold xRingbufferReceive at h
  split at h
  · simp at h
  · simp at h
  · simp only [Except.error.injEq] at h
    exact h.symm

theorem read_bits_fault {σ : Type} (hw : Hw σ) (gpio_num data num : Nat) (m : Machine σ)
    (f : Fault) (h : onewire_read_bits hw gpio_num data num m = .error f) :
    f = Fault.blocked := by
  unfold onewire_read_bits at h
  split at h
  · simp at h
  · split at h
    · simp at h
    · dsimp only at h
      split at h
      · split at h
        · rename_i f1 hx
          simp only [Except.error.injEq] at h
          rw [← h]
          exact xRingbufferReceive_fault hw _ _ f1 hx
        · simp at h
        · simp at h
      · simp at h

theorem search_round_fault {σ : Type} (hw : Hw σ) (ow : mgos_rmt_onewire) (v : search_vars)
    (m : Machine σ) (f : Fault) (h : search_round hw ow v m = .error f) :
    f = Fault.blocked := by
  unfold search_round at h
  split at h
  · rename_i f1 h1
    simp only [Except.error.injEq] at h
    rw [← h]
    exact read_bits_fault hw _ _ _ _ f1 h1
  · simp at h
  · split at h
    · rename_i f1 h1
      simp only [Except.error.injEq] at h
      rw [← h]
      exact read_bits_fault hw _ _ _ _ f1 h1
    · simp at h
    · split at h <;> simp at h

/-- The bound of 64 rounds is never reached before the loop ends: whatever the
channel does, `search_loop` entered with the initial variables does not run out
of rounds. -/
theorem search_loop_bound {σ : Type} (hw : Hw σ) :
    ∀ (fuel k : Nat) (ow : mgos_rmt_onewire) (v : search_vars) (m : Machine σ),
      k + fuel = 64 → 0 < fuel → v.id_bit_number = k + 1 → v.rom_byte_number = k / 8 →
      v.rom_byte_mask = 2 ^ (k % 8) →
      search_loop hw fuel ow v m ≠ .error Fault.fuel
  | 0, _, _, _, _, _, h0, _, _, _ => absurd h0 (Nat.lt_irrefl 0)
  | fuel + 1, k, ow, v, m, hk, _, hid, hrbn, hmask => by
    unfold search_loop
    split
    · rename_i f hr
      intro hf
      simp only [Except.error.injEq] at hf
      subst hf
      exact Fault.noConfusion (search_round_fault hw ow v m _ hr)
    · simp
    · rename_i v1 ow1 m1 hr
      obtain ⟨a1, a2, a3⟩ := search_round_vars hw ow ow1 v v1 m m1 k (by omega) hid hrbn hmask hr
      split
      · exact search_loop_bound hw fuel (k + 1) ow1 v1 m1 (by omega) (by omega) a1 a2 a3
      · simp

/-- The function `onewire_rmt_next` never fails for lack of loop rounds. -/
theorem next_never_out_of_rounds {σ : Type} (hw : Hw σ) (ow : mgos_rmt_onewire)
    (rom : List Nat) (m : Machine σ) :
    onewire_rmt_next hw ow rom m ≠ .error Fault.fuel := by
  unfold onewire_rmt_next
  dsimp only
  split
  · split
    · rename_i f hr
      intro hf
      simp only [Except.error.injEq] at hf
      subst hf
      unfold onewire_rmt_reset at hr
      dsimp only at hr
      split at hr
      · simp at hr
      · split at hr
        · split at hr
          · rename_i f1 hx
            simp only [Except.error.injEq] at hr
            rw [hr] at hx
            exact Fault.noConfusion (xRingbufferReceive_fault hw _ _ _ hx)
          · split at hr
            · rename_i f1 hp
              simp only [Except.error.injEq] at hr
              rw [hr] at hp
              unfold parse_presence at hp
              split at hp
              · split at hp
                · simp at hp
                · split at hp
                  · split at hp
                    · split at hp
                      · simp at hp
                      · simp at hp
                    · simp at hp
                  · simp at hp
              · simp at hp
            · simp at hr
          · simp at hr
        · simp at hr
    · simp
    · split
      · rename_i f hl
        intro hf
        simp only [Except.error.injEq] at hf
        subst hf
        exact search_loop_bound hw 64 0 ow _ _ (by norm_num) (by norm_num) rfl rfl rfl hl
      · simp
  · simp


/-! ## What a write transmits -/

theorem transmitted_append (l1 l2 : List Event) :
    transmitted (l1 ++ l2) = transmitted l1 ++ transmitted l2 := by
  induction l1 with
  | nil => rfl
  | cons e l ih => cases e <;> simp [transmitted, ih]

theorem pad_modes_append (l1 l2 : List Event) :
    pad_modes (l1 ++ l2) = pad_modes l1 ++ pad_modes l2 := by
  induction l1 with
  | nil => rfl
  | cons e l ih => cases e <;> simp [pad_modes, ih]

theorem receive_count_append (l1 l2 : List Event) :
    receive_count (l1 ++ l2) = receive_count l1 + receive_count l2 := by
  induction l1 with
  | nil => simp [receive_count]
  | cons e l ih =>
    cases e <;> simp [receive_count, ih]
    all_goals omega

theorem attach_log (hw : Hw σ) (gpio_num : Int) (m : Machine σ) (ha : attached m) :
    (onewire_rmt_attach_pin hw gpio_num m).1 = true ∧
    attached (onewire_rmt_attach_pin hw gpio_num m).2 ∧
    transmitted (onewire_rmt_attach_pin hw gpio_num m).2.log = transmitted m.log ∧
    pad_modes (onewire_rmt_attach_pin hw gpio_num m).2.log = pad_modes m.log ∧
    receive_count (onewire_rmt_attach_pin hw gpio_num m).2.log = receive_count m.log := by
  have h : ¬ (m.ow_rmt.tx < 0 ∨ m.ow_rmt.rx < 0) := by
    have := ha.1; have := ha.2; omega
  unfold onewire_rmt_attach_pin
  rw [if_neg h]
  split
  · refine ⟨rfl, ha, ?_, ?_, ?_⟩
    · simp [emit, transmitted_append, transmitted]
    · simp [emit, pad_modes_append, pad_modes]
    · simp [emit, receive_count_append, receive_count]
  · exact ⟨rfl, ha, rfl, rfl, rfl⟩

theorem write_bits_log (hw : Hw σ) (gpio_num data num power : Nat) (m : Machine σ)
    (hn : num ≤ 8) (ha : attached m) :
    attached (onewire_write_bits hw gpio_num data num power m).2 ∧
    transmitted (onewire_write_bits hw gpio_num data num power m).2.log =
      transmitted m.log ++ [write_burst data num] ∧
    pad_modes (onewire_write_bits hw gpio_num data num power m).2.log =
      pad_modes m.log ++ [if power ≠ 0 then 0 else 1] ∧
    receive_count (onewire_write_bits hw gpio_num data num power m).2.log =
      receive_count m.log := by
  obtain ⟨h1, h2, h3, h4, h5⟩ := attach_log hw gpio_num m ha
  rcases hat : onewire_rmt_attach_pin hw (gpio_num : Int) m with ⟨ok, ma⟩
  rw [hat] at h1 h2 h3 h4 h5
  simp only at h1 h2 h3 h4 h5
  subst h1
  unfold onewire_write_bits
  rw [if_neg (by omega), hat]
  refine ⟨h2, ?_, ?_, ?_⟩
  · simp [write_items, emit, transmitted_append, transmitted, h3, write_burst]
  · simp [write_items, emit, pad_modes_append, pad_modes, h4]
  · simp [write_items, emit, receive_count_append, receive_count, h5]


theorem write_slots_length : ∀ (num data : Nat), (write_slots num data).length = num
  | 0, _ => rfl
  | num + 1, data => by simp [write_slots, write_slots_length num]

theorem encode_low_bit (data : Nat) :
    onewire_encode_write_slot (data &&& 0x01) =
      if data.testBit 0 then
        { duration0 := 2, level0 := 0, duration1 := 73, level1 := 1 }
      else { duration0 := 65, level0 := 0, duration1 := 10, level1 := 1 } := by
  have h : data &&& 1 = data % 2 := Nat.and_one_is_mod data
  unfold onewire_encode_write_slot
  rw [h, Nat.testBit_zero]
  rcases Nat.mod_two_eq_zero_or_one data with h0 | h1
  · simp [h0, OW_DURATION_0_LOW, OW_DURATION_0_HIGH, OW_DURATION_SLOT]
  · simp [h1, OW_DURATION_1_LOW, OW_DURATION_1_HIGH, OW_DURATION_SLOT]

theorem write_slots_get : ∀ (num data i : Nat), i < num →
    (write_slots num data)[i]? =
      some (if data.testBit i then
          { duration0 := 2, level0 := 0, duration1 := 73, level1 := 1 }
        else { duration0 := 65, level0 := 0, duration1 := 10, level1 := 1 })
  | 0, _, i, h => absurd h (Nat.not_lt_zero i)
  | num + 1, data, 0, _ => by
    simp only [write_slots, List.getElem?_cons_zero]
    rw [encode_low_bit]
  | num + 1, data, i + 1, h => by
    simp only [write_slots, List.getElem?_cons_succ]
    rw [write_slots_get num (data >>> 1) i (by omega), Nat.testBit_shiftRight, Nat.add_comm 1 i]

/-- C20: for every `num ≤ 8` and every `data`, `onewire_write_bits` (on an attached
channel) hands exactly one burst of `num + 1` items to the transmitter: item
`i < num` is the write slot for bit `i` of `data`, least significant bit first
(low 2 µs, high 73 µs for 1; low 65 µs, high 10 µs for 0), and the last item is
the end marker (level 1, duration 0); `onewire_rmt_write_bit` transmits the burst with the
single slot for the lowest bit of its argument. -/
theorem write_bits_transmits_slots (hw : Hw σ) (gpio_num data num power : Nat)
    (m : Machine σ) (hn : num ≤ 8) (ha : attached m) :
    transmitted (onewire_write_bits hw gpio_num data num power m).2.log =
      transmitted m.log ++ [write_burst data num] ∧
    (write_burst data num).count = num + 1 ∧
    (∀ i, i < num → (write_burst data num).items[i]? =
      some (if data.testBit i then
          { duration0 := 2, level0 := 0, duration1 := 73, level1 := 1 }
        else { duration0 := 65, level0 := 0, duration1 := 10, level1 := 1 })) ∧
    (write_burst data num).end_marker = some (1, 0) ∧
    ∀ (ow : mgos_rmt_onewire) (bit : Int),
      transmitted (onewire_rmt_write_bit hw ow bit m).log =
        transmitted m.log ++ [write_burst (bit % 2).toNat 1] := by
  refine ⟨(write_bits_log hw gpio_num data num power m hn ha).2.1, ?_,
    fun i hi => write_slots_get num data i hi, rfl, ?_⟩
  · simp [tx_buffer.count, write_burst, write_slots_length]
  · intro ow bit
    exact (write_bits_log hw (pin_u8 ow) (bit % 2).toNat 1 owDefaultPower m (by norm_num) ha).2.1

theorem write_bits_transmits_slots_witness :
    (5 ≤ 8 ∧ attached (sim_machine three_devices 0 1)) ∧
    (transmitted (onewire_write_bits simHw 4 0xB6 5 0 (sim_machine three_devices 0 1)).2.log =
      transmitted (sim_machine three_devices 0 1).log ++ [write_burst 0xB6 5] ∧
    (write_burst 0xB6 5).count = 5 + 1 ∧
    (∀ i, i < 5 → (write_burst 0xB6 5).items[i]? =
      some (if Nat.testBit 0xB6 i then
          { duration0 := 2, level0 := 0, duration1 := 73, level1 := 1 }
        else { duration0 := 65, level0 := 0, duration1 := 10, level1 := 1 })) ∧
    (write_burst 0xB6 5).end_marker = some (1, 0) ∧
    ∀ (ow : mgos_rmt_onewire) (bit : Int),
      transmitted (onewire_rmt_write_bit simHw ow bit (sim_machine three_devices 0 1)).log =
        transmitted (sim_machine three_devices 0 1).log ++ [write_burst (bit % 2).toNat 1]) :=
  ⟨by decide, write_bits_transmits_slots simHw 4 0xB6 5 0 (sim_machine three_devices 0 1)
    (by decide) (by decide)⟩

theorem select_loop_log (hw : Hw σ) (ow : mgos_rmt_onewire) (rom : List Nat)
    (hlen : rom.length = 8) :
    ∀ (n i : Nat) (m : Machine σ), i + n = 8 → attached m →
      ∃ m1, select_loop hw ow rom n i m = .ok m1 ∧ attached m1 ∧
        transmitted m1.log =
          transmitted m.log ++ (rom.drop i).map (fun b => write_burst b 8) ∧
        pad_modes m1.log = pad_modes m.log ++ List.replicate n 1 ∧
        receive_count m1.log = receive_count m.log
  | 0, i, m, hi, ha => by
    refine ⟨m, rfl, ha, ?_, by simp, rfl⟩
    rw [List.drop_of_length_le (by omega)]
    simp
  | n + 1, i, m, hi, ha => by
    have hil : i < rom.length := by omega
    obtain ⟨w1, w2, w3, w4⟩ :=
      write_bits_log hw (pin_u8 ow) rom[i] 8 owDefaultPower m (by norm_num) ha
    obtain ⟨m1, h1, h2, h3, h4, h5⟩ :=
      select_loop_log hw ow rom hlen n (i + 1) _ (by omega) w1
    refine ⟨m1, ?_, h2, ?_, ?_, ?_⟩
    · unfold select_loop
      rw [List.getElem?_eq_getElem hil]
      exact h1
    · rw [h3, w2, List.drop_eq_getElem_cons hil, List.map_cons, List.append_assoc]
      rfl
    · rw [h4, w3]
      simp [owDefaultPower, List.replicate_succ]
    · rw [h5, w4]

/-- C16: on an attached channel `onewire_rmt_select(rom)` hands to the transmitter, in this
order, the 8-bit least-significant-bit-first bursts for `0x55` and for `rom[0]`, …,
`rom[7]`, nine bursts and nothing else, and receives nothing; `onewire_rmt_skip` hands
over exactly one 8-bit burst, for `0xCC`. -/
theorem select_and_skip_transmit (hw : Hw σ) (ow : mgos_rmt_onewire) (rom : List Nat)
    (m : Machine σ) (hlen : rom.length = 8) (ha : attached m) :
    (∃ m1, onewire_rmt_select hw ow rom m = .ok m1 ∧
      transmitted m1.log =
        transmitted m.log ++ (write_burst 0x55 8 :: rom.map (fun b => write_burst b 8)) ∧
      receive_count m1.log = receive_count m.log) ∧
    transmitted (onewire_rmt_skip hw ow m).log = transmitted m.log ++ [write_burst 0xCC 8] ∧
    receive_count (onewire_rmt_skip hw ow m).log = receive_count m.log := by
  obtain ⟨w1, w2, _, w4⟩ :=
    write_bits_log hw (pin_u8 ow) 0x55 8 owDefaultPower m (by norm_num) ha
  obtain ⟨m1, h1, _, h3, _, h5⟩ := select_loop_log hw ow rom hlen 8 0 _ (by norm_num) w1
  obtain ⟨s1, s2, _, s4⟩ :=
    write_bits_log hw (pin_u8 ow) 0xCC 8 owDefaultPower m (by norm_num) ha
  refine ⟨⟨m1, h1, ?_, ?_⟩, s2, s4⟩
  · rw [h3, w2]
    simp
  · rw [h5, w4]

theorem select_and_skip_transmit_witness :
    (List.length [0x28, 5, 0, 0, 0, 0, 0, 1] = 8 ∧ attached (sim_machine three_devices 0 1)) ∧
    ((∃ m1, onewire_rmt_select simHw (onewire_rmt_create 4 0 1) [0x28, 5, 0, 0, 0, 0, 0, 1]
          (sim_machine three_devices 0 1) = .ok m1 ∧
      transmitted m1.log =
        transmitted (sim_machine three_devices 0 1).log ++
          (write_burst 0x55 8 ::
            List.map (fun b => write_burst b 8) [0x28, 5, 0, 0, 0, 0, 0, 1]) ∧
      receive_count m1.log = receive_count (sim_machine three_devices 0 1).log) ∧
    transmitted (onewire_rmt_skip simHw (onewire_rmt_create 4 0 1)
        (sim_machine three_devices 0 1)).log =
      transmitted (sim_machine three_devices 0 1).log ++ [write_burst 0xCC 8] ∧
    receive_count (onewire_rmt_skip simHw (onewire_rmt_create 4 0 1)
        (sim_machine three_devices 0 1)).log =
      receive_count (sim_machine three_devices 0 1).log) :=
  ⟨by decide, select_and_skip_transmit simHw (onewire_rmt_create 4 0 1)
    [0x28, 5, 0, 0, 0, 0, 0, 1] (sim_machine three_devices 0 1) (by decide) (by decide)⟩


/-! ## The power flag of the wrapper -/

/-- C11 (as stated, refuted): `OnewireESP32::write` with the power flag set
transmits with `pad_driver = 1` (open drain), not with `pad_driver = 0`. -/
theorem write_with_power_is_open_drain :
    pad_modes (OnewireESP32.write simHw (onewire_rmt_create 4 0 1) 0xA5 1
      (sim_machine three_devices 0 1)).log = [1] := by
  decide

theorem write_bytes_loop_log (hw : Hw σ) (ow : mgos_rmt_onewire) (buf : List Nat) (n : Nat)
    (hn : n < 65536) (hbuf : n ≤ buf.length) :
    ∀ (fuel i : Nat) (m : Machine σ), i ≤ n → n - i < fuel → attached m →
      ∃ m1 k, write_bytes_loop hw ow buf (n : Int) fuel i m = .ok m1 ∧ k ≤ n - i ∧
        attached m1 ∧
        transmitted m1.log =
          transmitted m.log ++ ((buf.drop i).take k).map (fun b => write_burst b 8) ∧
        pad_modes m1.log = pad_modes m.log ++ List.replicate k 1 ∧
        receive_count m1.log = receive_count m.log
  | 0, i, m, _, hf, _ => absurd hf (Nat.not_lt_zero _)
  | fuel + 1, i, m, hi, hf, ha => by
    unfold write_bytes_loop
    by_cases hlt : (i : Int) < (n : Int)
    · have hin : i < n := by exact_mod_cast hlt
      have hil : i < buf.length := by omega
      rw [if_pos hlt, List.getElem?_eq_getElem hil]
      dsimp only
      obtain ⟨w1, w2, w3, w4⟩ :=
        write_bits_log hw (pin_u8 ow) buf[i] 8 owDefaultPower m (by norm_num) ha
      rcases hw8 : onewire_write_bits hw (pin_u8 ow) buf[i] 8 owDefaultPower m with ⟨ok, ma⟩
      rw [hw8] at w1 w2 w3 w4
      simp only at w1 w2 w3 w4
      cases ok
      · refine ⟨ma, 1, rfl, by omega, w1, ?_, ?_, w4⟩
        · rw [w2, List.drop_eq_getElem_cons hil]
          rfl
        · rw [w3]; simp [owDefaultPower]
      · dsimp only
        have hmod : (i + 1) % 65536 = i + 1 := Nat.mod_eq_of_lt (by omega)
        rw [hmod]
        obtain ⟨m1, k, h1, h2, h3, h4, h5, h6⟩ :=
          write_bytes_loop_log hw ow buf n hn hbuf fuel (i + 1) ma (by omega) (by omega) w1
        refine ⟨m1, k + 1, h1, by omega, h3, ?_, ?_, ?_⟩
        · rw [h4, w2, List.drop_eq_getElem_cons hil, List.take_succ_cons, List.map_cons,
            List.append_assoc]
          rfl
        · rw [h5, w3, List.replicate_succ, List.append_assoc]
          simp [owDefaultPower]
        · rw [h6, w4]
    · rw [if_neg hlt]
      exact ⟨m, 0, rfl, by omega, ha, by simp, by simp, rfl⟩

/-- C11 (amended): the power flag of the public write operations has no effect.
For every value of `power`, `OnewireESP32::write(v, power)` transmits its burst with
`pad_driver = 1` (open drain), and `OnewireESP32::write_bytes(buf, count, power)` (with
`count` bytes available in `buf`) returns after `k ≤ count` bursts, each of them
transmitted with `pad_driver = 1`. -/
theorem write_ignores_power (hw : Hw σ) (ow : mgos_rmt_onewire) (v power : Nat)
    (buf : List Nat) (count : Nat) (powerb : Bool) (m : Machine σ) (ha : attached m)
    (hc : count < 65536) (hbuf : count ≤ buf.length) :
    pad_modes (OnewireESP32.write hw ow v power m).log = pad_modes m.log ++ [1] ∧
    ∃ m1 k, OnewireESP32.write_bytes hw ow buf count powerb m = .ok m1 ∧ k ≤ count ∧
      pad_modes m1.log = pad_modes m.log ++ List.replicate k 1 := by
  constructor
  · exact (write_bits_log hw (pin_u8 ow) v 8 owDefaultPower m (by norm_num) ha).2.2.1
  · have hmod : count % 65536 = count := Nat.mod_eq_of_lt hc
    obtain ⟨m1, k, h1, h2, _, _, h5, _⟩ :=
      write_bytes_loop_log hw ow buf count hc hbuf (count + 1) 0 m (Nat.zero_le _) (by omega) ha
    refine ⟨m1, k, ?_, by omega, h5⟩
    unfold OnewireESP32.write_bytes onewire_rmt_write_bytes
    rw [hmod]
    exact h1

theorem write_ignores_power_witness :
    (attached (sim_machine three_devices 0 1) ∧ 3 < 65536 ∧
      3 ≤ List.length [0x44, 0xBE, 0x4E]) ∧
    (pad_modes (OnewireESP32.write simHw (onewire_rmt_create 4 0 1) 0xA5 1
        (sim_machine three_devices 0 1)).log =
      pad_modes (sim_machine three_devices 0 1).log ++ [1] ∧
    ∃ m1 k, OnewireESP32.write_bytes simHw (onewire_rmt_create 4 0 1) [0x44, 0xBE, 0x4E] 3
        true (sim_machine three_devices 0 1) = .ok m1 ∧ k ≤ 3 ∧
      pad_modes m1.log = pad_modes (sim_machine three_devices 0 1).log ++ List.replicate k 1) :=
  ⟨by decide, write_ignores_power simHw (onewire_rmt_create 4 0 1) 0xA5 1 [0x44, 0xBE, 0x4E] 3
    true (sim_machine three_devices 0 1) (by decide) (by decide) (by decide)⟩

/-! ## Target setup, channel failure of a read, the discrepancy rule -/

/-- C15: for every prior search state and every `family_code`, `onewire_rmt_target_setup`
(and `OnewireESP32::target_search`, which forwards to it) leaves
`ROM_NO[0] = family_code`, `ROM_NO[1..7] = 0`, `LastDiscrepancy = 64`,
`LastFamilyDiscrepancy = 0` and `LastDeviceFlag = false`. -/
theorem target_setup_state (ow : mgos_rmt_onewire) (family_code : Nat) :
    (onewire_rmt_target_setup ow family_code).sst.ROM_NO =
      [family_code, 0, 0, 0, 0, 0, 0, 0] ∧
    (onewire_rmt_target_setup ow family_code).sst.LastDiscrepancy = 64 ∧
    (onewire_rmt_target_setup ow family_code).sst.LastFamilyDiscrepancy = 0 ∧
    (onewire_rmt_target_setup ow family_code).sst.LastDeviceFlag = false ∧
    OnewireESP32.target_search ow family_code = onewire_rmt_target_setup ow family_code :=
  ⟨rfl, rfl, rfl, rfl, rfl⟩

theorem read_bits_tx_failure (hw : Hw σ) (gpio_num data num : Nat) (m : Machine σ)
    (hn : num ≤ 8) (ha : attached m)
    (htx : ∀ s buf, (hw.rmt_write_items s buf).1 = false) :
    ∃ m1, onewire_read_bits hw gpio_num data num m = .ok (false, 0, m1) := by
  have h : ¬ (m.ow_rmt.tx < 0 ∨ m.ow_rmt.rx < 0) := by
    have := ha.1; have := ha.2; omega
  have hn' : ¬ num > 8 := by omega
  unfold onewire_read_bits onewire_rmt_attach_pin
  by_cases hg : (gpio_num : Int) = m.ow_rmt.gpio <;>
    simp [hn', h, hg, emit, write_items, htx]

/-- C17: on a channel whose transmission succeeds and on which no capture ever
arrives, `onewire_read_bits` does not return (it waits with `portMAX_DELAY`), so neither
`onewire_rmt_read` nor `onewire_rmt_read_bit` returns a value: the reported `false` / 0 does
not come back. -/
theorem read_without_capture_never_returns :
    onewire_read_bits captureHw 4 0 8 (init_machine none 0 1) = .error Fault.blocked ∧
    onewire_rmt_read captureHw (onewire_rmt_create 4 0 1) (init_machine none 0 1) =
      .error Fault.blocked ∧
    onewire_rmt_read_bit captureHw (onewire_rmt_create 4 0 1) (init_machine none 0 1) =
      .error Fault.blocked :=
  ⟨rfl, rfl, rfl⟩


/-- C18 (as stated, refuted): at position 5, above `LastDiscrepancy = 3`, a
`(0,0)` pair gets direction 0 (and the position is recorded as last zero), not
direction 1. -/
theorem direction_above_last_discrepancy_is_zero :
    (pick_direction 0 0
      { id_bit_number := 5, last_zero := 0, rom_byte_number := 0, rom_byte_mask := 16 }
      { power := 0, LastDeviceFlag := false, LastDiscrepancy := 3, LastFamilyDiscrepancy := 0,
        ROM_NO := [0x10, 1, 0, 0, 0, 0, 0, 7] }).1 = 0 ∧
    (pick_direction 0 0
      { id_bit_number := 5, last_zero := 0, rom_byte_number := 0, rom_byte_mask := 16 }
      { power := 0, LastDeviceFlag := false, LastDiscrepancy := 3, LastFamilyDiscrepancy := 0,
        ROM_NO := [0x10, 1, 0, 0, 0, 0, 0, 7] }).2.1.last_zero = 5 := by
  decide

/-- C18 (amended): at a position `p = k + 1` where the pair read is `(0,0)`, the
direction (the value `search_round` stores into `ROM_NO` and writes to the bus)
is the bit already stored in `ROM_NO` at `p` when `p < LastDiscrepancy`, is 1
when `p = LastDiscrepancy`, and is 0 when `p > LastDiscrepancy`; exactly when
the direction is 0 the position is recorded as the new last zero, and
`LastFamilyDiscrepancy` is set to `p` as well when `p < 9`. -/
theorem discrepancy_rule (v : search_vars) (sst : platform_onewire_bus_t) (k : Nat)
    (hid : v.id_bit_number = k + 1) (hrbn : v.rom_byte_number = k / 8)
    (hmask : v.rom_byte_mask = 2 ^ (k % 8)) :
    (pick_direction 0 0 v sst).1 =
      (if k + 1 < sst.LastDiscrepancy then (if rom_bit sst.ROM_NO k then 1 else 0)
       else if k + 1 = sst.LastDiscrepancy then 1 else 0) ∧
    (pick_direction 0 0 v sst).2.1.last_zero =
      (if (pick_direction 0 0 v sst).1 = 0 then k + 1 else v.last_zero) ∧
    (pick_direction 0 0 v sst).2.2.LastFamilyDiscrepancy =
      (if (pick_direction 0 0 v sst).1 = 0 ∧ k + 1 < 9 then k + 1
       else sst.LastFamilyDiscrepancy) := by
  have hrep := replay_direction_eq v sst k hid hrbn hmask
  have hd : replay_direction v sst =
      (if k + 1 < sst.LastDiscrepancy then (if rom_bit sst.ROM_NO k then 1 else 0)
       else if k + 1 = sst.LastDiscrepancy then 1 else 0) := by
    rw [hrep]
    by_cases hL : k + 1 < sst.LastDiscrepancy
    · simp [hL]
    · by_cases hE : k + 1 = sst.LastDiscrepancy <;> simp [hL, hE]
  rw [← hd]
  unfold pick_direction record_zero
  generalize replay_direction v sst = d
  by_cases h0 : d = 0
  · by_cases h9 : k + 1 < 9 <;> simp [h0, h9, hid]
  · simp [h0]

theorem discrepancy_rule_witness :
    ((5 : Nat) = 4 + 1 ∧ (0 : Nat) = 4 / 8 ∧ (16 : Nat) = 2 ^ (4 % 8)) ∧
    ((pick_direction 0 0
        { id_bit_number := 5, last_zero := 0, rom_byte_number := 0, rom_byte_mask := 16 }
        busy_bus.sst).1 =
      (if 4 + 1 < busy_bus.sst.LastDiscrepancy then
        (if rom_bit busy_bus.sst.ROM_NO 4 then 1 else 0)
       else if 4 + 1 = busy_bus.sst.LastDiscrepancy then 1 else 0) ∧
    (pick_direction 0 0
        { id_bit_number := 5, last_zero := 0, rom_byte_number := 0, rom_byte_mask := 16 }
        busy_bus.sst).2.1.last_zero =
      (if (pick_direction 0 0
        { id_bit_number := 5, last_zero := 0, rom_byte_number := 0, rom_byte_mask := 16 }
        busy_bus.sst).1 = 0 then 4 + 1 else 0) ∧
    (pick_direction 0 0
        { id_bit_number := 5, last_zero := 0, rom_byte_number := 0, rom_byte_mask := 16 }
        busy_bus.sst).2.2.LastFamilyDiscrepancy =
      (if (pick_direction 0 0
        { id_bit_number := 5, last_zero := 0, rom_byte_number := 0, rom_byte_mask := 16 }
        busy_bus.sst).1 = 0 ∧ 4 + 1 < 9 then 4 + 1
       else busy_bus.sst.LastFamilyDiscrepancy)) :=
  ⟨by decide, discrepancy_rule
    { id_bit_number := 5, last_zero := 0, rom_byte_number := 0, rom_byte_mask := 16 }
    busy_bus.sst 4 rfl rfl rfl⟩


/-! ## Order of the enumeration and the last-device flag -/

theorem enum_prefix (D : List (List Nat)) (hD : D ≠ []) (hset : device_set D) :
    ∀ (suf pre rest : List (List Nat)) (d : List Nat) (ow : mgos_rmt_onewire)
      (m : Machine SimBus),
      (pre ++ d :: (suf ++ rest)).Perm D → (pre ++ d :: (suf ++ rest)).Pairwise rom_lt →
      canon D ow → ow.sst.ROM_NO = d → attached m → m.hw.devices = D →
      ∃ ow1 m1,
        search_calls simHw suf.length ow m = .ok (suf.map (fun x => (true, x)), ow1, m1) ∧
        canon D ow1 ∧ ow1.sst.ROM_NO = (d :: suf).getLast (List.cons_ne_nil d suf) ∧
        attached m1 ∧ m1.hw.devices = D
  | [], pre, rest, d, ow, m, _, _, hc, hd, ha, hdev =>
    ⟨ow, m, rfl, hc, by simpa using hd, ha, hdev⟩
  | e :: suf, pre, rest, d, ow, m, hperm, hpw, hc, hd, ha, hdev => by
    have hmem : ∀ x, x ∈ D ↔ x ∈ pre ∨ x = d ∨ x = e ∨ x ∈ suf ++ rest := by
      intro x
      rw [← hperm.mem_iff]
      simp
    have hpw' := List.pairwise_append.1 hpw
    have htail : (e :: (suf ++ rest)).Pairwise rom_lt := (List.pairwise_cons.1 hpw'.2.1).2
    have hde : rom_lt d e :=
      (List.pairwise_cons.1 hpw'.2.1).1 e (List.mem_cons_self e (suf ++ rest))
    have heD : e ∈ D := (hmem e).2 (Or.inr (Or.inr (Or.inl rfl)))
    obtain ⟨hflag, _⟩ := canon_not_last hc heD (by rw [hd]; exact hde)
    obtain ⟨e', ow1, m1, hn, he', hlt, hleast, hc1, h1, _, h3, h4⟩ :=
      next_succ D hD hset ow [0, 0, 0, 0, 0, 0, 0, 0] m hdev ha hc hflag
    rw [hd] at hlt hleast
    rw [zeros_drop] at hn
    have hee : e' = e := by
      rcases (hmem e').1 he' with h | h | h | h
      · exact absurd (hpw'.2.2 e' h d (List.mem_cons_self d _)) (fun h' => rom_lt_asymm h' hlt)
      · rw [h] at hlt; exact absurd hlt (rom_lt_irrefl d)
      · exact h
      · have hee' : rom_lt e e' := (List.pairwise_cons.1 htail).1 e' h
        rcases hleast e heD hde with h' | h'
        · exact h'.symm
        · exact absurd h' (fun h'' => rom_lt_asymm h'' hee')
    subst hee
    have hperm' : ((pre ++ [d]) ++ e' :: (suf ++ rest)).Perm D := by
      rw [List.append_assoc]; exact hperm
    have hpw2 : ((pre ++ [d]) ++ e' :: (suf ++ rest)).Pairwise rom_lt := by
      rw [List.append_assoc]; exact hpw
    obtain ⟨ow2, m2, hs, hc2, hl2, ha2, hd2⟩ :=
      enum_prefix D hD hset suf (pre ++ [d]) rest e' ow1 m1 hperm' hpw2 hc1 h1 h3 h4
    refine ⟨ow2, m2, ?_, hc2, ?_, ha2, hd2⟩
    · show search_calls simHw (suf.length + 1) ow m = _
      unfold search_calls
      rw [hn]
      dsimp only
      rw [hs]
      rfl
    · rw [hl2]
      simp [List.getLast_cons]

/-- The state after the first `j + 1` calls of an enumeration from a state with
`LastDiscrepancy = 0`: the calls returned the first `j + 1` devices in search
order and the state is the one of the last of them. -/
theorem enum_upto (D : List (List Nat)) (hD : D ≠ []) (hnd : D.Nodup) (hset : device_set D)
    (ow : mgos_rmt_onewire) (m : Machine SimBus) (ha : attached m) (hdev : m.hw.devices = D)
    (hflag : ow.sst.LastDeviceFlag = false) (hwf : wf_rom ow.sst.ROM_NO)
    (hL : ow.sst.LastDiscrepancy = 0) (j : Nat) (hj : j + 1 ≤ D.length) :
    ∃ ow1 m1,
      search_calls simHw (j + 1) ow m =
        .ok (((search_order D).take (j + 1)).map (fun x => (true, x)), ow1, m1) ∧
      canon D ow1 ∧ attached m1 ∧ m1.hw.devices = D ∧
      (ow1.sst.LastDeviceFlag = true ↔ j + 1 = D.length) := by
  have hperm := search_order_perm D
  have hpw := search_order_pairwise D hnd hset
  rcases hS : search_order D with _ | ⟨s1, rest⟩
  · rw [hS] at hperm
    exact absurd hperm.symm.eq_nil hD
  rw [hS] at hperm hpw
  have hlen : rest.length + 1 = D.length := by rw [← hperm.length_eq]; simp
  have hmem : ∀ x, x ∈ D ↔ x ∈ s1 :: rest := fun x => (hperm.mem_iff).symm
  obtain ⟨e, ow1, m1, hn, he, hmin, hc1, h1, _, h3, h4⟩ :=
    next_first D hD hset ow [0, 0, 0, 0, 0, 0, 0, 0] m hdev ha hflag hwf hL
  rw [zeros_drop] at hn
  have hes : e = s1 := by
    rcases List.mem_cons.1 ((hmem e).1 he) with h | h
    · exact h
    · have hlt : rom_lt s1 e := (List.pairwise_cons.1 hpw).1 e h
      rcases hmin s1 ((hmem s1).2 (List.mem_cons_self _ _)) with h' | h'
      · exact h'.symm
      · exact absurd h' (fun h'' => rom_lt_asymm h'' hlt)
  subst hes
  have hcall1 : search_calls simHw 1 ow m = .ok ([(true, e)], ow1, m1) := by
    unfold search_calls
    rw [hn]
    rfl
  have hsplit : rest = rest.take j ++ rest.drop j := (List.take_append_drop j rest).symm
  have hperm' : ([] ++ e :: (rest.take j ++ rest.drop j)).Perm D := by
    rw [← hsplit]; exact hperm
  have hpw' : ([] ++ e :: (rest.take j ++ rest.drop j)).Pairwise rom_lt := by
    rw [← hsplit]; exact hpw
  obtain ⟨ow2, m2, hs, hc2, hl2, ha2, hd2⟩ :=
    enum_prefix D hD hset (rest.take j) [] (rest.drop j) e ow1 m1 hperm' hpw' hc1 h1 h3 h4
  have htl : (rest.take j).length = j := by
    rw [List.length_take]; omega
  rw [htl] at hs
  have h12 := search_calls_append simHw 1 j ow m _ ow1 m1 _ ow2 m2 hcall1 hs
  rw [Nat.add_comm 1 j] at h12
  refine ⟨ow2, m2, ?_, hc2, ha2, hd2, ?_⟩
  · rw [h12]
    simp
  · have hpwS : (e :: (rest.take j ++ rest.drop j)).Pairwise rom_lt := by
      rw [← hsplit]; exact hpw
    have hpre : ∀ x ∈ e :: rest.take j, x = ow2.sst.ROM_NO ∨ rom_lt x ow2.sst.ROM_NO := by
      intro x hx
      rw [hl2]
      have hp : (e :: rest.take j).Pairwise rom_lt := by
        have := List.pairwise_append.1 (show ((e :: rest.take j) ++ rest.drop j).Pairwise rom_lt
          from hpwS)
        exact this.1
      exact pairwise_getLast (e :: rest.take j) (List.cons_ne_nil _ _) hp x hx
    have hlastmem : ow2.sst.ROM_NO ∈ e :: rest.take j := by
      rw [hl2]; exact List.getLast_mem _
    constructor
    · intro hft
      by_contra hne
      have hjl : j < rest.length := by omega
      have hx : rest[j] ∈ rest.drop j := by
        rw [List.drop_eq_getElem_cons hjl]; exact List.mem_cons_self _ _
      have hlt : rom_lt ow2.sst.ROM_NO rest[j] :=
        (List.pairwise_append.1 (show ((e :: rest.take j) ++ rest.drop j).Pairwise rom_lt
          from hpwS)).2.2 _ hlastmem _ hx
      have hxD : rest[j] ∈ D := (hmem _).2 (List.mem_cons_of_mem _ (List.getElem_mem _))
      have := (canon_not_last hc2 hxD hlt).1
      rw [hft] at this
      exact Bool.noConfusion this
    · intro hjl
      have hdrop : rest.drop j = [] := List.drop_of_length_le (by omega)
      apply canon_last hc2
      intro x hx hlt
      have hxS : x ∈ e :: rest.take j := by
        have := (hmem x).1 hx
        rw [hsplit, hdrop, List.append_nil] at this
        exact this
      rcases hpre x hxS with h | h
      · rw [h] at hlt; exact rom_lt_irrefl _ hlt
      · exact rom_lt_asymm hlt h


/-- C12: order of the enumeration.  On a simulated bus with a non-empty set `D`
of distinct devices, from the state left by `onewire_rmt_search_clean`, the ROM codes
returned by the first `|D|` calls are strictly ascending in the order `rom_lt`
(codes compared bit by bit from position 1 to position 64, 0 before 1) and are
the elements of `D`; call `|D| + 1` returns false. -/
theorem search_returns_ascending (D : List (List Nat)) (hne : D ≠ []) (hnd : D.Nodup)
    (hset : device_set D) (ow : mgos_rmt_onewire) (m : Machine SimBus) (ha : attached m)
    (hdev : m.hw.devices = D) :
    ∃ (roms : List (List Nat)) (ow1 : mgos_rmt_onewire) (m1 : Machine SimBus),
      search_calls simHw (D.length + 1) (onewire_rmt_search_clean ow) m =
        .ok (roms.map (fun x => (true, x)) ++ [(false, [0, 0, 0, 0, 0, 0, 0, 0])], ow1, m1) ∧
      roms.Pairwise rom_lt ∧ roms.Perm D := by
  obtain ⟨ow1, m1, h, _⟩ := enum_full D hne hnd hset (onewire_rmt_search_clean ow) m ha hdev
    rfl (wf_rom_clean ow) rfl
  exact ⟨search_order D, ow1, m1, h, search_order_pairwise D hnd hset, search_order_perm D⟩

theorem search_returns_ascending_witness :
    (three_devices ≠ [] ∧ three_devices.Nodup ∧ device_set three_devices ∧
      attached (sim_machine three_devices 0 1) ∧
      (sim_machine three_devices 0 1).hw.devices = three_devices) ∧
    ∃ (roms : List (List Nat)) (ow1 : mgos_rmt_onewire) (m1 : Machine SimBus),
      search_calls simHw (three_devices.length + 1)
          (onewire_rmt_search_clean (onewire_rmt_create 4 0 1)) (sim_machine three_devices 0 1) =
        .ok (roms.map (fun x => (true, x)) ++ [(false, [0, 0, 0, 0, 0, 0, 0, 0])], ow1, m1) ∧
      roms.Pairwise rom_lt ∧ roms.Perm three_devices :=
  ⟨by decide, search_returns_ascending three_devices (by decide) (by decide) (by decide)
    (onewire_rmt_create 4 0 1) (sim_machine three_devices 0 1) (by decide) rfl⟩

set_option maxRecDepth 100000 in
/-- The scenario of the specification: the devices A, B (differing from A at
one low bit) and C are returned as A, B, C by three calls, the fourth call
returns false. -/
theorem three_devices_scenario :
    outcomes (search_calls simHw 4 (onewire_rmt_search_clean (onewire_rmt_create 4 0 1))
        (sim_machine three_devices 0 1)) =
      some [(true, [0x10, 1, 0, 0, 0, 0, 0, 7]), (true, [0x10, 3, 0, 0, 0, 0, 0, 9]),
            (true, [0x28, 5, 0, 0, 0, 0, 0, 1]), (false, [0, 0, 0, 0, 0, 0, 0, 0])] := by
  decide

/-- C13: in the enumeration of a simulated set `D` of `k = |D|` distinct devices
from the state left by `onewire_rmt_search_clean`, `LastDeviceFlag` after call `j`
(`1 ≤ j ≤ k`) is true exactly when `j = k`: false after each of the calls
`1 … k-1`, true after the call that returns the last device. -/
theorem last_device_flag_after_call (D : List (List Nat)) (hne : D ≠ []) (hnd : D.Nodup)
    (hset : device_set D) (ow : mgos_rmt_onewire) (m : Machine SimBus) (ha : attached m)
    (hdev : m.hw.devices = D) (j : Nat) (hj1 : 1 ≤ j) (hj : j ≤ D.length) :
    ∃ (rs : List (Bool × List Nat)) (ow1 : mgos_rmt_onewire) (m1 : Machine SimBus),
      search_calls simHw j (onewire_rmt_search_clean ow) m = .ok (rs, ow1, m1) ∧
      (ow1.sst.LastDeviceFlag = true ↔ j = D.length) := by
  obtain ⟨i, rfl⟩ : ∃ i, j = i + 1 := ⟨j - 1, by omega⟩
  obtain ⟨ow1, m1, h, _, _, _, hf⟩ :=
    enum_upto D hne hnd hset (onewire_rmt_search_clean ow) m ha hdev rfl (wf_rom_clean ow) rfl
      i hj
  exact ⟨_, ow1, m1, h, hf⟩

theorem last_device_flag_after_call_witness :
    (three_devices ≠ [] ∧ three_devices.Nodup ∧ device_set three_devices ∧
      attached (sim_machine three_devices 0 1) ∧
      (sim_machine three_devices 0 1).hw.devices = three_devices ∧ 1 ≤ 2 ∧
      2 ≤ three_devices.length) ∧
    ∃ (rs : List (Bool × List Nat)) (ow1 : mgos_rmt_onewire) (m1 : Machine SimBus),
      search_calls simHw 2 (onewire_rmt_search_clean (onewire_rmt_create 4 0 1))
          (sim_machine three_devices 0 1) = .ok (rs, ow1, m1) ∧
      (ow1.sst.LastDeviceFlag = true ↔ 2 = three_devices.length) :=
  ⟨by decide, last_device_flag_after_call three_devices (by decide) (by decide) (by decide)
    (onewire_rmt_create 4 0 1) (sim_machine three_devices 0 1) (by decide) rfl 2 (by decide)
    (by decide)⟩


/-! ## A search from `LastDiscrepancy = 0` does not depend on `ROM_NO` -/

theorem pick_direction_with_rom (id_bit cmp_id_bit : Nat) (v : search_vars)
    (sst : platform_onewire_bus_t) (r : List Nat) (hL : sst.LastDiscrepancy = 0)
    (hid : v.id_bit_number ≠ 0) :
    pick_direction id_bit cmp_id_bit v { sst with ROM_NO := r } =
      ((pick_direction id_bit cmp_id_bit v sst).1, (pick_direction id_bit cmp_id_bit v sst).2.1,
       { (pick_direction id_bit cmp_id_bit v sst).2.2 with ROM_NO := r }) := by
  have h1 : ∀ s : platform_onewire_bus_t, s.LastDiscrepancy = 0 → replay_direction v s = 0 := by
    intro s hs
    unfold replay_direction
    rw [hs, if_neg (Nat.not_lt_zero _), if_neg hid]
  unfold pick_direction
  rw [h1 sst hL, h1 { sst with ROM_NO := r } hL]
  by_cases hne : id_bit = cmp_id_bit
  · simp only [hne, ne_eq, not_true_eq_false, if_false, if_true]
    unfold record_zero
    by_cases h9 : v.id_bit_number < 9 <;> simp [h9]
  · simp [hne]

theorem store_bit_with_rom (d : Nat) (v : search_vars) (sst : platform_onewire_bus_t)
    (r : List Nat) :
    store_bit d v { sst with ROM_NO := r } =
      { store_bit d v sst with ROM_NO := (store_bit d v { sst with ROM_NO := r }).ROM_NO } := by
  unfold store_bit
  split <;> rfl

theorem search_round_with_rom (hw : Hw σ) (a : mgos_rmt_onewire) (rb : List Nat)
    (v : search_vars) (m : Machine σ) (k : Nat) (hk : k < 64)
    (hid : v.id_bit_number = k + 1) (hrbn : v.rom_byte_number = k / 8)
    (hmask : v.rom_byte_mask = 2 ^ (k % 8)) (hL : a.sst.LastDiscrepancy = 0)
    (hwa : wf_rom a.sst.ROM_NO) (hwb : wf_rom rb) (hag : agree k a.sst.ROM_NO rb) :
    (∀ f, search_round hw a v m = .error f → search_round hw (with_rom a rb) v m = .error f) ∧
    (∀ v1 a1 m1, search_round hw a v m = .ok (false, v1, a1, m1) →
      search_round hw (with_rom a rb) v m = .ok (false, v1, with_rom a rb, m1) ∧
      a1 = a ∧ v1 = v) ∧
    (∀ v1 a1 m1, search_round hw a v m = .ok (true, v1, a1, m1) →
      ∃ rb1, search_round hw (with_rom a rb) v m = .ok (true, v1, with_rom a1 rb1, m1) ∧
        a1.sst.LastDiscrepancy = 0 ∧ wf_rom a1.sst.ROM_NO ∧ wf_rom rb1 ∧
        agree (k + 1) a1.sst.ROM_NO rb1 ∧ v1.id_bit_number = k + 2 ∧
        v1.rom_byte_number = (k + 1) / 8 ∧ v1.rom_byte_mask = 2 ^ ((k + 1) % 8)) := by
  have hpin : pin_u8 (with_rom a rb) = pin_u8 a := rfl
  have hsst : (with_rom a rb).sst = { a.sst with ROM_NO := rb } := rfl
  unfold search_round
  rw [hpin, hsst]
  rcases h1 : onewire_read_bits hw (pin_u8 a) 0 1 m with f | ⟨ok1, id_bit, m1⟩
  · refine ⟨fun f h => h, ?_, ?_⟩ <;> intro v1 a1 m1' h <;> cases h
  cases ok1
  · refine ⟨?_, ?_, ?_⟩
    · intro f h; cases h
    · intro v1 a1 m1' h; cases h; exact ⟨rfl, rfl, rfl⟩
    · intro v1 a1 m1' h; cases h
  dsimp only
  rcases h2 : onewire_read_bits hw (pin_u8 a) 0 1 m1 with f | ⟨ok2, cmp_id_bit, m2⟩
  · refine ⟨fun f h => h, ?_, ?_⟩ <;> intro v1 a1 m1' h <;> cases h
  cases ok2
  · refine ⟨?_, ?_, ?_⟩
    · intro f h; cases h
    · intro v1 a1 m1' h; cases h; exact ⟨rfl, rfl, rfl⟩
    · intro v1 a1 m1' h; cases h
  dsimp only
  by_cases h11 : id_bit = 1 ∧ cmp_id_bit = 1
  · rw [if_pos h11, if_pos h11]
    refine ⟨?_, ?_, ?_⟩
    · intro f h; cases h
    · intro v1 a1 m1' h; cases h; exact ⟨rfl, rfl, rfl⟩
    · intro v1 a1 m1' h; cases h
  · rw [if_neg h11, if_neg h11]
    refine ⟨?_, ?_, ?_⟩
    · intro f h; cases h
    · intro v1 a1 m1' h; cases h
    intro v1 a1 m1' h
    rw [pick_direction_with_rom id_bit cmp_id_bit v a.sst rb hL (by omega)]
    obtain ⟨q1, q2, q3, q4, q5, q6, _, _⟩ := pick_direction_spec id_bit cmp_id_bit v a.sst
    generalize hpk : pick_direction id_bit cmp_id_bit v a.sst = pk at h q1 q2 q3 q4 q5 q6
    dsimp only at h ⊢
    cases h
    obtain ⟨a1', a2', a3', _⟩ := advance_at pk.2.1 k hk (q4.trans hid) (q5.trans hrbn)
      (q6.trans hmask)
    obtain ⟨f1, f2, f3, f4⟩ := store_bit_fields pk.1 pk.2.1 pk.2.2
    have hlenA : k / 8 < pk.2.2.ROM_NO.length := by rw [q1, hwa.1]; omega
    have hlenB : k / 8 < ({ pk.2.2 with ROM_NO := rb } : platform_onewire_bus_t).ROM_NO.length := by
      show k / 8 < rb.length
      rw [hwb.1]; omega
    refine ⟨(store_bit pk.1 pk.2.1 { pk.2.2 with ROM_NO := rb }).ROM_NO, ?_, ?_, ?_, ?_, ?_,
      a1', a2', a3'⟩
    · rw [store_bit_with_rom]
      rfl
    · show (store_bit pk.1 pk.2.1 pk.2.2).LastDiscrepancy = 0
      rw [f1, q2, hL]
    · exact wf_rom_store pk.1 pk.2.1 pk.2.2 k (q6.trans hmask) (by rw [q1]; exact hwa)
    · exact wf_rom_store pk.1 pk.2.1 _ k (q6.trans hmask) hwb
    · intro q hq
      show rom_bit (store_bit pk.1 pk.2.1 pk.2.2).ROM_NO q =
        rom_bit (store_bit pk.1 pk.2.1 { pk.2.2 with ROM_NO := rb }).ROM_NO q
      rw [rom_bit_store pk.1 pk.2.1 pk.2.2 k q (q5.trans hrbn) (q6.trans hmask) hlenA,
        rom_bit_store pk.1 pk.2.1 _ k q (q5.trans hrbn) (q6.trans hmask) hlenB]
      by_cases hqk : q = k
      · simp [hqk]
      · rw [if_neg hqk, if_neg hqk, q1]
        exact hag q (by omega)


theorem search_loop_with_rom (hw : Hw σ) :
    ∀ (fuel k : Nat) (a : mgos_rmt_onewire) (rb : List Nat) (v : search_vars) (m : Machine σ),
      k + fuel = 64 → 0 < fuel → v.id_bit_number = k + 1 → v.rom_byte_number = k / 8 →
      v.rom_byte_mask = 2 ^ (k % 8) → a.sst.LastDiscrepancy = 0 → wf_rom a.sst.ROM_NO →
      wf_rom rb → agree k a.sst.ROM_NO rb →
      (∀ f, search_loop hw fuel a v m = .error f →
        search_loop hw fuel (with_rom a rb) v m = .error f) ∧
      (∀ v1 a1 m1, search_loop hw fuel a v m = .ok (v1, a1, m1) →
        ∃ rb1, search_loop hw fuel (with_rom a rb) v m = .ok (v1, with_rom a1 rb1, m1) ∧
          (¬ v1.id_bit_number < 65 → rb1 = a1.sst.ROM_NO))
  | 0, _, _, _, _, _, _, h0, _, _, _, _, _, _, _ => absurd h0 (Nat.lt_irrefl 0)
  | fuel + 1, k, a, rb, v, m, hk, _, hid, hrbn, hmask, hL, hwa, hwb, hag => by
    obtain ⟨r1, r2, r3⟩ :=
      search_round_with_rom hw a rb v m k (by omega) hid hrbn hmask hL hwa hwb hag
    unfold search_loop
    rcases hr : search_round hw a v m with f | ⟨c, v1, a1, m1⟩
    · rw [r1 f hr]
      exact ⟨fun f h => h, fun v1 a1 m1 h => by cases h⟩
    cases c
    · obtain ⟨e1, e2, e3⟩ := r2 v1 a1 m1 hr
      rw [e1]
      dsimp only
      refine ⟨fun f h => (by cases h), ?_⟩
      intro v2 a2 m2 h
      cases h
      refine ⟨rb, by rw [e2], ?_⟩
      intro hn
      rw [e3, hid] at hn
      omega
    · obtain ⟨rb1, e1, hL1, hwa1, hwb1, hag1, i1, i2, i3⟩ := r3 v1 a1 m1 hr
      rw [e1]
      dsimp only
      by_cases h8 : v1.rom_byte_number < 8
      · rw [if_pos h8, if_pos h8]
        rw [i2] at h8
        exact search_loop_with_rom hw fuel (k + 1) a1 rb1 v1 m1 (by omega) (by omega) i1 i2 i3
          hL1 hwa1 hwb1 hag1
      · rw [if_neg h8, if_neg h8]
        refine ⟨fun f h => (by cases h), ?_⟩
        intro v2 a2 m2 h
        cases h
        refine ⟨rb1, rfl, ?_⟩
        intro _
        rw [i2] at h8
        have hk64 : k + 1 = 64 := by omega
        rw [hk64] at hag1
        exact (rom_ext hwa1 hwb1 hag1).symm

theorem with_rom_self (a : mgos_rmt_onewire) : with_rom a a.sst.ROM_NO = a := rfl

theorem search_finish_view (v : search_vars) (a : mgos_rmt_onewire) (rb : List Nat)
    (rom : List Nat) (h : ¬ v.id_bit_number < 65 → rb = a.sst.ROM_NO) :
    (search_finish v (with_rom a rb) rom).1 = (search_finish v a rom).1 ∧
    (search_finish v (with_rom a rb) rom).2.1 = (search_finish v a rom).2.1 ∧
    ((search_finish v a rom).1 = true →
      (search_finish v (with_rom a rb) rom).2.2 = (search_finish v a rom).2.2) := by
  by_cases hid : v.id_bit_number < 65
  · unfold search_finish
    simp [hid]
  · rw [h hid, with_rom_self]
    exact ⟨rfl, rfl, fun _ => rfl⟩

/-- C14: a search that starts with `LastDiscrepancy = 0` and `LastDeviceFlag =
false` does not depend on what an earlier, failed search left in `ROM_NO`.  For
every channel behaviour and every two search states that differ in the
contents of `ROM_NO` only (eight bytes each), `onewire_rmt_next` gives the same return
value, the same caller's buffer, the same channel state and, on success, the
same search state, and the same as from the all-zero `ROM_NO` that
`onewire_rmt_search_clean` leaves. -/
theorem search_independent_of_stale_rom (hw : Hw σ) (a : mgos_rmt_onewire)
    (ra rb rom : List Nat) (m : Machine σ) (hL : a.sst.LastDiscrepancy = 0)
    (hflag : a.sst.LastDeviceFlag = false) (hwa : wf_rom ra) (hwb : wf_rom rb) :
    search_view (onewire_rmt_next hw (with_rom a ra) rom m) =
      search_view (onewire_rmt_next hw (with_rom a rb) rom m) ∧
    search_view (onewire_rmt_next hw (with_rom a ra) rom m) =
      search_view (onewire_rmt_next hw
        (with_rom a (onewire_rmt_search_clean a).sst.ROM_NO) rom m) := by
  have key : ∀ (a : mgos_rmt_onewire) (rb : List Nat), a.sst.LastDiscrepancy = 0 →
      a.sst.LastDeviceFlag = false → wf_rom a.sst.ROM_NO → wf_rom rb →
      search_view (onewire_rmt_next hw (with_rom a rb) rom m) =
        search_view (onewire_rmt_next hw a rom m) := by
    intro a rb hL hflag hwa hwb
    have hreset : onewire_rmt_reset hw (with_rom a rb) m = onewire_rmt_reset hw a m := rfl
    have hpin : pin_u8 (with_rom a rb) = pin_u8 a := rfl
    have hfl : (with_rom a rb).sst.LastDeviceFlag = false := hflag
    unfold onewire_rmt_next
    dsimp only
    rw [if_pos (by simp [hfl]), if_pos (by simp [hflag]), hreset, hpin]
    rcases hr : onewire_rmt_reset hw a m with f | ⟨ok, m1⟩
    · rfl
    cases ok
    · rfl
    dsimp only
    obtain ⟨l1, l2⟩ := search_loop_with_rom hw 64 0 a rb
      { id_bit_number := 1, last_zero := 0, rom_byte_number := 0, rom_byte_mask := 1 }
      (onewire_write_bits hw (pin_u8 a) 0xF0 8 owDefaultPower m1).2 (by norm_num) (by norm_num)
      rfl rfl rfl hL hwa hwb (fun q hq => absurd hq (Nat.not_lt_zero q))
    rcases hl : search_loop hw 64 a
      { id_bit_number := 1, last_zero := 0, rom_byte_number := 0, rom_byte_mask := 1 }
      (onewire_write_bits hw (pin_u8 a) 0xF0 8 owDefaultPower m1).2 with f | ⟨v1, a1, m3⟩
    · rw [l1 f hl]
    · obtain ⟨rb1, e1, e2⟩ := l2 v1 a1 m3 hl
      rw [e1]
      dsimp only
      obtain ⟨s1, s2, s3⟩ := search_finish_view v1 a1 rb1 rom e2
      unfold search_view
      dsimp only
      rw [s1, s2]
      cases hres : (search_finish v1 a1 rom).1
      · simp
      · simp [s3 hres]
  have hz : wf_rom (onewire_rmt_search_clean a).sst.ROM_NO := by
    show wf_rom [0, 0, 0, 0, 0, 0, 0, 0]
    decide
  have h1 := key (with_rom a ra) rb hL hflag hwa hwb
  have h2 := key (with_rom a ra) (onewire_rmt_search_clean a).sst.ROM_NO hL hflag hwa hz
  exact ⟨h1.symm, h2.symm⟩

theorem search_independent_of_stale_rom_witness :
    ((onewire_rmt_create 4 0 1).sst.LastDiscrepancy = 0 ∧
      (onewire_rmt_create 4 0 1).sst.LastDeviceFlag = false ∧
      wf_rom [0x10, 0xFF, 3, 0, 0, 0, 0, 0x80] ∧ wf_rom [0, 0, 0, 0, 0, 0, 0, 0]) ∧
    search_view (onewire_rmt_next simHw
        (with_rom (onewire_rmt_create 4 0 1) [0x10, 0xFF, 3, 0, 0, 0, 0, 0x80])
        [0, 0, 0, 0, 0, 0, 0, 0] (sim_machine three_devices 0 1)) =
      search_view (onewire_rmt_next simHw
        (with_rom (onewire_rmt_create 4 0 1) [0x28, 1, 2, 3, 4, 5, 6, 7])
        [0, 0, 0, 0, 0, 0, 0, 0] (sim_machine three_devices 0 1)) ∧
    search_view (onewire_rmt_next simHw
        (with_rom (onewire_rmt_create 4 0 1) [0x10, 0xFF, 3, 0, 0, 0, 0, 0x80])
        [0, 0, 0, 0, 0, 0, 0, 0] (sim_machine three_devices 0 1)) =
      search_view (onewire_rmt_next simHw
        (with_rom (onewire_rmt_create 4 0 1)
          (onewire_rmt_search_clean (onewire_rmt_create 4 0 1)).sst.ROM_NO)
        [0, 0, 0, 0, 0, 0, 0, 0] (sim_machine three_devices 0 1)) :=
  ⟨by decide, search_independent_of_stale_rom simHw (onewire_rmt_create 4 0 1)
    [0x10, 0xFF, 3, 0, 0, 0, 0, 0x80] [0x28, 1, 2, 3, 4, 5, 6, 7] [0, 0, 0, 0, 0, 0, 0, 0]
    (sim_machine three_devices 0 1) rfl rfl (by decide) (by decide)⟩


/-! ## The rounds walked by a successful call -/

theorem read_slot_zero (item : rmt_item32_t) : read_slot 0 item = 0 ∨ read_slot 0 item = 0x80 := by
  unfold read_slot
  split
  · right; rfl
  · left; rfl

theorem decode_capture_one (rx_items : List rmt_item32_t) : decode_capture rx_items 1 ≤ 1 := by
  unfold decode_capture
  split
  · match rx_items with
    | [] => simp
    | item :: rest =>
      simp only [List.take_succ_cons, List.take_zero, List.foldl_cons, List.foldl_nil]
      rcases read_slot_zero item with h | h <;> rw [h] <;> decide
  · exact Nat.zero_le 1

theorem read_one_bit_le (hw : Hw σ) (gpio_num : Nat) (m m1 : Machine σ) (d : Nat)
    (h : onewire_read_bits hw gpio_num 0 1 m = .ok (true, d, m1)) : d ≤ 1 := by
  unfold onewire_read_bits at h
  split at h
  · simp at h
  · split at h
    · simp at h
    · dsimp only at h
      split at h
      · split at h
        · simp at h
        · simp only [Except.ok.injEq, Prod.mk.injEq, true_and] at h
          rw [← h.1]
          exact decode_capture_one _
        · simp at h
      · simp at h

theorem search_round_false (hw : Hw σ) (ow ow1 : mgos_rmt_onewire) (v v1 : search_vars)
    (m m1 : Machine σ) (h : search_round hw ow v m = .ok (false, v1, ow1, m1)) : v1 = v := by
  unfold search_round at h
  split at h
  · simp at h
  · simp only [Except.ok.injEq, Prod.mk.injEq, true_and] at h
    exact h.1.symm
  · split at h
    · simp at h
    · simp only [Except.ok.injEq, Prod.mk.injEq, true_and] at h
      exact h.1.symm
    · split at h
      · simp only [Except.ok.injEq, Prod.mk.injEq, true_and] at h
        exact h.1.symm
      · simp at h

theorem round_trace_spec (hw : Hw σ) (ow ow1 : mgos_rmt_onewire) (v v1 : search_vars)
    (m m1 : Machine σ) (h : search_round hw ow v m = .ok (true, v1, ow1, m1)) :
    ∃ id_bit cmp_id_bit, id_bit ≤ 1 ∧ cmp_id_bit ≤ 1 ∧ ¬ (id_bit = 1 ∧ cmp_id_bit = 1) ∧
      round_trace hw ow v m = some (round_record.mk v.id_bit_number id_bit cmp_id_bit
        (pick_direction id_bit cmp_id_bit v ow.sst).1) ∧
      v1 = advance (pick_direction id_bit cmp_id_bit v ow.sst).2.1 ∧
      ow1.sst.LastDeviceFlag = ow.sst.LastDeviceFlag := by
  unfold search_round at h
  unfold round_trace
  rcases h1 : onewire_read_bits hw (pin_u8 ow) 0 1 m with f | ⟨ok1, id_bit, m2⟩
  · rw [h1] at h
    simp at h
  cases ok1
  · rw [h1] at h
    simp at h
  rw [h1] at h
  dsimp only at h ⊢
  rcases h2 : onewire_read_bits hw (pin_u8 ow) 0 1 m2 with f | ⟨ok2, cmp_id_bit, m3⟩
  · rw [h2] at h
    simp at h
  cases ok2
  · rw [h2] at h
    simp at h
  rw [h2] at h
  dsimp only at h ⊢
  by_cases hb : id_bit = 1 ∧ cmp_id_bit = 1
  · rw [if_pos hb] at h
    simp at h
  · rw [if_neg hb] at h
    rw [if_neg hb]
    simp only [Except.ok.injEq, Prod.mk.injEq, true_and] at h
    obtain ⟨hv, how, _⟩ := h
    refine ⟨id_bit, cmp_id_bit, read_one_bit_le hw _ _ _ _ h1, read_one_bit_le hw _ _ _ _ h2,
      hb, rfl, hv.symm, ?_⟩
    rw [← how]
    show (store_bit _ _ _).LastDeviceFlag = _
    rw [(store_bit_fields _ _ _).2.1]
    exact (pick_direction_spec id_bit cmp_id_bit v ow.sst).2.2.1

theorem zero_branches_cons (r : round_record) (t : List round_record) :
    zero_branches (r :: t) =
      if r.id_bit = 0 ∧ r.cmp_id_bit = 0 ∧ r.search_direction = 0 then
        r.position :: zero_branches t
      else zero_branches t := by
  unfold zero_branches
  by_cases h : r.id_bit = 0 ∧ r.cmp_id_bit = 0 ∧ r.search_direction = 0
  · rw [if_pos h, List.filter_cons_of_pos (by simpa using h), List.map_cons]
  · rw [if_neg h, List.filter_cons_of_neg (by simpa using h)]

/-- The `last_zero` after a round is the one the round's record accounts for. -/
theorem round_last_zero (id_bit cmp_id_bit : Nat) (v : search_vars)
    (sst : platform_onewire_bus_t) (k : Nat) (hid : v.id_bit_number = k + 1)
    (hlz : v.last_zero ≤ k) (h2 : cmp_id_bit ≤ 1)
    (hb : ¬ (id_bit = 1 ∧ cmp_id_bit = 1)) (t : List Nat) :
    ((if id_bit = 0 ∧ cmp_id_bit = 0 ∧ (pick_direction id_bit cmp_id_bit v sst).1 = 0 then
        v.id_bit_number :: t else t).foldl max v.last_zero) =
      t.foldl max (pick_direction id_bit cmp_id_bit v sst).2.1.last_zero ∧
    (pick_direction id_bit cmp_id_bit v sst).2.1.last_zero ≤ k + 1 := by
  obtain ⟨_, _, _, _, _, _, q7, q8⟩ := pick_direction_spec id_bit cmp_id_bit v sst
  by_cases he : id_bit = cmp_id_bit
  · obtain ⟨d1, d2⟩ := q8 he
    have hz : id_bit = 0 ∧ cmp_id_bit = 0 := by omega
    rw [d1, d2]
    by_cases hr : replay_direction v sst = 0
    · rw [if_pos ⟨hz.1, hz.2, hr⟩, if_pos hr, List.foldl_cons, hid,
        Nat.max_eq_right (by omega)]
      exact ⟨rfl, Nat.le_refl _⟩
    · rw [if_neg (fun c => hr c.2.2), if_neg hr]
      exact ⟨rfl, by omega⟩
  · obtain ⟨_, d2⟩ := q7 he
    rw [d2, if_neg (fun c => he (c.1.trans c.2.1.symm))]
    exact ⟨rfl, by omega⟩

theorem search_loop_trace (hw : Hw σ) :
    ∀ (fuel k : Nat) (ow ow1 : mgos_rmt_onewire) (v v1 : search_vars) (m m1 : Machine σ),
      k + fuel = 64 → 0 < fuel → v.id_bit_number = k + 1 → v.rom_byte_number = k / 8 →
      v.rom_byte_mask = 2 ^ (k % 8) → v.last_zero ≤ k →
      search_loop hw fuel ow v m = .ok (v1, ow1, m1) → ¬ v1.id_bit_number < 65 →
      (search_trace hw fuel ow v m).map (fun r => r.position) = List.range' (k + 1) fuel ∧
      v1.last_zero = (zero_branches (search_trace hw fuel ow v m)).foldl max v.last_zero ∧
      ow1.sst.LastDeviceFlag = ow.sst.LastDeviceFlag
  | 0, _, _, _, _, _, _, _, _, h0, _, _, _, _, _, _ => absurd h0 (Nat.lt_irrefl 0)
  | fuel + 1, k, ow, ow1, v, v1, m, m1, hk, _, hid, hrbn, hmask, hlz, h, hend => by
    unfold search_loop at h
    unfold search_trace
    rcases hr : search_round hw ow v m with f | ⟨c, v2, ow2, m2⟩
    · rw [hr] at h
      simp at h
    cases c
    · rw [hr] at h
      simp only [Except.ok.injEq, Prod.mk.injEq] at h
      have e := search_round_false hw ow ow2 v v2 m m2 hr
      rw [← h.1, e, hid] at hend
      omega
    · rw [hr] at h
      dsimp only at h ⊢
      obtain ⟨a1, a2, a3⟩ := search_round_vars hw ow ow2 v v2 m m2 k (by omega) hid hrbn hmask hr
      obtain ⟨id_bit, cmp_id_bit, _, b2, hb, ht, hv2, hfl⟩ :=
        round_trace_spec hw ow ow2 v v2 m m2 hr
      obtain ⟨z1, z2⟩ := round_last_zero id_bit cmp_id_bit v ow.sst k hid hlz b2 hb
        (zero_branches (if v2.rom_byte_number < 8 then search_trace hw fuel ow2 v2 m2 else []))
      have hlz2 : v2.last_zero = (pick_direction id_bit cmp_id_bit v ow.sst).2.1.last_zero := by
        rw [hv2]
        unfold advance
        dsimp only
        split <;> rfl
      rw [ht, Option.toList_some, List.singleton_append, List.map_cons, zero_branches_cons]
      dsimp only
      rw [z1, ← hlz2]
      by_cases h8 : v2.rom_byte_number < 8
      · rw [if_pos h8] at h ⊢
        rw [a2] at h8
        obtain ⟨r1, r2, r3⟩ := search_loop_trace hw fuel (k + 1) ow2 ow1 v2 v1 m2 m1 (by omega)
          (by omega) a1 a2 a3 (by rw [hlz2]; exact z2) h hend
        refine ⟨?_, r2, r3.trans hfl⟩
        rw [r1, hid, List.range'_succ]
      · rw [if_neg h8] at h ⊢
        simp only [Except.ok.injEq, Prod.mk.injEq] at h
        rw [a2] at h8
        have hf : fuel = 0 := by omega
        subst hf
        refine ⟨?_, ?_, ?_⟩
        · rw [hid]
          rfl
        · rw [← h.1]
          rfl
        · rw [← h.2.1]
          exact hfl

theorem search_finish_true (v : search_vars) (ow ow2 : mgos_rmt_onewire) (rom rom1 : List Nat)
    (h : search_finish v ow rom = (true, rom1, ow2)) :
    ¬ v.id_bit_number < 65 ∧ ow2.sst.LastDiscrepancy = v.last_zero ∧
      ow2.sst.LastDeviceFlag = (decide (v.last_zero = 0) || ow.sst.LastDeviceFlag) := by
  unfold search_finish at h
  by_cases hid : v.id_bit_number < 65
  · simp [hid] at h
  · refine ⟨hid, ?_⟩
    by_cases hl : v.last_zero = 0 <;> by_cases hz : ow.sst.ROM_NO.getD 0 0 = 0 <;>
      simp [-List.getD_eq_getElem?_getD, hid, hl, hz] at h <;>
      obtain ⟨_, rfl⟩ := h <;> simp [hl]

/-- C19: whenever `onewire_rmt_next` returns true, whatever the channel did, the
call completed a round at each of the positions 1, 2, …, 64 in this order;
`LastDiscrepancy` after the call is the highest position at which both bits
read 0 and direction 0 was taken in this call (0 when there was none); and
`LastDeviceFlag` after the call is true exactly when that `LastDiscrepancy`
is 0. -/
theorem next_true_walks_all_positions (hw : Hw σ) (ow ow1 : mgos_rmt_onewire)
    (rom rom1 : List Nat) (m m1 : Machine σ)
    (h : onewire_rmt_next hw ow rom m = .ok (true, rom1, ow1, m1)) :
    (next_trace hw ow m).map (fun r => r.position) = List.range' 1 64 ∧
    ow1.sst.LastDiscrepancy = highest (zero_branches (next_trace hw ow m)) ∧
    (ow1.sst.LastDeviceFlag = true ↔ ow1.sst.LastDiscrepancy = 0) := by
  unfold onewire_rmt_next at h
  unfold next_trace
  dsimp only at h
  by_cases hflag : ow.sst.LastDeviceFlag = true
  · rw [if_neg (by simp [hflag])] at h
    rcases hs : search_finish
      { id_bit_number := 1, last_zero := 0, rom_byte_number := 0, rom_byte_mask := 1 } ow rom
      with ⟨r, rom2, ow2⟩
    rw [hs] at h
    simp only [Except.ok.injEq, Prod.mk.injEq] at h
    rw [h.1] at hs
    exact absurd (by decide) (search_finish_true _ _ _ _ _ hs).1
  · have hf : ow.sst.LastDeviceFlag = false := by simpa using hflag
    rw [if_pos (by simp [hf])] at h
    rw [if_pos (by simp [hf])]
    rcases hr : onewire_rmt_reset hw ow m with f | ⟨ok, m2⟩
    · rw [hr] at h
      simp at h
    cases ok
    · rw [hr] at h
      simp at h
    rw [hr] at h
    dsimp only at h ⊢
    rcases hl : search_loop hw 64 ow
      { id_bit_number := 1, last_zero := 0, rom_byte_number := 0, rom_byte_mask := 1 }
      (onewire_write_bits hw (pin_u8 ow) 0xF0 8 owDefaultPower m2).2 with f | ⟨v1, ow2, m3⟩
    · rw [hl] at h
      simp at h
    rw [hl] at h
    dsimp only at h
    rcases hs : search_finish v1 ow2 rom with ⟨r, rom2, ow3⟩
    rw [hs] at h
    simp only [Except.ok.injEq, Prod.mk.injEq] at h
    obtain ⟨rfl, _, rfl, _⟩ := h
    obtain ⟨s1, s2, s3⟩ := search_finish_true v1 ow2 ow3 rom rom2 hs
    obtain ⟨t1, t2, t3⟩ := search_loop_trace hw 64 0 ow ow2
      { id_bit_number := 1, last_zero := 0, rom_byte_number := 0, rom_byte_mask := 1 } v1
      (onewire_write_bits hw (pin_u8 ow) 0xF0 8 owDefaultPower m2).2 m3 (by norm_num)
      (by norm_num) rfl rfl rfl (Nat.le_refl 0) hl s1
    refine ⟨t1, ?_, ?_⟩
    · rw [s2, t2]
      rfl
    · rw [s3, s2, t3, hf]
      simp

set_option maxRecDepth 100000 in
theorem next_true_walks_all_positions_witness :
    onewire_rmt_next simHw (onewire_rmt_create 4 0 1) [0, 0, 0, 0, 0, 0, 0, 0]
        (sim_machine three_devices 0 1) =
      .ok (true, [0x10, 1, 0, 0, 0, 0, 0, 7],
        (next_state simHw (onewire_rmt_create 4 0 1) [0, 0, 0, 0, 0, 0, 0, 0]
          (sim_machine three_devices 0 1)).1,
        (next_state simHw (onewire_rmt_create 4 0 1) [0, 0, 0, 0, 0, 0, 0, 0]
          (sim_machine three_devices 0 1)).2) ∧
    ((next_trace simHw (onewire_rmt_create 4 0 1) (sim_machine three_devices 0 1)).map
        (fun r => r.position) = List.range' 1 64 ∧
      (next_state simHw (onewire_rmt_create 4 0 1) [0, 0, 0, 0, 0, 0, 0, 0]
        (sim_machine three_devices 0 1)).1.sst.LastDiscrepancy =
        highest (zero_branches
          (next_trace simHw (onewire_rmt_create 4 0 1) (sim_machine three_devices 0 1))) ∧
      ((next_state simHw (onewire_rmt_create 4 0 1) [0, 0, 0, 0, 0, 0, 0, 0]
        (sim_machine three_devices 0 1)).1.sst.LastDeviceFlag = true ↔
       (next_state simHw (onewire_rmt_create 4 0 1) [0, 0, 0, 0, 0, 0, 0, 0]
        (sim_machine three_devices 0 1)).1.sst.LastDiscrepancy = 0)) :=
  ⟨rfl, next_true_walks_all_positions simHw (onewire_rmt_create 4 0 1)
    (next_state simHw (onewire_rmt_create 4 0 1) [0, 0, 0, 0, 0, 0, 0, 0]
      (sim_machine three_devices 0 1)).1
    [0, 0, 0, 0, 0, 0, 0, 0] [0x10, 1, 0, 0, 0, 0, 0, 7] (sim_machine three_devices 0 1)
    (next_state simHw (onewire_rmt_create 4 0 1) [0, 0, 0, 0, 0, 0, 0, 0]
      (sim_machine three_devices 0 1)).2 rfl⟩


/-! ## Decoding of a captured bit group -/

theorem read_slot_lt (acc : Nat) (item : rmt_item32_t) (h : acc < 256) :
    read_slot acc item < 256 := by
  have h1 : acc >>> 1 < 128 := by
    rw [Nat.shiftRight_eq_div_pow]
    omega
  unfold read_slot
  split
  · have : (acc >>> 1) ||| 0x80 < 2 ^ 8 := Nat.or_lt_two_pow (by omega) (by norm_num)
    simpa using this
  · omega

theorem read_slot_testBit (acc : Nat) (item : rmt_item32_t) (h : acc < 256) (j : Nat)
    (hj : j < 8) :
    (read_slot acc item).testBit j =
      if j = 7 then
        decide (item.level1 = 1 ∧ item.level0 = 0 ∧ item.duration0 < OW_DURATION_SAMPLE)
      else acc.testBit (j + 1) := by
  have h7 : acc.testBit 8 = false := Nat.testBit_lt_two_pow (by simpa using h)
  have h128 : ∀ k, Nat.testBit 0x80 k = decide (7 = k) := by
    intro k
    rw [show (0x80 : Nat) = 2 ^ 7 from rfl]
    exact Nat.testBit_two_pow
  unfold read_slot
  by_cases hc : item.level1 = 1 ∧ item.level0 = 0 ∧ item.duration0 < OW_DURATION_SAMPLE
  · rw [if_pos hc, Nat.testBit_or, Nat.testBit_shiftRight, h128]
    by_cases h7j : j = 7
    · subst h7j
      simp [hc]
    · have : ¬ 7 = j := fun e => h7j e.symm
      simp [h7j, this, Nat.add_comm]
  · rw [if_neg hc, Nat.testBit_shiftRight]
    by_cases h7j : j = 7
    · subst h7j
      simp only [if_true]
      rw [show 1 + 7 = 8 from rfl, h7]
      simp [hc]
    · simp [h7j, Nat.add_comm]

theorem foldl_read_slot : ∀ (l : List rmt_item32_t) (acc : Nat), acc < 256 → l.length ≤ 8 →
    l.foldl read_slot acc < 256 ∧
    ∀ j, j < 8 →
      (j + l.length < 8 → (l.foldl read_slot acc).testBit j = acc.testBit (j + l.length)) ∧
      (8 ≤ j + l.length → ∀ it, l[j + l.length - 8]? = some it →
        (l.foldl read_slot acc).testBit j =
          decide (it.level1 = 1 ∧ it.level0 = 0 ∧ it.duration0 < OW_DURATION_SAMPLE))
  | [], acc, h, _ => by
    refine ⟨h, fun j hj => ⟨fun _ => rfl, fun h8 => ?_⟩⟩
    simp at h8
    omega
  | x :: l, acc, h, hl => by
    have hl' : l.length ≤ 8 := by
      simp only [List.length_cons] at hl
      omega
    have hlen : (x :: l).length = l.length + 1 := rfl
    obtain ⟨i1, i2⟩ := foldl_read_slot l (read_slot acc x) (read_slot_lt acc x h) hl'
    rw [List.foldl_cons]
    refine ⟨i1, fun j hj => ?_⟩
    obtain ⟨a, b⟩ := i2 j hj
    rw [hlen]
    constructor
    · intro hlt
      rw [a (by omega), read_slot_testBit acc x h (j + l.length) (by omega),
        if_neg (by omega)]
      rfl
    · intro hge it hit
      by_cases h7 : j + l.length = 7
      · have e : j + (l.length + 1) - 8 = 0 := by omega
        rw [e] at hit
        simp only [List.getElem?_cons_zero, Option.some.injEq] at hit
        rw [a (by omega), read_slot_testBit acc x h (j + l.length) (by omega), if_pos h7, hit]
      · have e : j + (l.length + 1) - 8 = (j + l.length - 8) + 1 := by omega
        rw [e, List.getElem?_cons_succ] at hit
        exact b (by omega) it hit

theorem decode_capture_spec (rx_items : List rmt_item32_t) (num : Nat) (hn : num ≤ 8)
    (hlen : num ≤ rx_items.length) :
    decode_capture rx_items num < 2 ^ num ∧
    ∀ i it, i < num → rx_items[i]? = some it →
      (decode_capture rx_items num).testBit i =
        decide (it.level0 = 0 ∧ it.level1 = 1 ∧ it.duration0 < 13) := by
  have htl : (rx_items.take num).length = num := by
    rw [List.length_take]
    omega
  obtain ⟨f1, f2⟩ := foldl_read_slot (rx_items.take num) 0 (by norm_num) (by omega)
  unfold decode_capture
  rw [if_pos (by omega)]
  constructor
  · rw [Nat.shiftRight_eq_div_pow, Nat.div_lt_iff_lt_mul (by positivity), ← pow_add,
      show num + (8 - num) = 8 by omega]
    simpa using f1
  · intro i it hi hit
    rw [Nat.testBit_shiftRight]
    obtain ⟨_, b⟩ := f2 (8 - num + i) (by omega)
    rw [htl] at b
    have e : 8 - num + i + num - 8 = i := by omega
    have hit' : (rx_items.take num)[8 - num + i + num - 8]? = some it := by
      rw [e, List.getElem?_take_of_lt hi]
      exact hit
    rw [b (by omega) it hit']
    have : OW_DURATION_SAMPLE = 13 := rfl
    rw [this]
    simp only [decide_eq_decide]
    tauto

/-- C21: for every `num ≤ 8`, on an attached channel whose transmission
succeeds and whose receiver delivers a capture `rx_items` of at least `num`
items, `onewire_read_bits` returns true with a value `v < 2^num` in the data byte whose bit
`i` (`i < num`) is 1 exactly when captured item `i` starts low (`level0 = 0`),
then goes high (`level1 = 1`), with a low duration below 13 µs
(`OW_DURATION_SAMPLE`), and is 0 otherwise. -/
theorem read_bits_decodes_capture (hw : Hw σ) (gpio_num data num : Nat)
    (rx_items : List rmt_item32_t) (m : Machine σ) (hn : num ≤ 8) (ha : attached m)
    (htx : ∀ s buf, (hw.rmt_write_items s buf).1 = true)
    (hrx : ∀ s, (hw.ringbuf s).1 = some rx_items) (hlen : num ≤ rx_items.length) :
    ∃ v m1, onewire_read_bits hw gpio_num data num m = .ok (true, v, m1) ∧ v < 2 ^ num ∧
      ∀ i it, i < num → rx_items[i]? = some it →
        v.testBit i = decide (it.level0 = 0 ∧ it.level1 = 1 ∧ it.duration0 < 13) := by
  have h : ¬ (m.ow_rmt.tx < 0 ∨ m.ow_rmt.rx < 0) := by
    have := ha.1; have := ha.2; omega
  have hn' : ¬ num > 8 := by omega
  obtain ⟨d1, d2⟩ := decode_capture_spec rx_items num hn hlen
  refine ⟨decode_capture rx_items num, ?_⟩
  unfold onewire_read_bits onewire_rmt_attach_pin
  by_cases hg : (gpio_num : Int) = m.ow_rmt.gpio
  · simp only [hn', h, hg, if_false, if_true, ne_eq, not_true_eq_false, emit, write_items, htx,
      xRingbufferReceive, hrx]
    exact ⟨_, rfl, d1, d2⟩
  · simp only [hn', h, hg, if_false, if_true, ne_eq, not_false_eq_true, emit, write_items, htx,
      xRingbufferReceive, hrx]
    exact ⟨_, rfl, d1, d2⟩

theorem read_bits_decodes_capture_witness :
    (3 ≤ 8 ∧ attached (init_machine () 0 1) ∧
      (∀ s buf, ((steadyHw sample_capture).rmt_write_items s buf).1 = true) ∧
      (∀ s, ((steadyHw sample_capture).ringbuf s).1 = some sample_capture) ∧
      3 ≤ sample_capture.length ∧
      (onewire_read_bits (steadyHw sample_capture) 4 0 3 (init_machine () 0 1)).toOption.map
        (fun r => (r.1, r.2.1)) = some (true, 5)) ∧
    ∃ v m1, onewire_read_bits (steadyHw sample_capture) 4 0 3 (init_machine () 0 1) =
        .ok (true, v, m1) ∧
      v < 2 ^ 3 ∧
      ∀ i it, i < 3 → sample_capture[i]? = some it →
        v.testBit i = decide (it.level0 = 0 ∧ it.level1 = 1 ∧ it.duration0 < 13) :=
  ⟨⟨by decide, by decide, fun _ _ => rfl, fun _ => rfl, by decide, rfl⟩,
    read_bits_decodes_capture (steadyHw sample_capture) 4 0 3 sample_capture
      (init_machine () 0 1) (by decide) (by decide) (fun _ _ => rfl) (fun _ => rfl)
      (by decide)⟩


/-! ## Range of the search counters -/

theorem pick_direction_range (id_bit cmp_id_bit : Nat) (v : search_vars)
    (sst : platform_onewire_bus_t) (k : Nat) (hid : v.id_bit_number = k + 1)
    (hlz : v.last_zero ≤ k) (hF : sst.LastFamilyDiscrepancy ≤ 8) :
    (pick_direction id_bit cmp_id_bit v sst).2.1.last_zero ≤ k + 1 ∧
    (pick_direction id_bit cmp_id_bit v sst).2.2.LastFamilyDiscrepancy ≤ 8 := by
  unfold pick_direction record_zero
  by_cases hne : id_bit = cmp_id_bit
  · by_cases hd : replay_direction v sst = 0
    · by_cases h9 : v.id_bit_number < 9
      · simp only [hne, hd, h9, ne_eq, not_true_eq_false, if_false, if_true]
        omega
      · simp only [hne, hd, h9, ne_eq, not_true_eq_false, if_false, if_true]
        omega
    · simp only [hne, hd, ne_eq, not_true_eq_false, if_false]
      omega
  · simp only [hne, ne_eq, not_false_eq_true, if_true]
    omega

theorem search_round_range (hw : Hw σ) (ow ow1 : mgos_rmt_onewire) (v v1 : search_vars)
    (m m1 : Machine σ) (c : Bool) (k : Nat) (hid : v.id_bit_number = k + 1)
    (hlz : v.last_zero ≤ k) (hF : ow.sst.LastFamilyDiscrepancy ≤ 8)
    (h : search_round hw ow v m = .ok (c, v1, ow1, m1)) :
    v1.last_zero ≤ k + 1 ∧ ow1.sst.LastFamilyDiscrepancy ≤ 8 := by
  unfold search_round at h
  split at h
  · simp at h
  · simp only [Except.ok.injEq, Prod.mk.injEq] at h
    obtain ⟨_, rfl, rfl, _⟩ := h
    exact ⟨by omega, hF⟩
  · split at h
    · simp at h
    · simp only [Except.ok.injEq, Prod.mk.injEq] at h
      obtain ⟨_, rfl, rfl, _⟩ := h
      exact ⟨by omega, hF⟩
    · rename_i id_bit _ _ _ cmp_id_bit _ _
      split at h
      · simp only [Except.ok.injEq, Prod.mk.injEq] at h
        obtain ⟨_, rfl, rfl, _⟩ := h
        exact ⟨by omega, hF⟩
      · simp only [Except.ok.injEq, Prod.mk.injEq] at h
        obtain ⟨_, rfl, rfl, _⟩ := h
        obtain ⟨p1, p2⟩ := pick_direction_range id_bit cmp_id_bit v ow.sst k hid hlz hF
        constructor
        · have : (advance (pick_direction id_bit cmp_id_bit v ow.sst).2.1).last_zero =
              (pick_direction id_bit cmp_id_bit v ow.sst).2.1.last_zero := by
            unfold advance
            dsimp only
            split <;> rfl
          rw [this]
          exact p1
        · show (store_bit _ _ _).LastFamilyDiscrepancy ≤ 8
          rw [(store_bit_fields _ _ _).2.2.1]
          exact p2

theorem search_loop_range (hw : Hw σ) :
    ∀ (fuel k : Nat) (ow ow1 : mgos_rmt_onewire) (v v1 : search_vars) (m m1 : Machine σ),
      k + fuel = 64 → v.id_bit_number = k + 1 → v.rom_byte_number = k / 8 →
      v.rom_byte_mask = 2 ^ (k % 8) → v.last_zero ≤ k → ow.sst.LastFamilyDiscrepancy ≤ 8 →
      search_loop hw fuel ow v m = .ok (v1, ow1, m1) →
      v1.last_zero ≤ 64 ∧ ow1.sst.LastFamilyDiscrepancy ≤ 8
  | 0, _, _, _, _, _, _, _, _, _, _, _, _, _, h => by
    unfold search_loop at h
    simp at h
  | fuel + 1, k, ow, ow1, v, v1, m, m1, hk, hid, hrbn, hmask, hlz, hF, h => by
    unfold search_loop at h
    rcases hr : search_round hw ow v m with f | ⟨c, v2, ow2, m2⟩
    · rw [hr] at h
      simp at h
    obtain ⟨r1, r2⟩ := search_round_range hw ow ow2 v v2 m m2 c k hid hlz hF hr
    rw [hr] at h
    cases c
    · simp only [Except.ok.injEq, Prod.mk.injEq] at h
      obtain ⟨rfl, rfl, _⟩ := h
      exact ⟨by omega, r2⟩
    · dsimp only at h
      obtain ⟨a1, a2, a3⟩ := search_round_vars hw ow ow2 v v2 m m2 k (by omega) hid hrbn hmask hr
      by_cases h8 : v2.rom_byte_number < 8
      · rw [if_pos h8] at h
        rw [a2] at h8
        exact search_loop_range hw fuel (k + 1) ow2 ow1 v2 v1 m2 m1 (by omega) a1 a2 a3 r1 r2 h
      · rw [if_neg h8] at h
        simp only [Except.ok.injEq, Prod.mk.injEq] at h
        obtain ⟨rfl, rfl, _⟩ := h
        exact ⟨by omega, r2⟩

theorem search_finish_range (v : search_vars) (ow ow2 : mgos_rmt_onewire) (rom rom1 : List Nat)
    (r : Bool) (hlz : v.last_zero ≤ 64) (hF : ow.sst.LastFamilyDiscrepancy ≤ 8)
    (h : search_finish v ow rom = (r, rom1, ow2)) :
    ow2.sst.LastDiscrepancy ≤ 64 ∧ ow2.sst.LastFamilyDiscrepancy ≤ 8 := by
  unfold search_finish at h
  by_cases hid : v.id_bit_number < 65
  · simp [hid, reset_counters] at h
    obtain ⟨_, _, rfl⟩ := h
    simp
  · by_cases hl : v.last_zero = 0 <;> by_cases hz : ow.sst.ROM_NO.getD 0 0 = 0 <;>
      simp [-List.getD_eq_getElem?_getD, hid, hl, hz, reset_counters] at h <;>
      obtain ⟨_, _, rfl⟩ := h <;> simp [hF, hlz]

/-- C22: range invariant of the search state.  If `LastDiscrepancy ≤ 64` and
`LastFamilyDiscrepancy ≤ 8` hold before a call, they hold in the state that
every returning call of `onewire_rmt_next` leaves, whatever the channel does and whether
the call returns true or false (a call that does not return leaves the state
of entry, `next_state`); they hold after `onewire_rmt_target_setup` and
`onewire_rmt_search_clean`, and in the state made by `onewire_rmt_create`. -/
theorem search_counters_in_range (hw : Hw σ) (ow : mgos_rmt_onewire) (rom : List Nat)
    (m : Machine σ) (family_code : Nat) (pin rmt_rx rmt_tx : Int)
    (hL : ow.sst.LastDiscrepancy ≤ 64) (hF : ow.sst.LastFamilyDiscrepancy ≤ 8) :
    (∀ r rom1 ow1 m1, onewire_rmt_next hw ow rom m = .ok (r, rom1, ow1, m1) →
      ow1.sst.LastDiscrepancy ≤ 64 ∧ ow1.sst.LastFamilyDiscrepancy ≤ 8) ∧
    ((next_state hw ow rom m).1.sst.LastDiscrepancy ≤ 64 ∧
      (next_state hw ow rom m).1.sst.LastFamilyDiscrepancy ≤ 8) ∧
    ((onewire_rmt_target_setup ow family_code).sst.LastDiscrepancy ≤ 64 ∧
      (onewire_rmt_target_setup ow family_code).sst.LastFamilyDiscrepancy ≤ 8) ∧
    ((onewire_rmt_search_clean ow).sst.LastDiscrepancy ≤ 64 ∧
      (onewire_rmt_search_clean ow).sst.LastFamilyDiscrepancy ≤ 8) ∧
    ((onewire_rmt_create pin rmt_rx rmt_tx).sst.LastDiscrepancy ≤ 64 ∧
      (onewire_rmt_create pin rmt_rx rmt_tx).sst.LastFamilyDiscrepancy ≤ 8) := by
  have key : ∀ r rom1 ow1 m1, onewire_rmt_next hw ow rom m = .ok (r, rom1, ow1, m1) →
      ow1.sst.LastDiscrepancy ≤ 64 ∧ ow1.sst.LastFamilyDiscrepancy ≤ 8 := by
    intro r rom1 ow1 m1 h
    unfold onewire_rmt_next at h
    dsimp only at h
    split at h
    · rcases hr : onewire_rmt_reset hw ow m with f | ⟨ok, m2⟩
      · rw [hr] at h
        simp at h
      rw [hr] at h
      cases ok
      · simp only [Except.ok.injEq, Prod.mk.injEq] at h
        obtain ⟨_, _, rfl, _⟩ := h
        simp [reset_counters]
      · dsimp only at h
        rcases hl : search_loop hw 64 ow
          { id_bit_number := 1, last_zero := 0, rom_byte_number := 0, rom_byte_mask := 1 }
          (onewire_write_bits hw (pin_u8 ow) 0xF0 8 owDefaultPower m2).2 with f | ⟨v1, ow2, m3⟩
        · rw [hl] at h
          simp at h
        rw [hl] at h
        dsimp only at h
        obtain ⟨l1, l2⟩ := search_loop_range hw 64 0 ow ow2 _ v1 _ m3 (by norm_num) rfl rfl rfl
          (Nat.le_refl 0) hF hl
        rcases hs : search_finish v1 ow2 rom with ⟨r2, rom2, ow3⟩
        rw [hs] at h
        simp only [Except.ok.injEq, Prod.mk.injEq] at h
        obtain ⟨_, _, rfl, _⟩ := h
        exact search_finish_range v1 ow2 ow3 rom rom2 r2 l1 l2 hs
    · rcases hs : search_finish
        { id_bit_number := 1, last_zero := 0, rom_byte_number := 0, rom_byte_mask := 1 } ow rom
        with ⟨r2, rom2, ow3⟩
      rw [hs] at h
      simp only [Except.ok.injEq, Prod.mk.injEq] at h
      obtain ⟨_, _, rfl, _⟩ := h
      exact search_finish_range _ ow ow3 rom rom2 r2 (by norm_num) hF hs
  refine ⟨key, ?_, ?_, ?_, ?_⟩
  · unfold next_state
    rcases hn : onewire_rmt_next hw ow rom m with f | ⟨r, rom1, ow1, m1⟩
    · exact ⟨hL, hF⟩
    · exact key r rom1 ow1 m1 hn
  · exact ⟨Nat.le_refl 64, Nat.zero_le 8⟩
  · exact ⟨Nat.zero_le 64, Nat.zero_le 8⟩
  · exact ⟨Nat.zero_le 64, Nat.zero_le 8⟩

theorem search_counters_in_range_witness :
    (busy_bus.sst.LastDiscrepancy ≤ 64 ∧ busy_bus.sst.LastFamilyDiscrepancy ≤ 8) ∧
    ((∀ r rom1 ow1 m1, onewire_rmt_next simHw busy_bus [0, 0, 0, 0, 0, 0, 0, 0] (sim_machine three_devices 0 1) =
        .ok (r, rom1, ow1, m1) →
      ow1.sst.LastDiscrepancy ≤ 64 ∧ ow1.sst.LastFamilyDiscrepancy ≤ 8) ∧
    ((next_state simHw busy_bus [0, 0, 0, 0, 0, 0, 0, 0] (sim_machine three_devices 0 1)).1.sst.LastDiscrepancy ≤ 64 ∧
      (next_state simHw busy_bus [0, 0, 0, 0, 0, 0, 0, 0] (sim_machine three_devices 0 1)).1.sst.LastFamilyDiscrepancy ≤ 8) ∧
    ((onewire_rmt_target_setup busy_bus 0x28).sst.LastDiscrepancy ≤ 64 ∧
      (onewire_rmt_target_setup busy_bus 0x28).sst.LastFamilyDiscrepancy ≤ 8) ∧
    ((onewire_rmt_search_clean busy_bus).sst.LastDiscrepancy ≤ 64 ∧
      (onewire_rmt_search_clean busy_bus).sst.LastFamilyDiscrepancy ≤ 8) ∧
    ((onewire_rmt_create 4 0 1).sst.LastDiscrepancy ≤ 64 ∧
      (onewire_rmt_create 4 0 1).sst.LastFamilyDiscrepancy ≤ 8)) :=
  ⟨by decide, search_counters_in_range simHw busy_bus [0, 0, 0, 0, 0, 0, 0, 0]
    (sim_machine three_devices 0 1) 0x28 4 0 1 (by decide) (by decide)⟩


/-! ## Item indices read by the presence test -/

theorem presence_reads_outside (rx_items : List rmt_item32_t) :
    (∃ i ∈ presence_reads rx_items, rx_items.length ≤ i) ↔
      ∃ it0, rx_items = [it0] ∧ it0.level0 = 0 ∧ it0.duration0 ≥ OW_DURATION_RESET - 2 ∧
        it0.level1 = 1 ∧ it0.duration1 > 0 := by
  unfold presence_reads
  match rx_items with
  | [] => simp
  | [it0] =>
    simp only [List.length_singleton, List.getElem?_cons_zero]
    split_ifs with h0 h1 h2
    · constructor
      · intro _
        exact ⟨it0, rfl, h1.1, h1.2, h2.1, h2.2⟩
      · intro _
        exact ⟨1, by simp, Nat.le_refl 1⟩
    · constructor
      · rintro ⟨i, hi, hle⟩
        simp only [List.mem_singleton] at hi
        omega
      · rintro ⟨it, hit, _, _, c, d⟩
        cases hit
        exact absurd ⟨c, d⟩ h2
    · constructor
      · rintro ⟨i, hi, hle⟩
        simp only [List.mem_singleton] at hi
        omega
      · rintro ⟨it, hit, a, b, _, _⟩
        cases hit
        exact absurd ⟨a, b⟩ h1
    · omega
  | it0 :: it1 :: rest =>
    simp only [List.length_cons, List.getElem?_cons_zero]
    split_ifs with h0 h1 h2
    · simp
    · simp
    · simp
    · omega

theorem parse_presence_fault (rx_items : List rmt_item32_t) :
    parse_presence rx_items = .error Fault.out_of_bounds ↔
      ∃ i ∈ presence_reads rx_items, rx_items.length ≤ i := by
  unfold parse_presence presence_reads
  match rx_items with
  | [] => simp
  | [it0] =>
    simp only [List.length_singleton, List.getElem?_cons_zero]
    split_ifs with h0 h1 h2
    · simp
    · simp
    · simp
    · omega
  | it0 :: it1 :: rest =>
    simp only [List.length_cons, List.getElem?_cons_zero]
    split_ifs with h0 h1 h2
    · simp
    · simp
    · simp
    · omega

/-- C23: the presence test of `onewire_rmt_reset` does not stay inside every capture of at
least one item.  It reads an index outside the capture exactly when the capture
holds one item that is low for at least 478 µs and then high for a non-zero
time: there it reads index 1 of a capture of length 1, and the call has no
defined result (shown on the capture low 500 µs, high 3 µs). -/
theorem presence_test_reads_index_one (rx_items : List rmt_item32_t) :
    ((∀ i ∈ presence_reads rx_items, i < rx_items.length) ↔
      ¬ ∃ it0, rx_items = [it0] ∧ it0.level0 = 0 ∧ it0.duration0 ≥ 478 ∧
        it0.level1 = 1 ∧ it0.duration1 > 0) ∧
    (parse_presence rx_items = .error Fault.out_of_bounds ↔
      ¬ ∀ i ∈ presence_reads rx_items, i < rx_items.length) ∧
    presence_reads [{ duration0 := 500, level0 := 0, duration1 := 3, level1 := 1 }] = [0, 1] ∧
    onewire_rmt_reset captureHw (onewire_rmt_create 4 0 1)
      (init_machine (some [{ duration0 := 500, level0 := 0, duration1 := 3, level1 := 1 }]) 0 1) =
      .error Fault.out_of_bounds := by
  have e : (∀ i ∈ presence_reads rx_items, i < rx_items.length) ↔
      ¬ ∃ i ∈ presence_reads rx_items, rx_items.length ≤ i := by
    constructor
    · rintro h ⟨i, hi, hle⟩
      exact absurd (h i hi) (by omega)
    · intro h i hi
      by_contra hlt
      exact h ⟨i, hi, by omega⟩
  refine ⟨?_, ?_, rfl, rfl⟩
  · rw [e, presence_reads_outside]
    rfl
  · rw [e, not_not]
    exact parse_presence_fault rx_items


/-! ## The byte loops and their 16-bit counter -/

theorem write_bits_steady (hw : Hw σ) (gpio_num data num power : Nat) (m : Machine σ)
    (hn : num ≤ 8) (ha : attached m)
    (htx : ∀ s buf, (hw.rmt_write_items s buf).1 = true) :
    (onewire_write_bits hw gpio_num data num power m).1 = true := by
  obtain ⟨h1, _⟩ := attach_log hw gpio_num m ha
  rcases hat : onewire_rmt_attach_pin hw (gpio_num : Int) m with ⟨ok, ma⟩
  rw [hat] at h1
  simp only at h1
  subst h1
  unfold onewire_write_bits
  rw [if_neg (by omega), hat]
  simp only [write_items, htx]

theorem take_set_self (l : List Nat) (i d : Nat) : (l.set i d).take i = l.take i :=
  List.ext_getElem? fun k => by
    rw [List.getElem?_take, List.getElem?_take]
    split
    · rw [List.getElem?_set_ne (by omega)]
    · rfl

theorem receive_steady (hw : Hw σ) (wait : TickType) (m : Machine σ)
    (hrx : ∀ s, (hw.ringbuf s).1 ≠ none) :
    (∀ f, xRingbufferReceive hw wait m ≠ .error f) ∧
    (∀ m1, xRingbufferReceive hw wait m ≠ .ok (none, m1)) ∧
    (∀ r m1, xRingbufferReceive hw wait m = .ok (r, m1) →
      m1.ow_rmt = m.ow_rmt ∧ m1.log = m.log ++ [Event.receive wait]) := by
  unfold xRingbufferReceive
  rcases hq : (hw.ringbuf m.hw).1 with _ | c
  · exact absurd hq (hrx _)
  · refine ⟨fun f h => ?_, fun m1 h => ?_, fun r m1 h => ?_⟩
    · simp at h
    · simp at h
    · simp only [Except.ok.injEq, Prod.mk.injEq] at h
      rw [← h.2]
      exact ⟨rfl, rfl⟩

theorem read_bits_steady (hw : Hw σ) (gpio_num data num : Nat) (m : Machine σ)
    (hn : num ≤ 8) (ha : attached m)
    (htx : ∀ s buf, (hw.rmt_write_items s buf).1 = true)
    (hrx : ∀ s, (hw.ringbuf s).1 ≠ none) :
    ∃ d m1, onewire_read_bits hw gpio_num data num m = .ok (true, d, m1) ∧ attached m1 ∧
      receive_count m1.log = receive_count m.log + 1 := by
  obtain ⟨h1, h2, _, _, h5⟩ := attach_log hw gpio_num m ha
  rcases hat : onewire_rmt_attach_pin hw (gpio_num : Int) m with ⟨ok, ma⟩
  rw [hat] at h1 h2 h5
  simp only at h1 h2 h5
  subst h1
  unfold onewire_read_bits
  rw [if_neg (by omega), hat]
  simp only [write_items, htx]
  split
  · rename_i f heq
    exact absurd heq ((receive_steady hw _ _ hrx).1 f)
  · rename_i c m6 heq
    obtain ⟨q1, q2⟩ := (receive_steady hw _ _ hrx).2.2 _ _ heq
    refine ⟨_, _, rfl, ?_, ?_⟩
    · have : attached m6 := by
        unfold attached
        rw [q1]
        exact h2
      exact this
    · simp [emit, receive_count_append, receive_count, h5, q2]
  · rename_i m6 heq
    exact absurd heq ((receive_steady hw _ _ hrx).2.1 m6)

/-- With a length of at most 65535 the write loop ends: on a channel whose
transmissions succeed it hands over the bursts for `buf[0]`, …, `buf[n-1]`, in
this order, and returns. -/
theorem write_bytes_loop_short (hw : Hw σ) (ow : mgos_rmt_onewire) (buf : List Nat) (n : Nat)
    (hn : n < 65536) (hbuf : n ≤ buf.length)
    (htx : ∀ s b, (hw.rmt_write_items s b).1 = true) :
    ∀ (fuel i : Nat) (m : Machine σ), i ≤ n → n - i < fuel → attached m →
      ∃ m1, write_bytes_loop hw ow buf (n : Int) fuel i m = .ok m1 ∧
        transmitted m1.log =
          transmitted m.log ++ ((buf.drop i).take (n - i)).map (fun b => write_burst b 8)
  | 0, i, m, _, hf, _ => absurd hf (Nat.not_lt_zero _)
  | fuel + 1, i, m, hi, hf, ha => by
    unfold write_bytes_loop
    by_cases hlt : (i : Int) < (n : Int)
    · have hin : i < n := by exact_mod_cast hlt
      have hil : i < buf.length := by omega
      rw [if_pos hlt, List.getElem?_eq_getElem hil]
      dsimp only
      obtain ⟨w1, w2, _, _⟩ :=
        write_bits_log hw (pin_u8 ow) buf[i] 8 owDefaultPower m (by norm_num) ha
      have w0 := write_bits_steady hw (pin_u8 ow) buf[i] 8 owDefaultPower m (by norm_num) ha htx
      rcases hw8 : onewire_write_bits hw (pin_u8 ow) buf[i] 8 owDefaultPower m with ⟨ok, ma⟩
      rw [hw8] at w0 w1 w2
      simp only at w0 w1 w2
      subst w0
      dsimp only
      rw [Nat.mod_eq_of_lt (by omega)]
      obtain ⟨m1, e1, e2⟩ :=
        write_bytes_loop_short hw ow buf n hn hbuf htx fuel (i + 1) ma (by omega) (by omega) w1
      refine ⟨m1, e1, ?_⟩
      rw [e2, w2, List.drop_eq_getElem_cons hil, show n - i = (n - (i + 1)) + 1 by omega,
        List.take_succ_cons, List.map_cons, List.append_assoc]
      rfl
    · rw [if_neg hlt]
      have : n - i = 0 := by
        have : ¬ i < n := fun c => hlt (by exact_mod_cast c)
        omega
      refine ⟨m, rfl, ?_⟩
      rw [this]
      simp

/-- With a length above 65535 the counter of the write loop never reaches it. -/
theorem write_bytes_loop_wraps (hw : Hw σ) (ow : mgos_rmt_onewire) (buf : List Nat) (len : Int)
    (hlen : 65535 < len) (hbuf : 65536 ≤ buf.length)
    (htx : ∀ s b, (hw.rmt_write_items s b).1 = true) :
    ∀ (fuel i : Nat) (m : Machine σ), i < 65536 → attached m →
      write_bytes_loop hw ow buf len fuel i m = .error Fault.fuel
  | 0, _, _, _, _ => rfl
  | fuel + 1, i, m, hi, ha => by
    unfold write_bytes_loop
    have hlt : (i : Int) < len := by omega
    have hil : i < buf.length := by omega
    rw [if_pos hlt, List.getElem?_eq_getElem hil]
    dsimp only
    obtain ⟨w1, _⟩ :=
      write_bits_log hw (pin_u8 ow) buf[i] 8 owDefaultPower m (by norm_num) ha
    have w0 := write_bits_steady hw (pin_u8 ow) buf[i] 8 owDefaultPower m (by norm_num) ha htx
    rcases hw8 : onewire_write_bits hw (pin_u8 ow) buf[i] 8 owDefaultPower m with ⟨ok, ma⟩
    rw [hw8] at w0 w1
    simp only at w0 w1
    subst w0
    dsimp only
    exact write_bytes_loop_wraps hw ow buf len hlen hbuf htx fuel ((i + 1) % 65536) ma
      (Nat.mod_lt _ (by norm_num)) w1

/-- With a length of at most 65535 the read loop ends after `n` reads and
leaves the buffer beyond index `n - 1` as it was. -/
theorem read_bytes_loop_short (hw : Hw σ) (ow : mgos_rmt_onewire) (n : Nat) (hn : n < 65536)
    (htx : ∀ s b, (hw.rmt_write_items s b).1 = true)
    (hrx : ∀ s, (hw.ringbuf s).1 ≠ none) :
    ∀ (fuel i : Nat) (buf : List Nat) (m : Machine σ), i ≤ n → n ≤ buf.length →
      n - i < fuel → attached m →
      ∃ buf1 m1, read_bytes_loop hw ow (n : Int) fuel i i buf m = .ok (buf1, m1) ∧
        receive_count m1.log = receive_count m.log + (n - i) ∧
        buf1.length = buf.length ∧ buf1.drop n = buf.drop n ∧ buf1.take i = buf.take i
  | 0, i, _, m, _, _, hf, _ => absurd hf (Nat.not_lt_zero _)
  | fuel + 1, i, buf, m, hi, hbuf, hf, ha => by
    unfold read_bytes_loop
    by_cases hlt : (i : Int) < (n : Int)
    · have hin : i < n := by exact_mod_cast hlt
      rw [if_pos hlt]
      obtain ⟨d, ma, e1, e2, e3⟩ :=
        read_bits_steady hw (pin_u8 ow) (buf.getD i 0) 8 m (by norm_num) ha htx hrx
      rw [e1]
      dsimp only
      rw [if_neg (by omega), if_pos rfl, Nat.mod_eq_of_lt (by omega)]
      obtain ⟨buf1, m1, r1, r2, r3, r4, r5⟩ :=
        read_bytes_loop_short hw ow n hn htx hrx fuel (i + 1) (buf.set i d) ma (by omega)
          (by rw [List.length_set]; exact hbuf) (by omega) e2
      refine ⟨buf1, m1, r1, ?_, ?_, ?_, ?_⟩
      · rw [r2, e3]
        omega
      · rw [r3, List.length_set]
      · rw [r4, List.drop_set_of_lt _ _ hin]
      · have := congrArg (List.take i) r5
        rw [List.take_take, List.take_take, Nat.min_eq_left (by omega),
          take_set_self] at this
        exact this
    · rw [if_neg hlt]
      have : n - i = 0 := by
        have : ¬ i < n := fun c => hlt (by exact_mod_cast c)
        omega
      exact ⟨buf, m, rfl, by rw [this]; rfl, rfl, rfl, rfl⟩

/-- With a length above 65535 the read loop goes on until its pointer leaves
the buffer. -/
theorem read_bytes_loop_wraps (hw : Hw σ) (ow : mgos_rmt_onewire) (len : Int)
    (hlen : 65535 < len) (htx : ∀ s b, (hw.rmt_write_items s b).1 = true)
    (hrx : ∀ s, (hw.ringbuf s).1 ≠ none) :
    ∀ (fuel i p : Nat) (buf : List Nat) (m : Machine σ), i < 65536 → p ≤ buf.length →
      attached m →
      read_bytes_loop hw ow len fuel i p buf m =
        .error (if fuel ≤ buf.length - p then Fault.fuel else Fault.out_of_bounds)
  | 0, _, _, _, _, _, _, _ => by
    rw [if_pos (Nat.zero_le _)]
    rfl
  | fuel + 1, i, p, buf, m, hi, hp, ha => by
    unfold read_bytes_loop
    have hlt : (i : Int) < len := by omega
    rw [if_pos hlt]
    obtain ⟨d, ma, e1, e2, _⟩ :=
      read_bits_steady hw (pin_u8 ow) (buf.getD p 0) 8 m (by norm_num) ha htx hrx
    obtain ⟨a1, _⟩ := attach_log hw (pin_u8 ow : Nat) m ha
    rw [e1]
    dsimp only
    by_cases hpl : p < buf.length
    · rw [if_neg (by omega), if_pos rfl]
      rw [read_bytes_loop_wraps hw ow len hlen htx hrx fuel ((i + 1) % 65536) (p + 1)
        (buf.set p d) ma (Nat.mod_lt _ (by norm_num)) (by rw [List.length_set]; omega) e2,
        List.length_set]
      by_cases hf : fuel ≤ buf.length - (p + 1)
      · rw [if_pos hf, if_pos (by omega)]
      · rw [if_neg hf, if_neg (by omega)]
    · rw [if_pos ⟨by omega, a1⟩, if_neg (by omega)]

/-- For every length up to 65535 (negative lengths included) and a channel that
always succeeds, the two byte loops return after `max(len, 0)` transfers, in
index order. -/
theorem byte_loops_end_up_to_65535 (hw : Hw σ) (ow : mgos_rmt_onewire) (buf : List Nat)
    (len : Int) (m : Machine σ) (ha : attached m)
    (htx : ∀ s b, (hw.rmt_write_items s b).1 = true)
    (hrx : ∀ s, (hw.ringbuf s).1 ≠ none) (hlen : len ≤ 65535)
    (hbuf : len ≤ (buf.length : Int)) :
    (∃ m1, onewire_rmt_write_bytes hw ow buf len (len.toNat + 1) m = .ok m1 ∧
      transmitted m1.log =
        transmitted m.log ++ (buf.take len.toNat).map (fun b => write_burst b 8)) ∧
    (∃ buf1 m2, onewire_rmt_read_bytes hw ow buf len (len.toNat + 1) m = .ok (buf1, m2) ∧
      receive_count m2.log = receive_count m.log + len.toNat ∧
      buf1.length = buf.length ∧ buf1.drop len.toNat = buf.drop len.toNat) := by
  by_cases hneg : len < 0
  · have h0 : len.toNat = 0 := by omega
    have hc : ¬ ((0 : Nat) : Int) < len := by omega
    rw [h0]
    constructor
    · refine ⟨m, ?_, by simp⟩
      unfold onewire_rmt_write_bytes write_bytes_loop
      rw [if_neg hc]
    · refine ⟨buf, m, ?_, rfl, rfl, rfl⟩
      unfold onewire_rmt_read_bytes read_bytes_loop
      rw [if_neg hc]
  · have hcast : len = ((len.toNat : Nat) : Int) := by omega
    have hn : len.toNat < 65536 := by omega
    have hb : len.toNat ≤ buf.length := by omega
    constructor
    · obtain ⟨m1, e1, e2⟩ := write_bytes_loop_short hw ow buf len.toNat hn hb htx
        (len.toNat + 1) 0 m (Nat.zero_le _) (by omega) ha
      refine ⟨m1, ?_, ?_⟩
      · unfold onewire_rmt_write_bytes
        rw [← hcast] at e1
        exact e1
      · rw [e2]
        rfl
    · obtain ⟨buf1, m2, e1, e2, e3, e4, _⟩ := read_bytes_loop_short hw ow len.toNat hn htx hrx
        (len.toNat + 1) 0 buf m (Nat.zero_le _) hb (by omega) ha
      refine ⟨buf1, m2, ?_, e2, e3, e4⟩
      unfold onewire_rmt_read_bytes
      rw [← hcast] at e1
      exact e1

/-- C24: for a length above 65535 the byte loops do not end after `len`
transfers.  On a channel that always succeeds, with `len > 65535` bytes in the
caller's buffer, the 16-bit counter of `onewire_rmt_write_bytes` wraps to 0 before it
reaches `len`, so the loop runs through every bound on its rounds (it starts
over at `buf[0]`); the loop of `onewire_rmt_read_bytes` runs on as well, and its pointer
leaves the buffer after `buf.length` rounds. -/
theorem byte_loops_never_end_above_65535 (hw : Hw σ) (ow : mgos_rmt_onewire) (buf : List Nat)
    (len : Int) (fuel : Nat) (m : Machine σ) (ha : attached m)
    (htx : ∀ s b, (hw.rmt_write_items s b).1 = true)
    (hrx : ∀ s, (hw.ringbuf s).1 ≠ none) (hlen : 65535 < len)
    (hbuf : len ≤ (buf.length : Int)) :
    onewire_rmt_write_bytes hw ow buf len fuel m = .error Fault.fuel ∧
    onewire_rmt_read_bytes hw ow buf len fuel m =
      .error (if fuel ≤ buf.length then Fault.fuel else Fault.out_of_bounds) := by
  constructor
  · exact write_bytes_loop_wraps hw ow buf len hlen (by omega) htx fuel 0 m (by norm_num) ha
  · exact read_bytes_loop_wraps hw ow len hlen htx hrx fuel 0 0 buf m (by norm_num)
      (Nat.zero_le _) ha

theorem byte_loops_never_end_above_65535_witness :
    (attached (init_machine () 0 1) ∧
      (∀ s b, ((steadyHw sample_capture).rmt_write_items s b).1 = true) ∧
      (∀ s, ((steadyHw sample_capture).ringbuf s).1 ≠ none) ∧
      (65535 : Int) < 65536 ∧
      (65536 : Int) ≤ ((List.replicate 65536 0x44).length : Int)) ∧
    (onewire_rmt_write_bytes (steadyHw sample_capture) (onewire_rmt_create 4 0 1)
        (List.replicate 65536 0x44) 65536 70000 (init_machine () 0 1) = .error Fault.fuel ∧
     onewire_rmt_read_bytes (steadyHw sample_capture) (onewire_rmt_create 4 0 1)
        (List.replicate 65536 0x44) 65536 70000 (init_machine () 0 1) =
      .error (if 70000 ≤ (List.replicate 65536 0x44).length then Fault.fuel
        else Fault.out_of_bounds)) :=
  ⟨⟨by decide, fun _ _ => rfl, fun _ => Option.some_ne_none _, by decide,
    by rw [List.length_replicate]; decide⟩,
    byte_loops_never_end_above_65535 (steadyHw sample_capture) (onewire_rmt_create 4 0 1)
      (List.replicate 65536 0x44) 65536 70000 (init_machine () 0 1) (by decide)
      (fun _ _ => rfl) (fun _ => Option.some_ne_none _) (by decide)
      (by rw [List.length_replicate]; decide)⟩


end Onewire
